import Mathlib

/-!
# The read-ahead pipeline of `cmdline/io.c`

A shallow embedding of the block-I/O staging core (`io_init`, `io_start`,
`io_position_next`, `io_reader_sched`, `io_reader_step`, `io_read_next`,
`io_task_read`, `io_reader_worker`, `io_reader_thread`, `io_stop`) followed by
the properties proved about it.

Conventions of the embedding

* `IO_MAX` (the ring depth) is declared in `io.h`; it is an explicit parameter.
* `block_off_t` is a 32 bit unsigned integer: positions are natural numbers
  and the increment of `block_next` is taken modulo `2 ^ 32`.
* `reader_list` is an array of `unsigned char`: every store into it is taken
  modulo `256`.
* A pointer into `buffer_map` is the pair `(slot, entry)` standing for
  `buffer_map[slot][entry]`; a pointer to a task is the pair `(worker, slot)`
  standing for `&reader_map[worker].task_map[slot]`.
* Memory handed out by `malloc_nofail` is not initialised: its content is an
  explicit argument of `io_init`.
* The mutex makes `io_reader_step`, `io_task_read` and the locked part of
  `io_read_next` atomic; the threads are interleaved by an explicit list of
  events.
* A failing `assert` aborts the program: `io_read_next` has no result then.
* The reader callbacks are arguments; they receive the task and give back the
  task they leave.
* The counts of workers and buffers are natural numbers: they are far below
  `2 ^ 32`, since `io_init` allocates a worker record for each.
* The mutex and the condition variables themselves, the allocation and the
  self test of `buffer_map`, and the joins of `io_stop` are left out.
-/

namespace Snapraid

/-! ## Data model -/

/-- The task states used by `io.c`. -/
inductive TaskState where
  | TASK_STATE_EMPTY
  | TASK_STATE_READY
  deriving DecidableEq, Repr

/-- An entry of `handle_map`; `io.c` reads only its `disk` pointer. -/
structure snapraid_handle where
  disk : Option Nat
  deriving DecidableEq, Repr

/-- An entry of `parity_handle_map`; `io.c` only takes its address. -/
structure snapraid_parity_handle where
  id : Nat
  deriving DecidableEq, Repr

/-- One block read: `struct snapraid_task`, with the fields `io.c` writes. -/
structure snapraid_task where
  state : TaskState
  path0 : Nat
  disk : Option Nat
  buffer : Nat × Nat
  position : Nat
  block : Option Nat
  file : Option Nat
  file_pos : Nat
  read_size : Nat
  is_timestamp_different : Bool
  deriving DecidableEq, Repr

/-- One reader: `struct snapraid_worker`. The callback `func` receives the
task it has to fill; `task_map` is the array of `IO_MAX` tasks, always
indexed modulo `IO_MAX`. -/
structure snapraid_worker where
  handle : Option snapraid_handle
  parity_handle : Option snapraid_parity_handle
  func : snapraid_task → snapraid_task
  buffer_skew : Nat
  index : Nat
  task_map : Nat → snapraid_task

/-- The shared record `struct snapraid_io`. -/
structure snapraid_io where
  buffer_max : Nat
  reader_max : Nat
  reader_map : List snapraid_worker
  reader_list : List Nat
  data_base : Nat
  data_count : Nat
  parity_base : Nat
  parity_count : Nat
  block_start : Nat
  block_max : Nat
  block_next : Nat
  block_is_enabled : Nat → Bool
  done : Bool
  reader_index : Nat

/-- Number of values of `block_off_t`. -/
def BLOCK_OFF_MOD : Nat := 4294967296

/-- Number of values of an `unsigned char`. -/
def UCHAR_MOD : Nat := 256

/-! ## io_init -/

/-- The worker set up by the body of the loop of `io_init` for index `i`,
starting from the uninitialised memory `w`. -/
def io_init_worker (w : snapraid_worker)
    (data_reader : snapraid_task → snapraid_task)
    (handle_map : List snapraid_handle) (handle_max : Nat)
    (parity_reader : snapraid_task → snapraid_task)
    (parity_handle_map : List snapraid_parity_handle) (parity_handle_max : Nat)
    (i : Nat) : snapraid_worker :=
  if i < handle_max then
    { w with
      handle := handle_map[i]?
      parity_handle := none
      func := data_reader
      buffer_skew := 0 }
  else
    { w with
      handle := none
      parity_handle := parity_handle_map[i - handle_max]?
      func := parity_reader
      buffer_skew := parity_handle_max }

/-- The function `io_init`. `mem_worker i` and `mem_list k` are the content of
the memory returned by `malloc_nofail` for `reader_map[i]` and for
`reader_list[k]`. -/
def io_init (io : snapraid_io) (buffer_max : Nat)
    (data_reader : snapraid_task → snapraid_task)
    (handle_map : List snapraid_handle) (handle_max : Nat)
    (parity_reader : snapraid_task → snapraid_task)
    (parity_handle_map : List snapraid_parity_handle) (parity_handle_max : Nat)
    (mem_worker : Nat → snapraid_worker) (mem_list : Nat → Nat) : snapraid_io :=
  { io with
    buffer_max := buffer_max
    reader_max := handle_max + parity_handle_max
    reader_map := (List.range (handle_max + parity_handle_max)).map (fun i =>
      io_init_worker (mem_worker i) data_reader handle_map handle_max
        parity_reader parity_handle_map parity_handle_max i)
    reader_list := (List.range (handle_max + parity_handle_max + 1)).map
      (fun k => mem_list k % UCHAR_MOD)
    data_base := 0
    data_count := handle_max
    parity_base := handle_max
    parity_count := parity_handle_max }

/-! ## io_position_next -/

/-- The `while` loop of `io_position_next`, run for at most `fuel`
iterations from `block_next`. Inside the loop `block_next < block_max`, so
the increment cannot wrap. -/
def io_position_skip (block_is_enabled : Nat → Bool) (block_max : Nat) :
    Nat → Nat → Nat
  | 0, block_next => block_next
  | fuel + 1, block_next =>
    if block_next < block_max ∧ block_is_enabled block_next = false then
      io_position_skip block_is_enabled block_max fuel (block_next + 1)
    else
      block_next

/-- The function `io_position_next`: the position found and the new state.
The loop leaves after at most `block_max - block_next` iterations. -/
def io_position_next (io : snapraid_io) : Nat × snapraid_io :=
  let blockcur := io_position_skip io.block_is_enabled io.block_max
    (io.block_max - io.block_next) io.block_next
  (blockcur, { io with block_next := (blockcur + 1) % BLOCK_OFF_MOD })

/-! ## io_reader_sched -/

/-- The task written by the body of the loop of `io_reader_sched` for the
worker `worker` of index `i`. -/
def sched_task (io : snapraid_io) (index : Nat) (blockcur : Nat) (i : Nat)
    (worker : snapraid_worker) : snapraid_task :=
  { state := if blockcur < io.block_max then TaskState.TASK_STATE_READY
      else TaskState.TASK_STATE_EMPTY
    path0 := 0
    disk := match worker.handle with
      | some h => h.disk
      | none => none
    buffer := (index, worker.buffer_skew + i)
    position := blockcur
    block := none
    file := none
    file_pos := 0
    read_size := 0
    is_timestamp_different := false }

/-- A loop `for (i = start; i < reader_max; ++i)` applying `f i` to the
entries of `reader_map`. -/
def for_each_reader (reader_max : Nat) (f : Nat → snapraid_worker → snapraid_worker) :
    Nat → List snapraid_worker → List snapraid_worker
  | _, [] => []
  | i, w :: ws =>
    (if i < reader_max then f i w else w) :: for_each_reader reader_max f (i + 1) ws

/-- The function `io_reader_sched`. -/
def io_reader_sched (io : snapraid_io) (index : Nat) (blockcur : Nat) : snapraid_io :=
  { io with
    reader_map := for_each_reader io.reader_max
      (fun i worker => { worker with
        task_map := Function.update worker.task_map index
          (sched_task io index blockcur i worker) })
      0 io.reader_map }

/-! ## io_start -/

/-- One iteration of the priming loop of `io_start`. -/
def io_start_iter (io : snapraid_io) (i : Nat) : snapraid_io :=
  io_reader_sched (io_position_next io).2 i (io_position_next io).1

/-- The function `io_start`, up to the creation of the threads. -/
def io_start (IO_MAX : Nat) (io : snapraid_io) (blockstart blockmax : Nat)
    (block_is_enabled : Nat → Bool) : snapraid_io :=
  let io1 : snapraid_io :=
    { io with
      block_start := blockstart
      block_max := blockmax
      block_is_enabled := block_is_enabled
      block_next := blockstart
      done := false
      reader_index := IO_MAX - 1 }
  let io2 := (List.range (IO_MAX - 1)).foldl io_start_iter io1
  let io3 : snapraid_io :=
    { io2 with reader_list := io2.reader_list.set 0 (io2.reader_max % UCHAR_MOD) }
  { io3 with
    reader_map := for_each_reader io3.reader_max
      (fun _ worker => { worker with index := 0 }) 0 io3.reader_map }

/-! ## io_read_next -/

/-- The function `io_read_next`: `none` when the assertion
`reader_list[0] == reader_max` fails (or `reader_map[0]` does not exist),
otherwise the position returned, the slot whose buffer vector is stored in
`*buffer`, and the new state. -/
def io_read_next (IO_MAX : Nat) (io : snapraid_io) : Option (Nat × Nat × snapraid_io) :=
  let blockcur_schedule := (io_position_next io).1
  let io1 := (io_position_next io).2
  if io1.reader_list[0]? = some io1.reader_max then
    let io2 : snapraid_io :=
      { io1 with
        reader_list := (List.range (io1.reader_max + 1)).map (fun i => i % UCHAR_MOD) }
    let io3 := io_reader_sched io2 io2.reader_index blockcur_schedule
    let io4 : snapraid_io :=
      { io3 with reader_index := (io3.reader_index + 1) % IO_MAX }
    match io4.reader_map[0]? with
    | some worker0 =>
      some ((worker0.task_map io4.reader_index).position, io4.reader_index, io4)
    | none => none
  else
    none

/-! ## io_task_read -/

/-- Outcome of one pass of the inner loop of `io_task_read`. -/
inductive ScanResult where
  /-- The worker `i`, read from the list cell `cell`, is in range and has
  finished. -/
  | found (cell : Nat) (i : Nat)
  /-- The sentinel was reached: the caller waits on `read_done`. -/
  | wait
  /-- The pass walks the list for ever. -/
  | diverge
  /-- The pass reads outside `reader_list` or `reader_map`. -/
  | fault
  deriving DecidableEq, Repr

/-- The inner `while (1)` of `io_task_read`, with `let` pointing at
`reader_list[cell]`. -/
def io_task_scan (io : snapraid_io) (base count : Nat) : Nat → Nat → ScanResult
  | 0, _ => ScanResult.diverge
  | fuel + 1, cell =>
    match io.reader_list[cell]? with
    | none => ScanResult.fault
    | some i =>
      if i = io.reader_max then ScanResult.wait
      else if base ≤ i ∧ i < base + count then
        match io.reader_map[i]? with
        | none => ScanResult.fault
        | some worker =>
          if io.reader_index ≠ worker.index then ScanResult.found cell i
          else io_task_scan io base count fuel (i + 1)
      else io_task_scan io base count fuel (i + 1)

/-- Outcome of a call of `io_task_read`. -/
inductive TaskRead where
  /-- The call returns the task `&reader_map[task.1].task_map[task.2]` and
  stores `pos` in `*pos`. -/
  | returned (task : Nat × Nat) (pos : Nat) (io : snapraid_io)
  /-- No worker of the range is ready: the call waits on `read_done`. -/
  | blocked
  /-- The call never returns or reads outside its arrays. -/
  | undefined

/-- The function `io_task_read`. A pass over a list of `reader_max + 1`
cells that comes to an end visits every cell at most once. -/
def io_task_read (io : snapraid_io) (base count : Nat) : TaskRead :=
  match io_task_scan io base count (io.reader_max + 2) 0 with
  | ScanResult.found cell i =>
    match io.reader_list[i + 1]? with
    | some next =>
      TaskRead.returned (i, io.reader_index) (i - base)
        { io with reader_list := io.reader_list.set cell next }
    | none => TaskRead.undefined
  | ScanResult.wait => TaskRead.blocked
  | ScanResult.diverge => TaskRead.undefined
  | ScanResult.fault => TaskRead.undefined

/-- The function `io_data_read`. -/
def io_data_read (io : snapraid_io) : TaskRead :=
  io_task_read io io.data_base io.data_count

/-- The function `io_parity_read`. -/
def io_parity_read (io : snapraid_io) : TaskRead :=
  io_task_read io io.parity_base io.parity_count

/-! ## The reader threads -/

/-- Outcome of a call of `io_reader_step`. -/
inductive ReaderStep where
  /-- The call returns the null task: the thread has to exit. -/
  | null
  /-- The call returns `&worker->task_map[slot]` of the updated worker. -/
  | task (worker : snapraid_worker) (slot : Nat)
  /-- The ring is full: the call waits on `read_sched`. -/
  | blocked

/-- The function `io_reader_step`, for a worker of `io`. -/
def io_reader_step (IO_MAX : Nat) (io : snapraid_io) (worker : snapraid_worker) :
    ReaderStep :=
  if io.done then ReaderStep.null
  else
    let index := (worker.index + 1) % IO_MAX
    if index ≠ io.reader_index then
      ReaderStep.task { worker with index := index } index
    else
      ReaderStep.blocked

/-- The function `io_reader_worker`: the task after the call. -/
def io_reader_worker (io : snapraid_io) (worker : snapraid_worker)
    (task : snapraid_task) : snapraid_task :=
  if task.position ≥ io.block_max then
    { task with state := TaskState.TASK_STATE_EMPTY }
  else
    worker.func task

/-- The function `io_stop`, up to the joins. -/
def io_stop (io : snapraid_io) : snapraid_io :=
  { io with done := true }

/-! ## The pipeline as a transition system -/

/-- Where the thread of a worker stands in `io_reader_thread`. -/
inductive ThreadState where
  /-- Inside `io_reader_worker`, on the task `task_map[index]`. -/
  | in_worker
  /-- At the call of `io_reader_step` (about to call it, or waiting in it). -/
  | at_step
  /-- Returned from `io_reader_thread`. -/
  | exited
  deriving DecidableEq, Repr

/-- The state of the whole pipeline: the shared record, the control point of
every reader thread, and history variables that no step reads:
`pending w s` tells that the task of worker `w` in slot `s` was scheduled by
`io_reader_sched` and that `io_reader_thread` has not yet completed it;
`returned` lists the values returned by `io_read_next`, oldest first;
`data_taken` and `parity_taken` list the workers whose task `io_data_read`
and `io_parity_read` returned since the last `io_read_next`. -/
structure Pipeline where
  io : snapraid_io
  thread : List ThreadState
  pending : Nat → Nat → Bool
  returned : List Nat
  data_taken : List Nat
  parity_taken : List Nat

/-- The steps of the pipeline: the four calls of the caller, and for the
thread of worker `w` a call of `io_reader_step` that returns and the end of
its work on its current task. -/
inductive Event where
  | read_next
  | data_read
  | parity_read
  | stop
  | reader_step (w : Nat)
  | reader_done (w : Nat)
  deriving DecidableEq, Repr

/-- The pipeline when `io_start` returns: every thread was created with
`index = 0` and runs `io_reader_worker` on `task_map[0]`; the slots
`0 .. IO_MAX - 2` were scheduled. -/
def pipeline_start (IO_MAX : Nat) (io : snapraid_io) (blockstart blockmax : Nat)
    (block_is_enabled : Nat → Bool) : Pipeline :=
  { io := io_start IO_MAX io blockstart blockmax block_is_enabled
    thread := List.replicate io.reader_max ThreadState.in_worker
    pending := fun w s => decide (w < io.reader_max ∧ s < IO_MAX - 1)
    returned := []
    data_taken := []
    parity_taken := [] }

/-- The effect of `io_data_read` or `io_parity_read` on the pipeline. -/
def task_read_step (s : Pipeline) (r : TaskRead) (data : Bool) : Option Pipeline :=
  match r with
  | TaskRead.returned task _ io1 =>
    if data then some { s with io := io1, data_taken := s.data_taken ++ [task.1] }
    else some { s with io := io1, parity_taken := s.parity_taken ++ [task.1] }
  | TaskRead.blocked => none
  | TaskRead.undefined => none

/-- One step of the pipeline; `none` when the step cannot be taken (the call
waits, aborts, or the thread is not at that point). -/
def step (IO_MAX : Nat) (e : Event) (s : Pipeline) : Option Pipeline :=
  match e with
  | Event.read_next =>
    match io_read_next IO_MAX s.io with
    | some (blockcur, _, io1) =>
      some { s with
        io := io1
        pending := fun w slot =>
          if slot = s.io.reader_index ∧ w < s.io.reader_max then true
          else s.pending w slot
        returned := s.returned ++ [blockcur]
        data_taken := []
        parity_taken := [] }
    | none => none
  | Event.data_read => task_read_step s (io_data_read s.io) true
  | Event.parity_read => task_read_step s (io_parity_read s.io) false
  | Event.stop => some { s with io := io_stop s.io }
  | Event.reader_step w =>
    match s.thread[w]?, s.io.reader_map[w]? with
    | some ThreadState.at_step, some worker =>
      match io_reader_step IO_MAX s.io worker with
      | ReaderStep.null => some { s with thread := s.thread.set w ThreadState.exited }
      | ReaderStep.blocked => none
      | ReaderStep.task worker1 slot =>
        if (worker1.task_map slot).state = TaskState.TASK_STATE_EMPTY then
          some { s with
            io := { s.io with reader_map := s.io.reader_map.set w worker1 }
            pending := fun v t => if v = w ∧ t = slot then false else s.pending v t }
        else
          some { s with
            io := { s.io with reader_map := s.io.reader_map.set w worker1 }
            thread := s.thread.set w ThreadState.in_worker }
    | _, _ => none
  | Event.reader_done w =>
    match s.thread[w]?, s.io.reader_map[w]? with
    | some ThreadState.in_worker, some worker =>
      some { s with
        io := { s.io with
          reader_map := s.io.reader_map.set w
            { worker with
              task_map := Function.update worker.task_map worker.index
                (io_reader_worker s.io worker (worker.task_map worker.index)) } }
        thread := s.thread.set w ThreadState.at_step
        pending := fun v t => if v = w ∧ t = worker.index then false else s.pending v t }
    | _, _ => none

/-- The pipeline after the events `es`, taken in order. -/
def run (IO_MAX : Nat) : List Event → Pipeline → Option Pipeline
  | [], s => some s
  | e :: es, s =>
    match step IO_MAX e s with
    | some s1 => run IO_MAX es s1
    | none => none

/-! ## Vocabulary of the statements -/

/-- The arguments of `io_init` and of `io_start`, with the ring depth. -/
structure Setup where
  IO_MAX : Nat
  io : snapraid_io
  buffer_max : Nat
  data_reader : snapraid_task → snapraid_task
  handle_map : List snapraid_handle
  handle_max : Nat
  parity_reader : snapraid_task → snapraid_task
  parity_handle_map : List snapraid_parity_handle
  parity_handle_max : Nat
  mem_worker : Nat → snapraid_worker
  mem_list : Nat → Nat
  blockstart : Nat
  blockmax : Nat
  block_is_enabled : Nat → Bool

/-- The record left by `io_init`. -/
def Setup.init (c : Setup) : snapraid_io :=
  io_init c.io c.buffer_max c.data_reader c.handle_map c.handle_max
    c.parity_reader c.parity_handle_map c.parity_handle_max c.mem_worker c.mem_list

/-- The pipeline left by `io_init` followed by `io_start`. -/
def Setup.start (c : Setup) : Pipeline :=
  pipeline_start c.IO_MAX c.init c.blockstart c.blockmax c.block_is_enabled

/-- The number of workers of a setup. -/
def Setup.reader_max (c : Setup) : Nat := c.handle_max + c.parity_handle_max

/-- The contract of a reader callback towards the pipeline: it fills the
buffer and the result fields of its task and leaves alone the position and
the buffer pointer that the scheduler stored in it. -/
def keeps_control (f : snapraid_task → snapraid_task) : Prop :=
  ∀ t, (f t).position = t.position ∧ (f t).buffer = t.buffer

/-- A setup the pipeline can be built for: the ring has at least one slot
and both callbacks keep the position and the buffer pointer of their task. -/
def Setup.valid (c : Setup) : Prop :=
  0 < c.IO_MAX ∧ keeps_control c.data_reader ∧ keeps_control c.parity_reader

/-- The position `io_position_next` returns when called with
`block_next = b`. -/
def position_from (p : Nat → Bool) (m b : Nat) : Nat :=
  io_position_skip p m (m - b) b

/-- The value of `block_next` after `k` calls of `io_position_next`
following `block_next = s`. -/
def block_next_after (p : Nat → Bool) (m s : Nat) : Nat → Nat
  | 0 => s
  | k + 1 => (position_from p m (block_next_after p m s k) + 1) % BLOCK_OFF_MOD

/-- The position returned by the call number `k` (from `0`) of
`io_position_next` following `block_next = s`. -/
def position_seq (p : Nat → Bool) (m s : Nat) (k : Nat) : Nat :=
  position_from p m (block_next_after p m s k)

/-- The positions returned by the first `n` calls of `io_position_next`
after `io_start`. -/
def Setup.positions (c : Setup) (n : Nat) : List Nat :=
  (List.range n).map (position_seq c.block_is_enabled c.blockmax c.blockstart)

/-- The enabled positions of the range, in increasing order. -/
def Setup.enabled (c : Setup) : List Nat :=
  (List.range' c.blockstart (c.blockmax - c.blockstart)).filter c.block_is_enabled

/-- Number of steps from slot `r` forward to slot `x` around a ring of `D`
slots. -/
def ring_dist (D r x : Nat) : Nat :=
  if r ≤ x then x - r else x + D - r

/-- The array `rl` encodes, from the cell `cell` on, the list `L` of
workers followed by the sentinel `n`: the head is stored in `cell` and the
successor of the worker `a` in the cell `a + 1`. -/
def Linked (rl : List Nat) (n : Nat) : Nat → List Nat → Prop
  | cell, [] => rl[cell]? = some n
  | cell, a :: L => rl[cell]? = some a ∧ cell ≤ a ∧ a < n ∧ Linked rl n (a + 1) L

/-- The current worker of index `w` in the pipeline, when there is one. -/
def Pipeline.worker (s : Pipeline) (w : Nat) : Option snapraid_worker :=
  s.io.reader_map[w]?

/-! ## Invariants of the pipeline -/

/-- The fields of the shared record that scheduling leaves alone agree in
`a` and `b`. -/
structure Frame (a b : snapraid_io) : Prop where
  buffer_max : b.buffer_max = a.buffer_max
  reader_max : b.reader_max = a.reader_max
  reader_list : b.reader_list = a.reader_list
  data_base : b.data_base = a.data_base
  data_count : b.data_count = a.data_count
  parity_base : b.parity_base = a.parity_base
  parity_count : b.parity_count = a.parity_count
  block_start : b.block_start = a.block_start
  block_max : b.block_max = a.block_max
  block_is_enabled : b.block_is_enabled = a.block_is_enabled
  done : b.done = a.done
  reader_index : b.reader_index = a.reader_index
  map_length : b.reader_map.length = a.reader_map.length

/-- The worker `b` is the worker `a` of index `w` after the slots below `k`
were scheduled, slot `x` with the position `q x`. -/
structure Primed (io : snapraid_io) (q : Nat → Nat) (k w : Nat)
    (a b : snapraid_worker) : Prop where
  handle : b.handle = a.handle
  parity_handle : b.parity_handle = a.parity_handle
  func : b.func = a.func
  buffer_skew : b.buffer_skew = a.buffer_skew
  index : b.index = a.index
  task_map : ∀ x, b.task_map x = if x < k then sched_task io x (q x) w a else a.task_map x

/-- The invariant of the pipeline that holds for every ring depth: the
layout of `io_init`, the bounds of the indices, the positions held by the
slots, the values returned so far, and the shape of the ready list (empty
before the first `io_read_next`, a sublist of the workers afterwards). -/
structure Base (c : Setup) (s : Pipeline) : Prop where
  reader_max : s.io.reader_max = c.reader_max
  data_base : s.io.data_base = 0
  data_count : s.io.data_count = c.handle_max
  parity_base : s.io.parity_base = c.handle_max
  parity_count : s.io.parity_count = c.parity_handle_max
  map_length : s.io.reader_map.length = c.reader_max
  list_length : s.io.reader_list.length = c.reader_max + 1
  thread_length : s.thread.length = c.reader_max
  uchar : ∀ v ∈ s.io.reader_list, v < UCHAR_MOD
  block_max : s.io.block_max = c.blockmax
  block_is_enabled : s.io.block_is_enabled = c.block_is_enabled
  block_next : s.io.block_next =
    block_next_after c.block_is_enabled c.blockmax c.blockstart
      (s.returned.length + c.IO_MAX - 1)
  reader_index : s.io.reader_index < c.IO_MAX
  index_lt : ∀ (w : Nat) (worker : snapraid_worker),
    s.io.reader_map[w]? = some worker → worker.index < c.IO_MAX
  func : ∀ (w : Nat) (worker : snapraid_worker),
    s.io.reader_map[w]? = some worker → keeps_control worker.func
  skew : ∀ (w : Nat) (worker : snapraid_worker),
    s.io.reader_map[w]? = some worker →
    worker.buffer_skew = if w < c.handle_max then 0 else c.parity_handle_max
  position : ∀ (w : Nat) (worker : snapraid_worker) (x : Nat),
    s.io.reader_map[w]? = some worker → x < c.IO_MAX →
    (s.returned = [] → x ≠ s.io.reader_index) →
    (worker.task_map x).position =
      position_seq c.block_is_enabled c.blockmax c.blockstart
        (s.returned.length + ring_dist c.IO_MAX s.io.reader_index x - 1)
  buffer : ∀ (w : Nat) (worker : snapraid_worker) (x : Nat),
    s.io.reader_map[w]? = some worker → x < c.IO_MAX →
    (s.returned = [] → x ≠ s.io.reader_index) →
    (worker.task_map x).buffer = (x, worker.buffer_skew + w)
  returned : s.returned = c.positions s.returned.length
  closed : s.returned = [] → c.reader_max < UCHAR_MOD →
    s.io.reader_list[0]? = some c.reader_max
  ready : s.returned ≠ [] → c.reader_max < UCHAR_MOD ∧
    ∃ L, Linked s.io.reader_list c.reader_max 0 L ∧
      (L ++ (s.data_taken ++ s.parity_taken)).Perm (List.range c.reader_max) ∧
      (∀ w ∈ s.data_taken, w < c.handle_max) ∧
      (∀ w ∈ s.parity_taken, c.handle_max ≤ w)

/-- The invariant of the synchronisation, for a ring of at least two slots:
a worker the caller has consumed has left the slot of the caller, and the
pending tasks of a worker lie between its own slot and the slot before the
caller's. -/
structure Sync (c : Setup) (s : Pipeline) : Prop where
  consumed : ∀ (w : Nat) (worker : snapraid_worker),
    s.io.reader_map[w]? = some worker →
    (s.returned = [] ∨ w ∈ s.data_taken ++ s.parity_taken) →
    worker.index ≠ s.io.reader_index
  pending : ∀ w x, s.pending w x = true → x < c.IO_MAX ∧
    ∃ worker, s.io.reader_map[w]? = some worker ∧
      ring_dist c.IO_MAX s.io.reader_index worker.index +
        (if s.thread[w]? = some ThreadState.in_worker then 0 else 1) ≤
      ring_dist c.IO_MAX s.io.reader_index x

/-- The pipeline is not shut down: `done` is clear and no thread has left
`io_reader_thread`. -/
def Live (s : Pipeline) : Prop :=
  s.io.done = false ∧
    ∀ (w : Nat) (st : ThreadState), s.thread[w]? = some st → st ≠ ThreadState.exited

/-- From `s` to `s1` only workers have moved: the caller's view (values
returned, workers consumed, ready list, slot) is the same and every worker
that had left the slot of the caller is still away from it. -/
structure Ahead (s s1 : Pipeline) : Prop where
  returned : s1.returned = s.returned
  data_taken : s1.data_taken = s.data_taken
  parity_taken : s1.parity_taken = s.parity_taken
  reader_list : s1.io.reader_list = s.io.reader_list
  reader_index : s1.io.reader_index = s.io.reader_index
  ready : ∀ (v : Nat) (a : snapraid_worker), s.io.reader_map[v]? = some a →
    a.index ≠ s.io.reader_index →
    ∃ b, s1.io.reader_map[v]? = some b ∧ b.index ≠ s.io.reader_index

/-- From `s` to `s1` only the caller has consumed workers: the values
returned, the workers, the slot of the caller and the threads are the
same. -/
structure Drain (s s1 : Pipeline) : Prop where
  returned : s1.returned = s.returned
  reader_map : s1.io.reader_map = s.io.reader_map
  reader_index : s1.io.reader_index = s.io.reader_index
  done : s1.io.done = s.io.done
  thread : s1.thread = s.thread

/-! ## Scenarios -/

/-- The state of the task `t` agrees with the range `[.., m)` and the filter
`p`: ready exactly when its position is below `m` and accepted by `p`, empty
otherwise. -/
def task_state_ok (m : Nat) (p : Nat → Bool) (t : snapraid_task) : Prop :=
  (t.state = TaskState.TASK_STATE_READY ↔ (t.position < m ∧ p t.position = true)) ∧
  (t.state = TaskState.TASK_STATE_EMPTY ↔ ¬ (t.position < m ∧ p t.position = true))

/-- What a call of `io_task_read` hands to its caller: the task and the
value stored in `*pos`. -/
def TaskRead.result : TaskRead → Option ((Nat × Nat) × Nat)
  | TaskRead.returned task pos _ => some (task, pos)
  | TaskRead.blocked => none
  | TaskRead.undefined => none

/-- A task as found in memory that was never written. -/
def demo_task : snapraid_task :=
  { state := TaskState.TASK_STATE_READY
    path0 := 47
    disk := none
    buffer := (9, 9)
    position := 77
    block := none
    file := none
    file_pos := 0
    read_size := 13
    is_timestamp_different := true }

/-- A reader callback: it reads a whole block of 4096 bytes. -/
def demo_reader (t : snapraid_task) : snapraid_task :=
  { t with read_size := 4096 }

/-- A worker as found in memory that was never written. -/
def demo_worker : snapraid_worker :=
  { handle := none
    parity_handle := none
    func := fun t => t
    buffer_skew := 3
    index := 9
    task_map := fun _ => demo_task }

/-- The record of the caller before `io_init`. -/
def demo_io : snapraid_io :=
  { buffer_max := 0
    reader_max := 0
    reader_map := []
    reader_list := []
    data_base := 0
    data_count := 0
    parity_base := 0
    parity_count := 0
    block_start := 0
    block_max := 0
    block_next := 0
    block_is_enabled := fun _ => false
    done := true
    reader_index := 5 }

/-- The setup with `data` data disks and `parity` parity disks, a ring of
`IO_MAX` slots, the range `[blockstart, blockmax)` and the filter `p`. -/
def demo (IO_MAX data parity blockstart blockmax : Nat) (p : Nat → Bool) : Setup :=
  { IO_MAX := IO_MAX
    io := demo_io
    buffer_max := data + 2 * parity
    data_reader := demo_reader
    handle_map := (List.range data).map (fun i => { disk := some i })
    handle_max := data
    parity_reader := demo_reader
    parity_handle_map := (List.range parity).map (fun i => { id := i })
    parity_handle_max := parity
    mem_worker := fun _ => demo_worker
    mem_list := fun k => 7 * k + 3
    blockstart := blockstart
    blockmax := blockmax
    block_is_enabled := p }

/-- One stripe of a caller: `io_read_next`, then every worker finishes its
task and takes the next one, then the caller consumes the data workers and
the parity workers. -/
def stripe_events (data parity : Nat) : List Event :=
  Event.read_next ::
    ((List.range (data + parity)).flatMap
        (fun w => [Event.reader_done w, Event.reader_step w]) ++
      (List.replicate data Event.data_read ++ List.replicate parity Event.parity_read))

/-- The scenario S2: four data workers, one parity worker, depth 4, range
`[0, 10)`, filter `i % 3 != 0`. -/
def S2 : Setup := demo 4 4 1 0 10 (fun i => i % 3 != 0)

/-- Six full stripes of S2 followed by a seventh `io_read_next`. -/
def S2_events : List Event :=
  (List.replicate 6 (stripe_events 4 1)).flatten ++ [Event.read_next]

/-- The pipeline of S2 after `S2_events`. -/
def S2_final : Pipeline := (run S2.IO_MAX S2_events S2.start).getD S2.start

/-- The first stripe of S2 when only the parity worker has moved on. -/
def S2_parity : Pipeline :=
  (run S2.IO_MAX [Event.read_next, Event.reader_done 4, Event.reader_step 4] S2.start).getD
    S2.start

/-- The first stripe of S2 when only worker 0 has moved on. -/
def S2_first : Pipeline :=
  (run S2.IO_MAX [Event.read_next, Event.reader_done 0, Event.reader_step 0] S2.start).getD
    S2.start

/-- A stripe of S2 in which worker 2 is ready and consumed first. -/
def S2_stripe_events : List Event :=
  [Event.read_next, Event.reader_done 2, Event.reader_step 2, Event.data_read,
    Event.reader_done 4, Event.reader_step 4, Event.parity_read,
    Event.reader_done 0, Event.reader_step 0, Event.reader_done 1, Event.reader_step 1,
    Event.reader_done 3, Event.reader_step 3,
    Event.data_read, Event.data_read, Event.data_read]

/-- The pipeline of S2 after `S2_stripe_events`. -/
def S2_stripe : Pipeline := (run S2.IO_MAX S2_stripe_events S2.start).getD S2.start

/-- Worker 0 finishes slot 0 and takes slot 1 before the first
`io_read_next`. -/
def S2_ahead_events : List Event :=
  [Event.reader_done 0, Event.reader_step 0]

/-- The pipeline of S2 after `S2_ahead_events` and a first `io_read_next`. -/
def S2_ahead : Pipeline :=
  (run S2.IO_MAX (S2_ahead_events ++ [Event.read_next]) S2.start).getD S2.start

/-- One data worker, depth 2, the range `[0, 2)` and a filter that rejects
every position. -/
def S_reject : Setup := demo 2 1 0 0 2 (fun _ => false)

/-- The pipeline of `S_reject` after a first `io_read_next`. -/
def S_reject_final : Pipeline :=
  (run S_reject.IO_MAX [Event.read_next] S_reject.start).getD S_reject.start

/-- One data worker, depth 2, a filter that accepts everything and the
empty range that starts and ends at the last value of `block_off_t`. -/
def S_wrap : Setup := demo 2 1 0 4294967295 4294967295 (fun _ => true)

/-- A first stripe of `S_wrap` followed by a second `io_read_next`. -/
def S_wrap_events : List Event :=
  [Event.read_next, Event.reader_done 0, Event.reader_step 0, Event.data_read,
    Event.read_next]

/-- The pipeline of `S_wrap` after `S_wrap_events`. -/
def S_wrap_final : Pipeline :=
  (run S_wrap.IO_MAX S_wrap_events S_wrap.start).getD S_wrap.start

/-! ## Vocabulary of the later statements -/

/-- The task behind the pointer `task`, that is
`reader_map[task.1].task_map[task.2]`. -/
def task_at (io : snapraid_io) (task : Nat × Nat) : Option snapraid_task :=
  (io.reader_map[task.1]?).map (fun worker => worker.task_map task.2)

/-- The two tests of the inner loop of `io_task_read` on the worker `i`: it
is in the range `[base, base + count)` and its index is not the slot of the
caller. -/
def eligible (io : snapraid_io) (base count : Nat) (i : Nat) : Bool :=
  decide (base ≤ i ∧ i < base + count) &&
    match io.reader_map[i]? with
    | some worker => decide (io.reader_index ≠ worker.index)
    | none => false

/-- The content the loop `for (i = 0; i <= reader_max; ++i) reader_list[i] = i`
of `io_read_next` leaves in `reader_list`. -/
def reader_list_reset (reader_max : Nat) : List Nat :=
  (List.range (reader_max + 1)).map (fun i => i % UCHAR_MOD)

/-- The entry of `buffer_map[index]` that `io_reader_sched` gives to the
worker `worker` of index `i`. -/
def buffer_entry (worker : snapraid_worker) (i : Nat) : Nat :=
  worker.buffer_skew + i

/-- Whether an array encodes a given list is decidable. -/
instance Linked_decidable (rl : List Nat) (n : Nat) :
    ∀ (cell : Nat) (L : List Nat), Decidable (Linked rl n cell L)
  | cell, [] => inferInstanceAs (Decidable (rl[cell]? = some n))
  | cell, a :: L =>
    have := Linked_decidable rl n (a + 1) L
    inferInstanceAs (Decidable (rl[cell]? = some a ∧ cell ≤ a ∧ a < n ∧ Linked rl n (a + 1) L))

/-- The scenario S3: four data workers, one parity worker, depth 8, range
`[0, 2)`, a filter that accepts everything. -/
def S3 : Setup := demo 8 4 1 0 2 (fun _ => true)

/-- Two full stripes of S3 followed by a third `io_read_next`. -/
def S3_events : List Event :=
  stripe_events 4 1 ++ (stripe_events 4 1 ++ [Event.read_next])

/-- The pipeline of S3 after `S3_events`. -/
def S3_third : Pipeline := (run S3.IO_MAX S3_events S3.start).getD S3.start

/-- The pipeline of S3 after `S3_events` and one more step of worker 0. -/
def S3_padding : Pipeline :=
  (run S3.IO_MAX (S3_events ++ [Event.reader_step 0]) S3.start).getD S3.start

/-- The pipeline of S3 in its second stripe, once worker 0 has moved on. -/
def S3_second : Pipeline :=
  (run S3.IO_MAX (stripe_events 4 1 ++
    [Event.read_next, Event.reader_done 0, Event.reader_step 0]) S3.start).getD S3.start

/-- One data worker, depth 3, a filter that accepts everything and the
empty range that starts and ends at the last value of `block_off_t`. -/
def S_top : Setup := demo 3 1 0 4294967295 4294967295 (fun _ => true)

/-- The first stripe of S2 when worker 0 has finished its first task and is
about to call `io_reader_step`. -/
def S2_done : Pipeline :=
  (run S2.IO_MAX [Event.read_next, Event.reader_done 0] S2.start).getD S2.start

/-- The pipeline of S2 stopped by `io_stop` when worker 0 has finished its
first task. -/
def S2_stopped : Pipeline :=
  (run S2.IO_MAX [Event.reader_done 0, Event.stop] S2.start).getD S2.start

/-- The first stripe of S2 when only worker 2 has moved on. -/
def S2_skip : Pipeline :=
  (run S2.IO_MAX [Event.read_next, Event.reader_done 2, Event.reader_step 2] S2.start).getD
    S2.start

/-- Three hundred data workers, depth 2, the range `[0, 1)`. -/
def S_wide : Setup := demo 2 300 0 0 1 (fun _ => true)

/-- A reader callback that leaves the state of its task alone: the state
belongs to the control data of the pipeline, which the callbacks fill no
part of. -/
def keeps_state (f : snapraid_task → snapraid_task) : Prop :=
  ∀ t, (f t).state = t.state

/-- The invariant of the task states: a task that its worker has not yet
completed has the state its position calls for; the callback of a worker is
one of the two callbacks of the setup; and when both callbacks leave the
state alone, every scheduled task has the state its position calls for. -/
structure TaskStates (c : Setup) (s : Pipeline) : Prop where
  pending : ∀ (w : Nat) (worker : snapraid_worker) (x : Nat),
    s.io.reader_map[w]? = some worker → s.pending w x = true →
    task_state_ok c.blockmax c.block_is_enabled (worker.task_map x)
  func : keeps_state c.data_reader → keeps_state c.parity_reader →
    ∀ (w : Nat) (worker : snapraid_worker),
      s.io.reader_map[w]? = some worker → keeps_state worker.func
  kept : keeps_state c.data_reader → keeps_state c.parity_reader →
    ∀ (w : Nat) (worker : snapraid_worker) (x : Nat),
      s.io.reader_map[w]? = some worker → x < c.IO_MAX →
      (s.returned = [] → x ≠ s.io.reader_index) →
      task_state_ok c.blockmax c.block_is_enabled (worker.task_map x)

/-! ## The positions produced by io_position_next -/

theorem io_position_skip_ge (p : Nat → Bool) (m : Nat) :
    ∀ fuel b, b ≤ io_position_skip p m fuel b := by
  intro fuel
  induction fuel with
  | zero => intro b; simp [io_position_skip]
  | succ fuel ih =>
    intro b
    simp only [io_position_skip]
    split
    · exact Nat.le_trans (Nat.le_succ b) (ih (b + 1))
    · exact Nat.le_refl b

theorem io_position_skip_enabled (p : Nat → Bool) (m : Nat) :
    ∀ fuel b, m - b ≤ fuel → io_position_skip p m fuel b < m →
      p (io_position_skip p m fuel b) = true := by
  intro fuel
  induction fuel with
  | zero =>
    intro b hb h
    simp only [io_position_skip] at h
    omega
  | succ fuel ih =>
    intro b hb
    simp only [io_position_skip]
    split
    · exact ih (b + 1) (by omega)
    · rename_i hn
      intro h
      by_cases hp : p b = true
      · exact hp
      · exact absurd ⟨h, by simpa using hp⟩ hn

theorem io_position_skip_skipped (p : Nat → Bool) (m : Nat) :
    ∀ fuel b i, b ≤ i → i < io_position_skip p m fuel b → i < m ∧ p i = false := by
  intro fuel
  induction fuel with
  | zero =>
    intro b i h1 h2
    simp only [io_position_skip] at h2
    omega
  | succ fuel ih =>
    intro b i h1
    simp only [io_position_skip]
    split
    · rename_i hc
      intro h2
      by_cases hi : i = b
      · subst hi; exact hc
      · exact ih (b + 1) i (by omega) h2
    · intro h2; omega

theorem io_position_skip_le (p : Nat → Bool) (m : Nat) :
    ∀ fuel b, io_position_skip p m fuel b ≤ max b m := by
  intro fuel
  induction fuel with
  | zero => intro b; simp [io_position_skip]
  | succ fuel ih =>
    intro b
    simp only [io_position_skip]
    split
    · rename_i hc
      have := ih (b + 1)
      have h1 := hc.1
      simp only [Nat.max_def] at this ⊢
      split at this <;> split <;> omega
    · exact Nat.le_max_left b m

theorem position_from_ge (p : Nat → Bool) (m b : Nat) : b ≤ position_from p m b :=
  io_position_skip_ge p m _ b

theorem position_from_enabled (p : Nat → Bool) (m b : Nat)
    (h : position_from p m b < m) : p (position_from p m b) = true :=
  io_position_skip_enabled p m _ b (Nat.le_refl _) h

theorem position_from_skipped (p : Nat → Bool) (m b i : Nat) (h1 : b ≤ i)
    (h2 : i < position_from p m b) : i < m ∧ p i = false :=
  io_position_skip_skipped p m _ b i h1 h2

theorem position_from_le (p : Nat → Bool) (m b : Nat) :
    position_from p m b ≤ max b m :=
  io_position_skip_le p m _ b

theorem io_position_next_fst (io : snapraid_io) :
    (io_position_next io).1 = position_from io.block_is_enabled io.block_max io.block_next :=
  rfl

theorem block_next_after_shift (p : Nat → Bool) (m s : Nat) :
    ∀ k, block_next_after p m s (k + 1) =
      block_next_after p m (block_next_after p m s 1) k := by
  intro k
  induction k with
  | zero => rfl
  | succ k ih =>
    show (position_from p m (block_next_after p m s (k + 1)) + 1) % BLOCK_OFF_MOD = _
    rw [ih]
    rfl

theorem position_seq_shift (p : Nat → Bool) (m s k : Nat) :
    position_seq p m s (k + 1) = position_seq p m (block_next_after p m s 1) k := by
  unfold position_seq
  rw [block_next_after_shift]

theorem position_seq_enabled (p : Nat → Bool) (m s k : Nat)
    (h : position_seq p m s k < m) : p (position_seq p m s k) = true :=
  position_from_enabled p m _ h

/-- The positions below `block_max` come first and are the enabled positions
of the range. -/
theorem takeWhile_position_seq (p : Nat → Bool) (m : Nat) (hm : m < BLOCK_OFF_MOD) :
    ∀ n s, (∃ j, j < n ∧ m ≤ position_seq p m s j) →
      ((List.range n).map (position_seq p m s)).takeWhile (fun q => decide (q < m)) =
        (List.range' s (m - s)).filter p := by
  intro n
  induction n with
  | zero => intro s ⟨j, hj, _⟩; omega
  | succ n ih =>
    intro s ⟨j, hj, hjm⟩
    rw [List.range_succ_eq_map, List.map_cons, List.map_map]
    have hq0 : position_seq p m s 0 = position_from p m s := rfl
    by_cases h0 : position_from p m s < m
    · have hb : block_next_after p m s 1 = position_from p m s + 1 := by
        show (position_from p m s + 1) % BLOCK_OFF_MOD = _
        apply Nat.mod_eq_of_lt
        omega
      have hfun : (position_seq p m s ∘ Nat.succ) = position_seq p m (position_from p m s + 1) := by
        funext k
        simp only [Function.comp, Nat.succ_eq_add_one]
        rw [position_seq_shift, hb]
      rw [hfun, List.takeWhile_cons, hq0]
      simp only [h0, decide_True, if_true]
      have hj0 : j ≠ 0 := by
        intro hj0; subst hj0; rw [hq0] at hjm; omega
      obtain ⟨j1, rfl⟩ := Nat.exists_eq_succ_of_ne_zero hj0
      rw [ih (position_from p m s + 1) ⟨j1, by omega, by
        rw [Nat.succ_eq_add_one, position_seq_shift, hb] at hjm; exact hjm⟩]
      have hge := position_from_ge p m s
      have hpe := position_from_enabled p m s h0
      have hsk := position_from_skipped p m s
      generalize position_from p m s = q at h0 hge hpe hsk
      have hsplit : List.range' s (m - s) =
          List.range' s (q - s) ++ (q :: List.range' (q + 1) (m - (q + 1))) := by
        have h1 : m - s = ((m - (q + 1)) + 1) + (q - s) := by omega
        have h2 : s + (q - s) = q := by omega
        rw [h1, ← List.range'_append_1, List.range'_succ, h2]
      rw [hsplit, List.filter_append, List.filter_cons]
      have hpre : (List.range' s (q - s)).filter p = [] := by
        rw [List.filter_eq_nil_iff]
        intro i hi
        rw [List.mem_range'_1] at hi
        have := (hsk i hi.1 (by omega)).2
        simp [this]
      rw [hpre, hpe]
      simp
    · rw [List.takeWhile_cons, hq0]
      have hd : decide (position_from p m s < m) = false := by simp [h0]
      rw [hd]
      simp only [Bool.false_eq_true, if_false]
      symm
      rw [List.filter_eq_nil_iff]
      intro i hi
      rw [List.mem_range'_1] at hi
      have := (position_from_skipped p m s i hi.1 (by omega)).2
      simp [this]

/-- While `block_next` does not wrap, the positions increase strictly. -/
theorem position_seq_lt_succ (p : Nat → Bool) (m s k : Nat)
    (h : position_seq p m s k + 1 < BLOCK_OFF_MOD) :
    position_seq p m s k < position_seq p m s (k + 1) := by
  have h1 : block_next_after p m s (k + 1) = position_seq p m s k + 1 := by
    show (position_from p m (block_next_after p m s k) + 1) % BLOCK_OFF_MOD = _
    exact Nat.mod_eq_of_lt h
  have h2 := position_from_ge p m (block_next_after p m s (k + 1))
  show position_seq p m s k < position_from p m (block_next_after p m s (k + 1))
  omega

/-- A bound on the positions, while `block_next` does not wrap. -/
theorem position_seq_le (p : Nat → Bool) (m s : Nat) :
    ∀ k, max s m + k < BLOCK_OFF_MOD →
      block_next_after p m s k ≤ max s m + k ∧ position_seq p m s k ≤ max s m + k := by
  intro k
  induction k with
  | zero =>
    intro _
    refine ⟨Nat.le_max_left s m, ?_⟩
    have := position_from_le p m s
    show position_from p m s ≤ _
    simpa using this
  | succ k ih =>
    intro hk
    obtain ⟨_, h2⟩ := ih (by omega)
    have h3 : block_next_after p m s (k + 1) = position_seq p m s k + 1 := by
      show (position_from p m (block_next_after p m s k) + 1) % BLOCK_OFF_MOD = _
      apply Nat.mod_eq_of_lt
      show position_seq p m s k + 1 < _
      omega
    have h4 := position_from_le p m (block_next_after p m s (k + 1))
    refine ⟨by omega, ?_⟩
    show position_from p m (block_next_after p m s (k + 1)) ≤ _
    rw [h3] at h4 ⊢
    simp only [Nat.max_def] at h4 ⊢
    split at h4 <;> split <;> omega

/-! ## The loops over the workers -/

theorem for_each_reader_length (n : Nat) (f : Nat → snapraid_worker → snapraid_worker) :
    ∀ l i, (for_each_reader n f i l).length = l.length := by
  intro l
  induction l with
  | nil => intro i; rfl
  | cons w ws ih => intro i; simp [for_each_reader, ih]

theorem for_each_reader_getElem? (n : Nat) (f : Nat → snapraid_worker → snapraid_worker) :
    ∀ l i j, (for_each_reader n f i l)[j]? =
      (l[j]?).map (fun w => if i + j < n then f (i + j) w else w) := by
  intro l
  induction l with
  | nil => intro i j; simp [for_each_reader]
  | cons w ws ih =>
    intro i j
    cases j with
    | zero => simp [for_each_reader]
    | succ j =>
      simp only [for_each_reader, List.getElem?_cons_succ, ih]
      have : i + 1 + j = i + (j + 1) := by omega
      rw [this]

/-- Reading a worker after `io_reader_sched`. -/
theorem io_reader_sched_worker (io : snapraid_io) (index b j : Nat) :
    (io_reader_sched io index b).reader_map[j]? =
      (io.reader_map[j]?).map (fun w =>
        if j < io.reader_max then
          { w with task_map := Function.update w.task_map index (sched_task io index b j w) }
        else w) := by
  simp [io_reader_sched, for_each_reader_getElem?]

theorem io_reader_sched_length (io : snapraid_io) (index b : Nat) :
    (io_reader_sched io index b).reader_map.length = io.reader_map.length := by
  simp [io_reader_sched, for_each_reader_length]

/-- What `io_read_next` does when it returns. -/
theorem io_read_next_some {IO_MAX : Nat} {io : snapraid_io} {r : Nat × Nat × snapraid_io}
    (h : io_read_next IO_MAX io = some r) :
    io.reader_list[0]? = some io.reader_max ∧
    r.2.2 = { io_reader_sched
        { (io_position_next io).2 with
          reader_list := (List.range (io.reader_max + 1)).map (fun i => i % UCHAR_MOD) }
        io.reader_index (io_position_next io).1 with
        reader_index := (io.reader_index + 1) % IO_MAX } ∧
    r.2.1 = (io.reader_index + 1) % IO_MAX ∧
    ∃ worker0, r.2.2.reader_map[0]? = some worker0 ∧
      r.1 = (worker0.task_map ((io.reader_index + 1) % IO_MAX)).position := by
  unfold io_read_next at h
  simp only [io_position_next] at h
  split at h
  · rename_i hl
    split at h
    · rename_i w0 hw0
      simp only [Option.some.injEq] at h
      subst h
      refine ⟨hl, rfl, rfl, w0, hw0, rfl⟩
    · exact absurd h (by simp)
  · exact absurd h (by simp)

/-! ## The ready list -/

theorem Linked_frame {rl rl1 : List Nat} {n : Nat} :
    ∀ (L : List Nat) (cell : Nat), Linked rl n cell L →
      (∀ j, cell ≤ j → rl1[j]? = rl[j]?) → Linked rl1 n cell L := by
  intro L
  induction L with
  | nil =>
    intro cell h hf
    show rl1[cell]? = some n
    rw [hf cell (Nat.le_refl _)]
    exact h
  | cons a L ih =>
    intro cell h hf
    obtain ⟨h1, h2, h3, h4⟩ := h
    refine ⟨?_, h2, h3, ih (a + 1) h4 (fun j hj => hf j (by omega))⟩
    rw [hf cell (Nat.le_refl _)]
    exact h1

theorem Linked_bounds {rl : List Nat} {n : Nat} :
    ∀ (L : List Nat) (cell : Nat), Linked rl n cell L → ∀ a ∈ L, cell ≤ a ∧ a < n := by
  intro L
  induction L with
  | nil => intro cell _ a ha; simp at ha
  | cons b L ih =>
    intro cell h a ha
    obtain ⟨_, h2, h3, h4⟩ := h
    rcases List.mem_cons.1 ha with rfl | ha
    · exact ⟨h2, h3⟩
    · have := ih (b + 1) h4 a ha
      omega

theorem Linked_sentinel {rl : List Nat} {n cell : Nat} {L : List Nat}
    (h : Linked rl n cell L) (h0 : rl[cell]? = some n) : L = [] := by
  cases L with
  | nil => rfl
  | cons a L =>
    obtain ⟨h1, _, h3, _⟩ := h
    rw [h0] at h1
    simp only [Option.some.injEq] at h1
    omega

/-- The list written by `io_read_next` links all the workers. -/
theorem Linked_reset (n : Nat) (hn : n < UCHAR_MOD) :
    ∀ k cell, cell + k = n →
      Linked ((List.range (n + 1)).map (fun i => i % UCHAR_MOD)) n cell (List.range' cell k) := by
  have hget : ∀ j, j ≤ n → ((List.range (n + 1)).map (fun i => i % UCHAR_MOD))[j]? = some j := by
    intro j hj
    rw [List.getElem?_map, List.getElem?_range (by omega)]
    simp only [Option.map_some']
    rw [Nat.mod_eq_of_lt (by omega)]
  intro k
  induction k with
  | zero =>
    intro cell hc
    show _ = some n
    rw [hget cell (by omega)]
    simp at hc
    rw [hc]
  | succ k ih =>
    intro cell hc
    rw [List.range'_succ]
    exact ⟨hget cell (by omega), Nat.le_refl _, by omega, ih (cell + 1) (by omega)⟩

/-- A pass of `io_task_read` that finds a worker finds one of the range that
has left the slot of the caller. -/
theorem io_task_scan_found_range (io : snapraid_io) (base count : Nat) :
    ∀ fuel cell c i, io_task_scan io base count fuel cell = ScanResult.found c i →
      base ≤ i ∧ i < base + count ∧
        ∃ worker, io.reader_map[i]? = some worker ∧ io.reader_index ≠ worker.index := by
  intro fuel
  induction fuel with
  | zero => intro cell c i h; simp [io_task_scan] at h
  | succ fuel ih =>
    intro cell c i h
    simp only [io_task_scan] at h
    split at h
    · exact absurd h (by simp)
    · rename_i a ha
      split at h
      · exact absurd h (by simp)
      · split at h
        · rename_i hr
          split at h
          · exact absurd h (by simp)
          · rename_i worker hw
            split at h
            · rename_i hidx
              simp only [ScanResult.found.injEq] at h
              obtain ⟨_, rfl⟩ := h
              exact ⟨hr.1, hr.2, worker, hw, hidx⟩
            · exact ih _ c i h
        · exact ih _ c i h

/-- A pass of `io_task_read` over a well formed list: the worker found is
in the list, and the store made by the caller unlinks it. -/
theorem io_task_scan_found_linked (io : snapraid_io) (base count : Nat) :
    ∀ (L : List Nat) (fuel cell c i : Nat),
      Linked io.reader_list io.reader_max cell L →
      io_task_scan io base count fuel cell = ScanResult.found c i →
      cell ≤ c ∧ ∃ pre post, L = pre ++ i :: post ∧
        (∃ next, io.reader_list[i + 1]? = some next) ∧
        ∀ next, io.reader_list[i + 1]? = some next →
          Linked (io.reader_list.set c next) io.reader_max cell (pre ++ post) := by
  intro L
  induction L with
  | nil =>
    intro fuel cell c i hL h
    cases fuel with
    | zero => simp [io_task_scan] at h
    | succ fuel =>
      have hL1 : io.reader_list[cell]? = some io.reader_max := hL
      simp [io_task_scan, hL1] at h
  | cons a L ih =>
    intro fuel cell c i hL h
    obtain ⟨h1, h2, h3, h4⟩ := hL
    cases fuel with
    | zero => simp [io_task_scan] at h
    | succ fuel =>
      have hne : a ≠ io.reader_max := by omega
      have hrec : io_task_scan io base count fuel (a + 1) = ScanResult.found c i →
          cell ≤ c ∧ ∃ pre post, a :: L = pre ++ i :: post ∧
            (∃ next, io.reader_list[i + 1]? = some next) ∧
            ∀ next, io.reader_list[i + 1]? = some next →
              Linked (io.reader_list.set c next) io.reader_max cell (pre ++ post) := by
        intro h
        obtain ⟨hc, pre, post, hpp, hex, hlink⟩ := ih fuel (a + 1) c i h4 h
        refine ⟨by omega, a :: pre, post, by rw [hpp]; rfl, hex, ?_⟩
        intro next hnext
        refine ⟨?_, h2, h3, hlink next hnext⟩
        rw [List.getElem?_set_ne (by omega)]
        exact h1
      have hhere : ∀ worker, io.reader_map[a]? = some worker →
            (ScanResult.found cell a = ScanResult.found c i) →
          cell ≤ c ∧ ∃ pre post, a :: L = pre ++ i :: post ∧
            (∃ next, io.reader_list[i + 1]? = some next) ∧
            ∀ next, io.reader_list[i + 1]? = some next →
              Linked (io.reader_list.set c next) io.reader_max cell (pre ++ post) := by
        intro worker _ h
        simp only [ScanResult.found.injEq] at h
        obtain ⟨rfl, rfl⟩ := h
        have hcl : cell < io.reader_list.length := by
          by_contra hlt
          rw [List.getElem?_eq_none (by omega)] at h1
          exact absurd h1 (by simp)
        refine ⟨Nat.le_refl _, [], L, rfl, ?_, ?_⟩
        · cases L with
          | nil => exact ⟨_, h4⟩
          | cons b L => exact ⟨_, h4.1⟩
        · intro next hnext
          cases L with
          | nil =>
            have h5 : io.reader_list[a + 1]? = some io.reader_max := h4
            rw [h5] at hnext
            simp only [Option.some.injEq] at hnext
            subst hnext
            show (io.reader_list.set cell io.reader_max)[cell]? = _
            rw [List.getElem?_set_self hcl]
          | cons b L =>
            obtain ⟨h5, h6, h7, h8⟩ := h4
            rw [h5] at hnext
            simp only [Option.some.injEq] at hnext
            subst hnext
            refine ⟨by rw [List.getElem?_set_self hcl], by omega, h7, ?_⟩
            apply Linked_frame L (b + 1) h8
            intro j hj
            rw [List.getElem?_set_ne (by omega)]
      simp only [io_task_scan, h1, hne, if_false] at h
      split at h
      · split at h
        · exact absurd h (by simp)
        · rename_i worker hw
          split at h
          · exact hhere worker hw h
          · exact hrec h
      · exact hrec h

/-! ## The state left by io_start -/

theorem Frame_refl (a : snapraid_io) : Frame a a :=
  ⟨rfl, rfl, rfl, rfl, rfl, rfl, rfl, rfl, rfl, rfl, rfl, rfl, rfl⟩

theorem Frame_trans {a b d : snapraid_io} (h1 : Frame a b) (h2 : Frame b d) : Frame a d :=
  ⟨h2.buffer_max.trans h1.buffer_max, h2.reader_max.trans h1.reader_max,
    h2.reader_list.trans h1.reader_list, h2.data_base.trans h1.data_base,
    h2.data_count.trans h1.data_count, h2.parity_base.trans h1.parity_base,
    h2.parity_count.trans h1.parity_count, h2.block_start.trans h1.block_start,
    h2.block_max.trans h1.block_max, h2.block_is_enabled.trans h1.block_is_enabled,
    h2.done.trans h1.done, h2.reader_index.trans h1.reader_index,
    h2.map_length.trans h1.map_length⟩

theorem Frame_io_start_iter (io : snapraid_io) (i : Nat) : Frame io (io_start_iter io i) :=
  ⟨rfl, rfl, rfl, rfl, rfl, rfl, rfl, rfl, rfl, rfl, rfl, rfl,
    io_reader_sched_length _ _ _⟩

theorem sched_task_congr {io io1 : snapraid_io} {a b : snapraid_worker}
    (h1 : io1.block_max = io.block_max) (h2 : b.handle = a.handle)
    (h3 : b.buffer_skew = a.buffer_skew) (index q i : Nat) :
    sched_task io1 index q i b = sched_task io index q i a := by
  simp [sched_task, h1, h2, h3]

/-- The priming loop of `io_start` after `k` iterations. -/
theorem io_start_loop (io1 : snapraid_io) (hlen : io1.reader_map.length = io1.reader_max) :
    ∀ k, Frame io1 ((List.range k).foldl io_start_iter io1) ∧
      ((List.range k).foldl io_start_iter io1).block_next =
        block_next_after io1.block_is_enabled io1.block_max io1.block_next k ∧
      ∀ w b, ((List.range k).foldl io_start_iter io1).reader_map[w]? = some b →
        ∃ a, io1.reader_map[w]? = some a ∧
          Primed io1 (position_seq io1.block_is_enabled io1.block_max io1.block_next) k w a b := by
  intro k
  induction k with
  | zero =>
    refine ⟨Frame_refl _, rfl, ?_⟩
    intro w b hb
    exact ⟨b, hb, rfl, rfl, rfl, rfl, rfl, fun x => by simp⟩
  | succ k ih =>
    obtain ⟨hF, hbn, hw⟩ := ih
    rw [List.range_succ, List.foldl_append]
    simp only [List.foldl_cons, List.foldl_nil]
    generalize (List.range k).foldl io_start_iter io1 = io2 at hF hbn hw
    have hq : (io_position_next io2).1 =
        position_seq io1.block_is_enabled io1.block_max io1.block_next k := by
      rw [io_position_next_fst, hF.block_is_enabled, hF.block_max, hbn]
      rfl
    refine ⟨Frame_trans hF (Frame_io_start_iter io2 k), ?_, ?_⟩
    · show ((io_position_next io2).1 + 1) % BLOCK_OFF_MOD = _
      rw [hq]
      rfl
    · intro w b hb
      unfold io_start_iter at hb
      rw [io_reader_sched_worker] at hb
      cases hw2 : io2.reader_map[w]? with
      | none =>
        have : (io_position_next io2).2.reader_map[w]? = none := hw2
        rw [this] at hb
        simp at hb
      | some b2 =>
        have hw2b : (io_position_next io2).2.reader_map[w]? = some b2 := hw2
        rw [hw2b] at hb
        simp only [Option.map_some', Option.some.injEq] at hb
        obtain ⟨a, ha, hP⟩ := hw w b2 hw2
        have hwlt : w < io2.reader_max := by
          have h1 := (List.getElem?_eq_some_iff.1 hw2).1
          rw [hF.map_length, hlen, ← hF.reader_max] at h1
          exact h1
        have hwlt2 : w < (io_position_next io2).2.reader_max := hwlt
        rw [if_pos hwlt2] at hb
        subst hb
        refine ⟨a, ha, hP.handle, hP.parity_handle, hP.func, hP.buffer_skew, hP.index, ?_⟩
        intro x
        show Function.update b2.task_map k _ x = _
        by_cases hx : x = k
        · subst hx
          rw [Function.update_same, if_pos (Nat.lt_succ_self _), hq]
          exact sched_task_congr hF.block_max hP.handle hP.buffer_skew _ _ _
        · rw [Function.update_noteq hx, hP.task_map x]
          by_cases hxk : x < k
          · rw [if_pos hxk, if_pos (by omega)]
          · rw [if_neg hxk, if_neg (by omega)]

/-- The record left by `io_start`. -/
theorem io_start_spec (IO_MAX : Nat) (io : snapraid_io) (s m : Nat) (p : Nat → Bool)
    (hlen : io.reader_map.length = io.reader_max) :
    (io_start IO_MAX io s m p).reader_max = io.reader_max ∧
    (io_start IO_MAX io s m p).reader_list = io.reader_list.set 0 (io.reader_max % UCHAR_MOD) ∧
    (io_start IO_MAX io s m p).data_base = io.data_base ∧
    (io_start IO_MAX io s m p).data_count = io.data_count ∧
    (io_start IO_MAX io s m p).parity_base = io.parity_base ∧
    (io_start IO_MAX io s m p).parity_count = io.parity_count ∧
    (io_start IO_MAX io s m p).block_max = m ∧
    (io_start IO_MAX io s m p).block_is_enabled = p ∧
    (io_start IO_MAX io s m p).done = false ∧
    (io_start IO_MAX io s m p).reader_index = IO_MAX - 1 ∧
    (io_start IO_MAX io s m p).block_next = block_next_after p m s (IO_MAX - 1) ∧
    (io_start IO_MAX io s m p).reader_map.length = io.reader_max ∧
    ∀ w b, (io_start IO_MAX io s m p).reader_map[w]? = some b →
      ∃ a b2, io.reader_map[w]? = some a ∧
        Primed (io_start IO_MAX io s m p) (position_seq p m s) (IO_MAX - 1) w a b2 ∧
        b = { b2 with index := 0 } := by
  have hloop := io_start_loop
    { io with
      block_start := s
      block_max := m
      block_is_enabled := p
      block_next := s
      done := false
      reader_index := IO_MAX - 1 } hlen (IO_MAX - 1)
  obtain ⟨hF, hbn, hw⟩ := hloop
  unfold io_start
  simp only
  generalize (List.range (IO_MAX - 1)).foldl io_start_iter
    { io with
      block_start := s
      block_max := m
      block_is_enabled := p
      block_next := s
      done := false
      reader_index := IO_MAX - 1 } = io2 at hF hbn hw
  refine ⟨hF.reader_max, ?_, hF.data_base, hF.data_count, hF.parity_base, hF.parity_count,
    hF.block_max, hF.block_is_enabled, hF.done, hF.reader_index, hbn, ?_, ?_⟩
  · rw [hF.reader_list, hF.reader_max]
  · rw [for_each_reader_length, hF.map_length]
    exact hlen
  · intro w b hb
    rw [for_each_reader_getElem?] at hb
    cases hw2 : io2.reader_map[w]? with
    | none => rw [hw2] at hb; simp at hb
    | some b2 =>
      rw [hw2] at hb
      simp only [Option.map_some', Option.some.injEq] at hb
      obtain ⟨a, ha, hP⟩ := hw w b2 hw2
      have hwlt : w < io2.reader_max := by
        have h1 := (List.getElem?_eq_some_iff.1 hw2).1
        rw [hF.map_length] at h1
        rw [hF.reader_max]
        exact hlen ▸ h1
      rw [if_pos (by omega)] at hb
      refine ⟨a, b2, ha, ⟨hP.handle, hP.parity_handle, hP.func, hP.buffer_skew, hP.index, ?_⟩,
        hb.symm⟩
      intro x
      rw [hP.task_map x]
      split
      · exact (sched_task_congr (by exact hF.block_max) rfl rfl _ _ _).symm
      · rfl

/-- The workers left by `io_init`. -/
theorem init_worker (c : Setup) (w : Nat) (a : snapraid_worker)
    (h : c.init.reader_map[w]? = some a) :
    w < c.reader_max ∧
    a = io_init_worker (c.mem_worker w) c.data_reader c.handle_map c.handle_max
      c.parity_reader c.parity_handle_map c.parity_handle_max w := by
  unfold Setup.init io_init at h
  simp only [List.getElem?_map] at h
  by_cases hw : w < c.handle_max + c.parity_handle_max
  · rw [List.getElem?_range hw] at h
    simp only [Option.map_some', Option.some.injEq] at h
    exact ⟨hw, h.symm⟩
  · rw [List.getElem?_eq_none (by simpa using hw)] at h
    simp at h

theorem init_length (c : Setup) : c.init.reader_map.length = c.init.reader_max := by
  simp [Setup.init, io_init]

theorem ring_dist_lt {D r x : Nat} (hr : r < D) (hx : x < D) : ring_dist D r x < D := by
  unfold ring_dist
  split <;> omega

theorem keeps_control_init_worker (c : Setup) (hc : c.valid) (w : Nat) :
    keeps_control (io_init_worker (c.mem_worker w) c.data_reader c.handle_map c.handle_max
      c.parity_reader c.parity_handle_map c.parity_handle_max w).func := by
  unfold io_init_worker
  split
  · exact hc.2.1
  · exact hc.2.2

/-- The base invariant holds when `io_start` returns. -/
theorem Base_start (c : Setup) (hc : c.valid) : Base c c.start := by
  obtain ⟨h1, h2, h3, h4, h5, h6, h7, h8, _, h10, h11, h12, h13⟩ :=
    io_start_spec c.IO_MAX c.init c.blockstart c.blockmax c.block_is_enabled (init_length c)
  have hD := hc.1
  have hworker : ∀ (w : Nat) (b : snapraid_worker), c.start.io.reader_map[w]? = some b →
      w < c.reader_max ∧ b.index = 0 ∧ keeps_control b.func ∧
      (b.buffer_skew = if w < c.handle_max then 0 else c.parity_handle_max) ∧
      ∀ x, x < c.IO_MAX - 1 → (b.task_map x).position =
        position_seq c.block_is_enabled c.blockmax c.blockstart x ∧
        (b.task_map x).buffer = (x, b.buffer_skew + w) := by
    intro w b hb
    obtain ⟨a, b2, ha, hP, rfl⟩ := h13 w b hb
    obtain ⟨hw, rfl⟩ := init_worker c w a ha
    refine ⟨hw, rfl, ?_, ?_, ?_⟩
    · show keeps_control b2.func
      rw [hP.func]
      exact keeps_control_init_worker c hc w
    · show b2.buffer_skew = _
      rw [hP.buffer_skew]
      unfold io_init_worker
      split <;> rfl
    · intro x hx
      show (b2.task_map x).position = _ ∧ (b2.task_map x).buffer = (x, b2.buffer_skew + w)
      rw [hP.task_map x, if_pos hx, hP.buffer_skew]
      exact ⟨rfl, rfl⟩
  refine
    { reader_max := h1
      data_base := h3
      data_count := h4
      parity_base := h5
      parity_count := h6
      map_length := h12
      list_length := ?_
      thread_length := ?_
      uchar := ?_
      block_max := h7
      block_is_enabled := h8
      block_next := ?_
      reader_index := ?_
      index_lt := ?_
      func := fun w b hb => (hworker w b hb).2.2.1
      skew := fun w b hb => (hworker w b hb).2.2.2.1
      position := ?_
      buffer := ?_
      returned := rfl
      closed := ?_
      ready := fun h => absurd rfl h }
  · show (io_start _ _ _ _ _).reader_list.length = _
    rw [h2]
    simp [Setup.init, io_init, Setup.reader_max]
  · simp [Setup.start, pipeline_start, Setup.init, io_init, Setup.reader_max]
  · intro v hv
    have hv1 : v ∈ (io_start c.IO_MAX c.init c.blockstart c.blockmax c.block_is_enabled).reader_list := hv
    rw [h2] at hv1
    rcases List.mem_or_eq_of_mem_set hv1 with hv2 | hv2
    · simp only [Setup.init, io_init, List.mem_map] at hv2
      obtain ⟨k, _, rfl⟩ := hv2
      exact Nat.mod_lt _ (by decide)
    · rw [hv2]
      exact Nat.mod_lt _ (by decide)
  · show (io_start _ _ _ _ _).block_next = _
    rw [h11]
    show _ = block_next_after _ _ _ (0 + c.IO_MAX - 1)
    rw [Nat.zero_add]
  · show (io_start _ _ _ _ _).reader_index < _
    rw [h10]
    omega
  · intro w b hb
    rw [(hworker w b hb).2.1]
    exact hD
  · intro w b x hb hx hne
    have hne1 : x ≠ c.IO_MAX - 1 := by
      have := hne rfl
      rwa [show c.start.io.reader_index = c.IO_MAX - 1 from h10] at this
    rw [((hworker w b hb).2.2.2.2 x (by omega)).1]
    congr 1
    show x = 0 + ring_dist c.IO_MAX (io_start _ _ _ _ _).reader_index x - 1
    rw [h10]
    unfold ring_dist
    split <;> omega
  · intro w b x hb hx hne
    have hne1 : x ≠ c.IO_MAX - 1 := by
      have := hne rfl
      rwa [show c.start.io.reader_index = c.IO_MAX - 1 from h10] at this
    exact ((hworker w b hb).2.2.2.2 x (by omega)).2
  · intro _ hlt
    show (io_start _ _ _ _ _).reader_list[0]? = _
    rw [h2, List.getElem?_set_self (by simp [Setup.init, io_init])]
    show some (c.reader_max % UCHAR_MOD) = _
    rw [Nat.mod_eq_of_lt hlt]

/-- The synchronisation invariant holds when `io_start` returns. -/
theorem Sync_start (c : Setup) (hD : 2 ≤ c.IO_MAX) : Sync c c.start := by
  obtain ⟨h1, _, _, _, _, _, _, _, _, h10, _, h12, h13⟩ :=
    io_start_spec c.IO_MAX c.init c.blockstart c.blockmax c.block_is_enabled (init_length c)
  have hidx : ∀ (w : Nat) (b : snapraid_worker), c.start.io.reader_map[w]? = some b →
      b.index = 0 := by
    intro w b hb
    obtain ⟨a, b2, _, _, rfl⟩ := h13 w b hb
    rfl
  have hr : c.start.io.reader_index = c.IO_MAX - 1 := h10
  constructor
  · intro w b hb _
    rw [hidx w b hb, hr]
    omega
  · intro w x hp
    have hp1 : decide (w < c.init.reader_max ∧ x < c.IO_MAX - 1) = true := hp
    simp only [decide_eq_true_eq] at hp1
    have hlen : w < c.start.io.reader_map.length := by
      show w < (io_start _ _ _ _ _).reader_map.length
      rw [h12]
      exact hp1.1
    refine ⟨by omega, c.start.io.reader_map[w], List.getElem?_eq_getElem hlen, ?_⟩
    rw [hidx w _ (List.getElem?_eq_getElem hlen), hr]
    have hth : c.start.thread[w]? = some ThreadState.in_worker := by
      show (List.replicate c.init.reader_max ThreadState.in_worker)[w]? = _
      rw [List.getElem?_replicate]
      simp [hp1.1]
    rw [if_pos hth]
    unfold ring_dist
    split <;> split <;> omega

/-! ## The base invariant is kept by every step -/

theorem getElem?_set_some {α : Type} {l : List α} {i j : Nat} {a b : α}
    (h : (l.set i a)[j]? = some b) : (i = j ∧ b = a) ∨ (i ≠ j ∧ l[j]? = some b) := by
  rw [List.getElem?_set] at h
  split at h
  · rename_i hij
    split at h
    · simp only [Option.some.injEq] at h
      exact Or.inl ⟨hij, h.symm⟩
    · exact absurd h (by simp)
  · rename_i hij
    exact Or.inr ⟨hij, h⟩

/-- Replacing a worker by one with the same callback, skew and positions
keeps the base invariant. -/
theorem Base_set_worker {c : Setup} {s : Pipeline} (hB : Base c s) (w : Nat)
    (worker worker1 : snapraid_worker) (hw : s.io.reader_map[w]? = some worker)
    (hfunc : worker1.func = worker.func)
    (hskew : worker1.buffer_skew = worker.buffer_skew)
    (hidx : worker1.index < c.IO_MAX)
    (hpos : ∀ x, (worker1.task_map x).position = (worker.task_map x).position)
    (hbuf : ∀ x, (worker1.task_map x).buffer = (worker.task_map x).buffer)
    (th : List ThreadState) (hth : th.length = s.thread.length)
    (pend : Nat → Nat → Bool) :
    Base c { s with
      io := { s.io with reader_map := s.io.reader_map.set w worker1 }
      thread := th
      pending := pend } := by
  refine
    { reader_max := hB.reader_max
      data_base := hB.data_base
      data_count := hB.data_count
      parity_base := hB.parity_base
      parity_count := hB.parity_count
      map_length := by simpa using hB.map_length
      list_length := hB.list_length
      thread_length := hth.trans hB.thread_length
      uchar := hB.uchar
      block_max := hB.block_max
      block_is_enabled := hB.block_is_enabled
      block_next := hB.block_next
      reader_index := hB.reader_index
      index_lt := ?_
      func := ?_
      skew := ?_
      position := ?_
      buffer := ?_
      returned := hB.returned
      closed := hB.closed
      ready := hB.ready }
  · intro v b hb
    rcases getElem?_set_some hb with ⟨_, rfl⟩ | ⟨_, hb1⟩
    · exact hidx
    · exact hB.index_lt v b hb1
  · intro v b hb
    rcases getElem?_set_some hb with ⟨_, rfl⟩ | ⟨_, hb1⟩
    · rw [hfunc]; exact hB.func w worker hw
    · exact hB.func v b hb1
  · intro v b hb
    rcases getElem?_set_some hb with ⟨rfl, rfl⟩ | ⟨_, hb1⟩
    · rw [hskew]; exact hB.skew w worker hw
    · exact hB.skew v b hb1
  · intro v b x hb hx hne
    rcases getElem?_set_some hb with ⟨_, rfl⟩ | ⟨_, hb1⟩
    · rw [hpos x]; exact hB.position w worker x hw hx hne
    · exact hB.position v b x hb1 hx hne
  · intro v b x hb hx hne
    rcases getElem?_set_some hb with ⟨rfl, rfl⟩ | ⟨_, hb1⟩
    · rw [hbuf x, hskew]; exact hB.buffer w worker x hw hx hne
    · exact hB.buffer v b x hb1 hx hne

theorem io_reader_worker_position (io : snapraid_io) (worker : snapraid_worker)
    (hf : keeps_control worker.func) (task : snapraid_task) :
    (io_reader_worker io worker task).position = task.position := by
  unfold io_reader_worker
  split
  · rfl
  · exact (hf task).1

theorem io_reader_worker_buffer (io : snapraid_io) (worker : snapraid_worker)
    (hf : keeps_control worker.func) (task : snapraid_task) :
    (io_reader_worker io worker task).buffer = task.buffer := by
  unfold io_reader_worker
  split
  · rfl
  · exact (hf task).2

theorem succ_mod_ring {D r : Nat} (hr : r < D) :
    (r + 1) % D = if r + 1 = D then 0 else r + 1 := by
  split
  · rename_i h
    rw [h, Nat.mod_self]
  · exact Nat.mod_eq_of_lt (by omega)

/-- The base invariant after a call of `io_task_read` that returns. -/
theorem Base_task_read {c : Setup} {s : Pipeline} (hB : Base c s) (base count : Nat)
    (task : Nat × Nat) (pos : Nat) (io1 : snapraid_io)
    (h : io_task_read s.io base count = TaskRead.returned task pos io1)
    (dt pt : List Nat)
    (hdt : (dt ++ pt).Perm (task.1 :: (s.data_taken ++ s.parity_taken)))
    (hd : (∀ w ∈ s.data_taken, w < c.handle_max) → ∀ w ∈ dt, w < c.handle_max)
    (hp : (∀ w ∈ s.parity_taken, c.handle_max ≤ w) → ∀ w ∈ pt, c.handle_max ≤ w) :
    Base c { s with io := io1, data_taken := dt, parity_taken := pt } := by
  unfold io_task_read at h
  split at h
  · rename_i cell i hscan
    split at h
    · rename_i next hnext
      simp only [TaskRead.returned.injEq] at h
      obtain ⟨rfl, _, rfl⟩ := h
      refine
        { reader_max := hB.reader_max
          data_base := hB.data_base
          data_count := hB.data_count
          parity_base := hB.parity_base
          parity_count := hB.parity_count
          map_length := hB.map_length
          list_length := by simpa using hB.list_length
          thread_length := hB.thread_length
          uchar := ?_
          block_max := hB.block_max
          block_is_enabled := hB.block_is_enabled
          block_next := hB.block_next
          reader_index := hB.reader_index
          index_lt := hB.index_lt
          func := hB.func
          skew := hB.skew
          position := hB.position
          buffer := hB.buffer
          returned := hB.returned
          closed := ?_
          ready := ?_ }
      · intro v hv
        rcases List.mem_or_eq_of_mem_set hv with hv1 | hv1
        · exact hB.uchar v hv1
        · rw [hv1]
          exact hB.uchar next (List.getElem?_mem hnext)
      · intro hnil hlt
        exfalso
        have h0 := hB.closed hnil hlt
        rw [← hB.reader_max] at h0
        simp [io_task_scan, h0] at hscan
      · intro hne
        obtain ⟨hlt, L, hL, hperm, hd0, hp0⟩ := hB.ready hne
        refine ⟨hlt, ?_⟩
        rw [← hB.reader_max] at hL
        obtain ⟨_, pre, post, rfl, _, hlink⟩ :=
          io_task_scan_found_linked s.io base count L _ 0 cell i hL hscan
        refine ⟨pre ++ post, ?_, ?_, hd hd0, hp hp0⟩
        · have := hlink next hnext
          rw [hB.reader_max] at this
          exact this
        · refine List.Perm.trans ?_ hperm
          refine List.Perm.trans (List.Perm.append_left _ hdt) ?_
          simp only [List.perm_iff_count]
          intro a
          simp only [List.count_append, List.count_cons]
          omega
    · exact absurd h (by simp)
  · exact absurd h (by simp)
  · exact absurd h (by simp)
  · exact absurd h (by simp)

/-- What a call of `io_task_read` that returns hands out. -/
theorem io_task_read_returned {io : snapraid_io} {base count : Nat} {task : Nat × Nat}
    {pos : Nat} {io1 : snapraid_io}
    (h : io_task_read io base count = TaskRead.returned task pos io1) :
    base ≤ task.1 ∧ task.1 < base + count ∧ task.2 = io.reader_index ∧ pos = task.1 - base ∧
      (∃ worker, io.reader_map[task.1]? = some worker ∧ io.reader_index ≠ worker.index) ∧
      io1.reader_map = io.reader_map ∧ io1.reader_index = io.reader_index ∧
      io1.reader_max = io.reader_max ∧ io1.done = io.done := by
  unfold io_task_read at h
  split at h
  · rename_i cell i hscan
    split at h
    · simp only [TaskRead.returned.injEq] at h
      obtain ⟨rfl, rfl, rfl⟩ := h
      obtain ⟨h1, h2, h3⟩ := io_task_scan_found_range io base count _ 0 cell i hscan
      exact ⟨h1, h2, rfl, rfl, h3, rfl, rfl, rfl, rfl⟩
    · exact absurd h (by simp)
  · exact absurd h (by simp)
  · exact absurd h (by simp)
  · exact absurd h (by simp)

theorem ring_dist_self (D r : Nat) : ring_dist D r r = 0 := by
  simp [ring_dist]

/-- The workers after `io_read_next`. -/
theorem io_read_next_worker {IO_MAX : Nat} {io : snapraid_io} {r : Nat × Nat × snapraid_io}
    (h : io_read_next IO_MAX io = some r) (hlen : io.reader_map.length = io.reader_max)
    (v : Nat) (b : snapraid_worker) (hb : r.2.2.reader_map[v]? = some b) :
    ∃ a, io.reader_map[v]? = some a ∧ v < io.reader_max ∧
      b = { a with
        task_map := Function.update a.task_map io.reader_index
          (sched_task io io.reader_index (io_position_next io).1 v a) } := by
  obtain ⟨_, hio, _, _⟩ := io_read_next_some h
  rw [hio] at hb
  have hb1 : (io_reader_sched
        { (io_position_next io).2 with
          reader_list := (List.range (io.reader_max + 1)).map (fun i => i % UCHAR_MOD) }
        io.reader_index (io_position_next io).1).reader_map[v]? = some b := hb
  rw [io_reader_sched_worker] at hb1
  cases ha : io.reader_map[v]? with
  | none =>
    have : (io_position_next io).2.reader_map[v]? = none := ha
    simp [this] at hb1
  | some a =>
    have ha1 : (io_position_next io).2.reader_map[v]? = some a := ha
    have hv : v < io.reader_max := by
      have := (List.getElem?_eq_some_iff.1 ha).1
      omega
    have hv1 : v < (io_position_next io).2.reader_max := hv
    simp only [ha1, Option.map_some', if_pos hv1, Option.some.injEq] at hb1
    refine ⟨a, rfl, hv, ?_⟩
    rw [← hb1]
    rfl

/-- The base invariant after a call of `io_read_next` that returns. -/
theorem Base_read_next {c : Setup} {s : Pipeline} (hc : c.valid) (hB : Base c s)
    (blockcur buf : Nat) (io1 : snapraid_io)
    (h : io_read_next c.IO_MAX s.io = some (blockcur, buf, io1)) (pend : Nat → Nat → Bool) :
    Base c { s with
      io := io1
      pending := pend
      returned := s.returned ++ [blockcur]
      data_taken := []
      parity_taken := [] } := by
  have hD := hc.1
  obtain ⟨hl, hio, _, w0, hw0, hpos0⟩ := io_read_next_some h
  have hwk := io_read_next_worker h (hB.map_length.trans hB.reader_max.symm)
  simp only at hio hw0 hpos0 hwk
  have hr := hB.reader_index
  have hlen : (s.returned ++ [blockcur]).length = s.returned.length + 1 := by simp
  have hq : (io_position_next s.io).1 =
      position_seq c.block_is_enabled c.blockmax c.blockstart
        (s.returned.length + c.IO_MAX - 1) := by
    rw [io_position_next_fst, hB.block_is_enabled, hB.block_max, hB.block_next]
    rfl
  have hri : io1.reader_index = (s.io.reader_index + 1) % c.IO_MAX := by rw [hio]
  have hposition : ∀ (v : Nat) (b : snapraid_worker) (x : Nat), io1.reader_map[v]? = some b →
      x < c.IO_MAX → (b.task_map x).position =
        position_seq c.block_is_enabled c.blockmax c.blockstart
          (s.returned.length + 1 + ring_dist c.IO_MAX io1.reader_index x - 1) := by
    intro v b x hb hx
    obtain ⟨a, ha, _, rfl⟩ := hwk v b hb
    rw [hri]
    show (Function.update a.task_map s.io.reader_index _ x).position = _
    by_cases hxr : x = s.io.reader_index
    · subst hxr
      rw [Function.update_same]
      show (io_position_next s.io).1 = _
      rw [hq]
      congr 1
      rw [succ_mod_ring hr]
      unfold ring_dist
      split <;> split <;> omega
    · rw [Function.update_noteq hxr, hB.position v a x ha hx (fun _ => hxr)]
      congr 1
      rw [succ_mod_ring hr]
      unfold ring_dist
      split <;> split <;> split <;> omega
  refine
    { reader_max := by rw [hio]; exact hB.reader_max
      data_base := by rw [hio]; exact hB.data_base
      data_count := by rw [hio]; exact hB.data_count
      parity_base := by rw [hio]; exact hB.parity_base
      parity_count := by rw [hio]; exact hB.parity_count
      map_length := ?_
      list_length := ?_
      thread_length := hB.thread_length
      uchar := ?_
      block_max := by rw [hio]; exact hB.block_max
      block_is_enabled := by rw [hio]; exact hB.block_is_enabled
      block_next := ?_
      reader_index := ?_
      index_lt := ?_
      func := ?_
      skew := ?_
      position := ?_
      buffer := ?_
      returned := ?_
      closed := fun hnil => absurd hnil (by simp)
      ready := ?_ }
  · show io1.reader_map.length = _
    rw [hio]
    show (io_reader_sched _ _ _).reader_map.length = _
    rw [io_reader_sched_length]
    exact hB.map_length
  · show io1.reader_list.length = _
    rw [hio]
    show ((List.range (s.io.reader_max + 1)).map _).length = _
    simp [hB.reader_max]
  · intro v hv
    have hv1 : v ∈ io1.reader_list := hv
    rw [hio] at hv1
    have hv2 : v ∈ (List.range (s.io.reader_max + 1)).map (fun i => i % UCHAR_MOD) := hv1
    simp only [List.mem_map] at hv2
    obtain ⟨k, _, rfl⟩ := hv2
    exact Nat.mod_lt _ (by decide)
  · show io1.block_next = block_next_after _ _ _ ((s.returned ++ [blockcur]).length + c.IO_MAX - 1)
    rw [hio, hlen]
    show ((io_position_next s.io).1 + 1) % BLOCK_OFF_MOD = _
    rw [hq]
    have : s.returned.length + 1 + c.IO_MAX - 1 = (s.returned.length + c.IO_MAX - 1) + 1 := by
      omega
    rw [this]
    rfl
  · show io1.reader_index < _
    rw [hri]
    exact Nat.mod_lt _ hD
  · intro v b hb
    obtain ⟨a, ha, _, rfl⟩ := hwk v b hb
    exact hB.index_lt v a ha
  · intro v b hb
    obtain ⟨a, ha, _, rfl⟩ := hwk v b hb
    exact hB.func v a ha
  · intro v b hb
    obtain ⟨a, ha, _, rfl⟩ := hwk v b hb
    exact hB.skew v a ha
  · intro v b x hb hx _
    show _ = position_seq _ _ _ ((s.returned ++ [blockcur]).length + _ - 1)
    rw [hlen]
    exact hposition v b x hb hx
  · intro v b x hb hx _
    obtain ⟨a, ha, _, rfl⟩ := hwk v b hb
    show (Function.update a.task_map s.io.reader_index _ x).buffer = (x, a.buffer_skew + v)
    by_cases hxr : x = s.io.reader_index
    · subst hxr
      rw [Function.update_same]
      rfl
    · rw [Function.update_noteq hxr]
      exact hB.buffer v a x ha hx (fun _ => hxr)
  · show s.returned ++ [blockcur] = c.positions (s.returned ++ [blockcur]).length
    rw [hlen]
    unfold Setup.positions
    rw [List.range_succ, List.map_append, List.map_singleton]
    have h1 := hB.returned
    unfold Setup.positions at h1
    rw [← h1]
    congr 2
    rw [hpos0, ← hri, hposition 0 w0 io1.reader_index hw0 (by rw [hri]; exact Nat.mod_lt _ hD),
      ring_dist_self]
    rfl
  · intro _
    have hlt : c.reader_max < UCHAR_MOD := by
      have := hB.uchar _ (List.getElem?_mem hl)
      rw [hB.reader_max] at this
      exact this
    refine ⟨hlt, List.range' 0 c.reader_max, ?_, ?_, by simp, by simp⟩
    · show Linked io1.reader_list _ _ _
      rw [hio]
      show Linked ((List.range (s.io.reader_max + 1)).map (fun i => i % UCHAR_MOD)) _ _ _
      rw [hB.reader_max]
      exact Linked_reset c.reader_max hlt c.reader_max 0 (by omega)
    · rw [List.range_eq_range']
      simp

/-- What `io_reader_step` does when it returns a task. -/
theorem io_reader_step_task {IO_MAX : Nat} {io : snapraid_io} {worker worker1 : snapraid_worker}
    {slot : Nat} (h : io_reader_step IO_MAX io worker = ReaderStep.task worker1 slot) :
    io.done = false ∧ slot = (worker.index + 1) % IO_MAX ∧ slot ≠ io.reader_index ∧
      worker1 = { worker with index := slot } := by
  unfold io_reader_step at h
  split at h
  · exact absurd h (by simp)
  · rename_i hd
    simp only at h
    split at h
    · rename_i hne
      simp only [ReaderStep.task.injEq] at h
      obtain ⟨rfl, rfl⟩ := h
      exact ⟨by simpa using hd, rfl, hne, rfl⟩
    · exact absurd h (by simp)

/-- Changing only the control point of the threads, the pending marks or
the shutdown flag keeps the base invariant. -/
theorem Base_control {c : Setup} {s : Pipeline} (hB : Base c s) (d : Bool)
    (th : List ThreadState) (hth : th.length = s.thread.length) (pend : Nat → Nat → Bool) :
    Base c { s with io := { s.io with done := d }, thread := th, pending := pend } :=
  { reader_max := hB.reader_max
    data_base := hB.data_base
    data_count := hB.data_count
    parity_base := hB.parity_base
    parity_count := hB.parity_count
    map_length := hB.map_length
    list_length := hB.list_length
    thread_length := hth.trans hB.thread_length
    uchar := hB.uchar
    block_max := hB.block_max
    block_is_enabled := hB.block_is_enabled
    block_next := hB.block_next
    reader_index := hB.reader_index
    index_lt := hB.index_lt
    func := hB.func
    skew := hB.skew
    position := hB.position
    buffer := hB.buffer
    returned := hB.returned
    closed := hB.closed
    ready := hB.ready }

/-- Every step keeps the base invariant. -/
theorem Base_step {c : Setup} {s s1 : Pipeline} (hc : c.valid) (hB : Base c s) (e : Event)
    (h : step c.IO_MAX e s = some s1) : Base c s1 := by
  have hD := hc.1
  cases e with
  | read_next =>
    simp only [step] at h
    split at h
    · rename_i blockcur buf io1 heq
      simp only [Option.some.injEq] at h
      subst h
      exact Base_read_next hc hB blockcur buf io1 heq _
    · exact absurd h (by simp)
  | data_read =>
    simp only [step, task_read_step] at h
    split at h
    · rename_i task pos io1 heq
      simp only [if_true, Option.some.injEq] at h
      subst h
      obtain ⟨_, h2, _⟩ := io_task_read_returned heq
      refine Base_task_read hB _ _ task pos io1 heq _ _ ?_ ?_ (fun hp => hp)
      · simp only [List.perm_iff_count]
        intro a
        simp only [List.count_append, List.count_cons, List.count_nil]
        omega
      · intro hd w hw
        rcases List.mem_append.1 hw with hw1 | hw1
        · exact hd w hw1
        · simp only [List.mem_singleton] at hw1
          subst hw1
          have h3 : task.1 < s.io.data_base + s.io.data_count := h2
          rw [hB.data_base, hB.data_count] at h3
          omega
    · exact absurd h (by simp)
    · exact absurd h (by simp)
  | parity_read =>
    simp only [step, task_read_step] at h
    split at h
    · rename_i task pos io1 heq
      simp only [Bool.false_eq_true, if_false, Option.some.injEq] at h
      subst h
      obtain ⟨h1, _⟩ := io_task_read_returned heq
      refine Base_task_read hB _ _ task pos io1 heq _ _ ?_ (fun hd => hd) ?_
      · simp only [List.perm_iff_count]
        intro a
        simp only [List.count_append, List.count_cons, List.count_nil]
        omega
      · intro hp w hw
        rcases List.mem_append.1 hw with hw1 | hw1
        · exact hp w hw1
        · simp only [List.mem_singleton] at hw1
          subst hw1
          have h3 : s.io.parity_base ≤ task.1 := h1
          rw [hB.parity_base] at h3
          exact h3
    · exact absurd h (by simp)
    · exact absurd h (by simp)
  | stop =>
    simp only [step, Option.some.injEq] at h
    subst h
    exact Base_control hB true s.thread rfl s.pending
  | reader_step w =>
    simp only [step] at h
    split at h
    · rename_i worker hth hw
      split at h
      · simp only [Option.some.injEq] at h
        subst h
        exact Base_control hB s.io.done (s.thread.set w ThreadState.exited)
          (by rw [List.length_set]) s.pending
      · exact absurd h (by simp)
      · rename_i worker1 slot hstep
        obtain ⟨_, hslot, _, rfl⟩ := io_reader_step_task hstep
        have hlt : slot < c.IO_MAX := by rw [hslot]; exact Nat.mod_lt _ hD
        split at h
        · simp only [Option.some.injEq] at h
          subst h
          exact Base_set_worker hB w worker { worker with index := slot } hw rfl rfl hlt
            (fun _ => rfl) (fun _ => rfl) s.thread rfl _
        · simp only [Option.some.injEq] at h
          subst h
          exact Base_set_worker hB w worker { worker with index := slot } hw rfl rfl hlt
            (fun _ => rfl) (fun _ => rfl) (s.thread.set w ThreadState.in_worker)
            (by rw [List.length_set]) s.pending
    · exact absurd h (by simp)
  | reader_done w =>
    simp only [step] at h
    split at h
    · rename_i worker hth hw
      simp only [Option.some.injEq] at h
      subst h
      refine Base_set_worker hB w worker
        { worker with
          task_map := Function.update worker.task_map worker.index
            (io_reader_worker s.io worker (worker.task_map worker.index)) }
        hw rfl rfl (hB.index_lt w worker hw) ?_ ?_
        (s.thread.set w ThreadState.at_step) (by rw [List.length_set]) _
      · intro x
        show (Function.update worker.task_map worker.index _ x).position = _
        by_cases hx : x = worker.index
        · subst hx
          rw [Function.update_same]
          exact io_reader_worker_position _ _ (hB.func w worker hw) _
        · rw [Function.update_noteq hx]
      · intro x
        show (Function.update worker.task_map worker.index _ x).buffer = _
        by_cases hx : x = worker.index
        · subst hx
          rw [Function.update_same]
          exact io_reader_worker_buffer _ _ (hB.func w worker hw) _
        · rw [Function.update_noteq hx]
    · exact absurd h (by simp)

/-! ## The synchronisation invariant is kept by every step -/

theorem ring_dist_succ {D r i : Nat} (hr : r < D) (hi : i < D) (h : (i + 1) % D ≠ r) :
    ring_dist D r ((i + 1) % D) = ring_dist D r i + 1 := by
  rw [succ_mod_ring hi] at h ⊢
  unfold ring_dist
  split_ifs at h ⊢ <;> omega

theorem ring_dist_inj {D r x y : Nat} (hr : r < D) (hx : x < D) (hy : y < D)
    (h : ring_dist D r x = ring_dist D r y) : x = y := by
  unfold ring_dist at h
  split at h <;> split at h <;> omega

theorem ring_dist_pos {D r x : Nat} (hr : r < D) (h : x ≠ r) :
    0 < ring_dist D r x := by
  unfold ring_dist
  split <;> omega

theorem ring_dist_advance {D r x : Nat} (hr : r < D) (hx : x < D) (h : x ≠ r) :
    ring_dist D ((r + 1) % D) x + 1 = ring_dist D r x := by
  rw [succ_mod_ring hr]
  unfold ring_dist
  split <;> split <;> split <;> omega

theorem ring_dist_advance_self {D r : Nat} (hr : r < D) :
    ring_dist D ((r + 1) % D) r = D - 1 := by
  rw [succ_mod_ring hr]
  unfold ring_dist
  split <;> split <;> omega

/-- When the assertion of `io_read_next` holds, every worker has left the
slot of the caller. -/
theorem drained_index {c : Setup} {s : Pipeline} (hB : Base c s) (hS : Sync c s)
    (hl : s.io.reader_list[0]? = some s.io.reader_max) (w : Nat) (a : snapraid_worker)
    (ha : s.io.reader_map[w]? = some a) : a.index ≠ s.io.reader_index := by
  apply hS.consumed w a ha
  by_cases hr : s.returned = []
  · exact Or.inl hr
  · right
    obtain ⟨_, L, hL, hperm, _, _⟩ := hB.ready hr
    rw [hB.reader_max] at hl
    have hnil := Linked_sentinel hL hl
    subst hnil
    have hw : w < c.reader_max := by
      have := (List.getElem?_eq_some_iff.1 ha).1
      rw [hB.map_length] at this
      exact this
    have : w ∈ List.range c.reader_max := List.mem_range.2 hw
    exact (List.Perm.mem_iff (by simpa using hperm)).2 this

theorem thread_set_in_worker (th : List ThreadState) (w v : Nat) (st : ThreadState)
    (hw : w < th.length) :
    ((th.set w st)[v]? = some ThreadState.in_worker) ↔
      (if v = w then st = ThreadState.in_worker else th[v]? = some ThreadState.in_worker) := by
  rw [List.getElem?_set]
  by_cases hv : v = w
  · subst hv
    simp [hw]
  · have hv1 : ¬ w = v := fun h => hv h.symm
    simp [hv, hv1]

theorem io_read_next_worker_index {IO_MAX : Nat} {io : snapraid_io}
    {r : Nat × Nat × snapraid_io} (h : io_read_next IO_MAX io = some r)
    (hlen : io.reader_map.length = io.reader_max) (w : Nat) (a : snapraid_worker)
    (ha : io.reader_map[w]? = some a) :
    ∃ b, r.2.2.reader_map[w]? = some b ∧ b.index = a.index := by
  have hw : w < r.2.2.reader_map.length := by
    obtain ⟨_, hio, _, _⟩ := io_read_next_some h
    rw [hio]
    show w < (io_reader_sched _ _ _).reader_map.length
    rw [io_reader_sched_length]
    exact (List.getElem?_eq_some_iff.1 ha).1
  obtain ⟨a1, ha1, _, hb⟩ := io_read_next_worker h hlen w _ (List.getElem?_eq_getElem hw)
  rw [ha] at ha1
  simp only [Option.some.injEq] at ha1
  subst ha1
  exact ⟨_, List.getElem?_eq_getElem hw, by rw [hb]⟩

/-- The synchronisation invariant after a call of `io_read_next` that
returns. -/
theorem Sync_read_next {c : Setup} {s : Pipeline} (hB : Base c s) (hS : Sync c s)
    (blockcur buf : Nat) (io1 : snapraid_io)
    (h : io_read_next c.IO_MAX s.io = some (blockcur, buf, io1)) :
    Sync c { s with
      io := io1
      pending := fun w slot =>
        if slot = s.io.reader_index ∧ w < s.io.reader_max then true else s.pending w slot
      returned := s.returned ++ [blockcur]
      data_taken := []
      parity_taken := [] } := by
  obtain ⟨hl, hio, _, _⟩ := io_read_next_some h
  have hlen := hB.map_length.trans hB.reader_max.symm
  have hidx := io_read_next_worker_index h hlen
  simp only at hio hidx
  have hri : io1.reader_index = (s.io.reader_index + 1) % c.IO_MAX := by rw [hio]
  have hr := hB.reader_index
  constructor
  · intro w b _ hor
    rcases hor with h1 | h1
    · exact absurd h1 (by simp)
    · exact absurd h1 (by simp)
  · intro w x hp
    show x < c.IO_MAX ∧ ∃ worker, io1.reader_map[w]? = some worker ∧
      ring_dist c.IO_MAX io1.reader_index worker.index +
        (if s.thread[w]? = some ThreadState.in_worker then 0 else 1) ≤
      ring_dist c.IO_MAX io1.reader_index x
    rw [hri]
    have hp1 : (if x = s.io.reader_index ∧ w < s.io.reader_max then true
        else s.pending w x) = true := hp
    by_cases hx : x = s.io.reader_index ∧ w < s.io.reader_max
    · obtain ⟨rfl, hw⟩ := hx
      have hw1 : w < s.io.reader_map.length := by omega
      have ha := List.getElem?_eq_getElem hw1
      obtain ⟨b, hb, hbi⟩ := hidx w _ ha
      refine ⟨hr, b, hb, ?_⟩
      rw [hbi, ring_dist_advance_self hr]
      have h1 := drained_index hB hS hl w _ ha
      have h2 := hB.index_lt w _ ha
      have h3 := ring_dist_advance hr h2 h1
      have h4 := ring_dist_lt hr h2
      split_ifs <;> omega
    · rw [if_neg hx] at hp1
      obtain ⟨hx1, a, ha, hle⟩ := hS.pending w x hp1
      obtain ⟨b, hb, hbi⟩ := hidx w a ha
      refine ⟨hx1, b, hb, ?_⟩
      rw [hbi]
      have h1 := drained_index hB hS hl w a ha
      have h2 := hB.index_lt w a ha
      have h3 := ring_dist_advance hr h2 h1
      have h5 : x ≠ s.io.reader_index := by
        intro hxr
        rw [hxr, ring_dist_self] at hle
        have := ring_dist_pos hr h1
        omega
      have h6 := ring_dist_advance hr hx1 h5
      omega

/-- The synchronisation invariant after a call of `io_task_read` that
returns. -/
theorem Sync_task_read {c : Setup} {s : Pipeline} (hS : Sync c s) (base count : Nat)
    (task : Nat × Nat) (pos : Nat) (io1 : snapraid_io)
    (h : io_task_read s.io base count = TaskRead.returned task pos io1)
    (dt pt : List Nat)
    (hmem : ∀ w, w ∈ dt ++ pt → w = task.1 ∨ w ∈ s.data_taken ++ s.parity_taken) :
    Sync c { s with io := io1, data_taken := dt, parity_taken := pt } := by
  obtain ⟨_, _, _, _, ⟨worker, hw, hne⟩, hmap, hri, _, _⟩ := io_task_read_returned h
  constructor
  · intro w b hb hor
    have hb1 : io1.reader_map[w]? = some b := hb
    show b.index ≠ io1.reader_index
    rw [hri]
    rw [hmap] at hb1
    rcases hor with h1 | h1
    · exact hS.consumed w b hb1 (Or.inl h1)
    · rcases hmem w h1 with h2 | h2
      · subst h2
        rw [hw] at hb1
        simp only [Option.some.injEq] at hb1
        subst hb1
        exact fun h => hne h.symm
      · exact hS.consumed w b hb1 (Or.inr h2)
  · intro w x hp
    show x < c.IO_MAX ∧ ∃ worker, io1.reader_map[w]? = some worker ∧
      ring_dist c.IO_MAX io1.reader_index worker.index +
        (if s.thread[w]? = some ThreadState.in_worker then 0 else 1) ≤
      ring_dist c.IO_MAX io1.reader_index x
    rw [hri, hmap]
    exact hS.pending w x hp

/-- The synchronisation invariant when one worker moves. -/
theorem Sync_set_worker {c : Setup} {s : Pipeline} (hS : Sync c s) (w : Nat)
    (worker worker1 : snapraid_worker) (hw : s.io.reader_map[w]? = some worker)
    (th : List ThreadState) (pend : Nat → Nat → Bool)
    (hidx : worker.index ≠ s.io.reader_index → worker1.index ≠ s.io.reader_index)
    (hth : ∀ v : Nat, v ≠ w → th[v]? = s.thread[v]?)
    (hother : ∀ v t, v ≠ w → pend v t = s.pending v t)
    (hself : ∀ t, pend w t = true → s.pending w t = true ∧
      (t < c.IO_MAX →
        ring_dist c.IO_MAX s.io.reader_index worker.index +
          (if s.thread[w]? = some ThreadState.in_worker then 0 else 1) ≤
          ring_dist c.IO_MAX s.io.reader_index t →
        ring_dist c.IO_MAX s.io.reader_index worker1.index +
          (if th[w]? = some ThreadState.in_worker then 0 else 1) ≤
          ring_dist c.IO_MAX s.io.reader_index t)) :
    Sync c { s with
      io := { s.io with reader_map := s.io.reader_map.set w worker1 }
      thread := th
      pending := pend } := by
  have hwl : w < s.io.reader_map.length := (List.getElem?_eq_some_iff.1 hw).1
  constructor
  · intro v b hb hor
    rcases getElem?_set_some hb with ⟨rfl, rfl⟩ | ⟨_, hb1⟩
    · exact hidx (hS.consumed w worker hw hor)
    · exact hS.consumed v b hb1 hor
  · intro v x hp
    show x < c.IO_MAX ∧ ∃ worker2, (s.io.reader_map.set w worker1)[v]? = some worker2 ∧
      ring_dist c.IO_MAX s.io.reader_index worker2.index +
        (if th[v]? = some ThreadState.in_worker then 0 else 1) ≤
      ring_dist c.IO_MAX s.io.reader_index x
    have hp1 : pend v x = true := hp
    by_cases hv : v = w
    · subst hv
      obtain ⟨hp2, himp⟩ := hself x hp1
      obtain ⟨hx, a, ha, hle⟩ := hS.pending v x hp2
      rw [hw] at ha
      simp only [Option.some.injEq] at ha
      subst ha
      exact ⟨hx, worker1, List.getElem?_set_self hwl, himp hx hle⟩
    · rw [hother v x hv] at hp1
      obtain ⟨hx, a, ha, hle⟩ := hS.pending v x hp1
      refine ⟨hx, a, ?_, ?_⟩
      · rw [List.getElem?_set_ne (fun h => hv h.symm)]
        exact ha
      · rw [hth v hv]
        exact hle

/-- The synchronisation invariant when only the shutdown flag or the
control point of an idle thread changes. -/
theorem Sync_control {c : Setup} {s : Pipeline} (hS : Sync c s) (d : Bool)
    (th : List ThreadState)
    (hth : ∀ v : Nat,
      th[v]? = some ThreadState.in_worker ↔ s.thread[v]? = some ThreadState.in_worker) :
    Sync c { s with io := { s.io with done := d }, thread := th } := by
  constructor
  · exact hS.consumed
  · intro v x hp
    obtain ⟨hx, a, ha, hle⟩ := hS.pending v x hp
    refine ⟨hx, a, ha, ?_⟩
    show ring_dist c.IO_MAX s.io.reader_index a.index +
        (if th[v]? = some ThreadState.in_worker then 0 else 1) ≤ _
    by_cases h1 : s.thread[v]? = some ThreadState.in_worker
    · rw [if_pos ((hth v).2 h1)]
      rw [if_pos h1] at hle
      exact hle
    · rw [if_neg (fun h => h1 ((hth v).1 h))]
      rw [if_neg h1] at hle
      exact hle

/-- Every step keeps the synchronisation invariant. -/
theorem Sync_step {c : Setup} {s s1 : Pipeline} (hB : Base c s) (hS : Sync c s) (e : Event)
    (h : step c.IO_MAX e s = some s1) : Sync c s1 := by
  have hr := hB.reader_index
  cases e with
  | read_next =>
    simp only [step] at h
    split at h
    · rename_i blockcur buf io1 heq
      simp only [Option.some.injEq] at h
      subst h
      exact Sync_read_next hB hS blockcur buf io1 heq
    · exact absurd h (by simp)
  | data_read =>
    simp only [step, task_read_step] at h
    split at h
    · rename_i task pos io1 heq
      simp only [if_true, Option.some.injEq] at h
      subst h
      refine Sync_task_read hS _ _ task pos io1 heq _ _ ?_
      intro w hw
      simp only [List.mem_append, List.mem_singleton] at hw ⊢
      tauto
    · exact absurd h (by simp)
    · exact absurd h (by simp)
  | parity_read =>
    simp only [step, task_read_step] at h
    split at h
    · rename_i task pos io1 heq
      simp only [Bool.false_eq_true, if_false, Option.some.injEq] at h
      subst h
      refine Sync_task_read hS _ _ task pos io1 heq _ _ ?_
      intro w hw
      simp only [List.mem_append, List.mem_singleton] at hw ⊢
      tauto
    · exact absurd h (by simp)
    · exact absurd h (by simp)
  | stop =>
    simp only [step, Option.some.injEq] at h
    subst h
    exact Sync_control hS true s.thread (fun _ => Iff.rfl)
  | reader_step w =>
    simp only [step] at h
    split at h
    · rename_i worker hth hw
      have hwt : w < s.thread.length := (List.getElem?_eq_some_iff.1 hth).1
      have hnot : ¬ s.thread[w]? = some ThreadState.in_worker := by
        rw [hth]; simp
      split at h
      · simp only [Option.some.injEq] at h
        subst h
        refine Sync_control hS s.io.done (s.thread.set w ThreadState.exited) ?_
        intro v
        rw [thread_set_in_worker _ _ _ _ hwt]
        by_cases hv : v = w
        · subst hv
          simp [hth]
        · simp [hv]
      · exact absurd h (by simp)
      · rename_i worker1 slot hstep
        obtain ⟨_, hslot, hne, rfl⟩ := io_reader_step_task hstep
        have hi := hB.index_lt w worker hw
        have hd : ring_dist c.IO_MAX s.io.reader_index slot =
            ring_dist c.IO_MAX s.io.reader_index worker.index + 1 := by
          rw [hslot]
          exact ring_dist_succ hr hi (hslot ▸ hne)
        have hslt : slot < c.IO_MAX := by
          rw [hslot]
          exact Nat.mod_lt _ (by omega)
        split at h
        · simp only [Option.some.injEq] at h
          subst h
          refine Sync_set_worker hS w worker { worker with index := slot } hw s.thread _
            (fun _ => hne) (fun _ _ => rfl) ?_ ?_
          · intro v t hv
            simp [hv]
          · intro t ht
            have ht1 : (if w = w ∧ t = slot then false else s.pending w t) = true := ht
            by_cases hts : t = slot
            · simp [hts] at ht1
            · simp only [hts, and_false, if_false] at ht1
              refine ⟨ht1, ?_⟩
              intro htl hle
              show ring_dist c.IO_MAX s.io.reader_index slot + _ ≤ _
              rw [if_neg hnot] at hle ⊢
              have : ring_dist c.IO_MAX s.io.reader_index t ≠
                  ring_dist c.IO_MAX s.io.reader_index slot :=
                fun h => hts (ring_dist_inj hr htl hslt h)
              omega
        · simp only [Option.some.injEq] at h
          subst h
          refine Sync_set_worker hS w worker { worker with index := slot } hw
            (s.thread.set w ThreadState.in_worker) s.pending
            (fun _ => hne) ?_ (fun _ _ _ => rfl) ?_
          · intro v hv
            rw [List.getElem?_set_ne (fun h => hv h.symm)]
          · intro t ht
            refine ⟨ht, ?_⟩
            intro _ hle
            show ring_dist c.IO_MAX s.io.reader_index slot + _ ≤ _
            rw [if_neg hnot] at hle
            rw [List.getElem?_set_self hwt, if_pos rfl]
            omega
    · exact absurd h (by simp)
  | reader_done w =>
    simp only [step] at h
    split at h
    · rename_i worker hth hw
      have hwt : w < s.thread.length := (List.getElem?_eq_some_iff.1 hth).1
      simp only [Option.some.injEq] at h
      subst h
      refine Sync_set_worker hS w worker
        { worker with
          task_map := Function.update worker.task_map worker.index
            (io_reader_worker s.io worker (worker.task_map worker.index)) }
        hw (s.thread.set w ThreadState.at_step) _ (fun h => h) ?_ ?_ ?_
      · intro v hv
        rw [List.getElem?_set_ne (fun h => hv h.symm)]
      · intro v t hv
        simp [hv]
      · intro t ht
        have ht1 : (if w = w ∧ t = worker.index then false else s.pending w t) = true := ht
        by_cases hts : t = worker.index
        · simp [hts] at ht1
        · simp only [hts, and_false, if_false] at ht1
          refine ⟨ht1, ?_⟩
          intro htl hle
          show ring_dist c.IO_MAX s.io.reader_index worker.index + _ ≤ _
          rw [List.getElem?_set_self hwt]
          rw [if_pos hth] at hle
          simp only [Option.some.injEq, if_false]
          have : ring_dist c.IO_MAX s.io.reader_index t ≠
              ring_dist c.IO_MAX s.io.reader_index worker.index :=
            fun h => hts (ring_dist_inj hr htl (hB.index_lt w worker hw) h)
          simp only [reduceCtorEq, if_false]
          omega
    · exact absurd h (by simp)

/-- The invariants hold in every state the pipeline reaches. -/
theorem Base_run {c : Setup} (hc : c.valid) :
    ∀ (es : List Event) (s s1 : Pipeline), Base c s → run c.IO_MAX es s = some s1 →
      Base c s1 := by
  intro es
  induction es with
  | nil =>
    intro s s1 hB h
    simp only [run, Option.some.injEq] at h
    exact h ▸ hB
  | cons e es ih =>
    intro s s1 hB h
    simp only [run] at h
    split at h
    · rename_i s2 hs2
      exact ih s2 s1 (Base_step hc hB e hs2) h
    · exact absurd h (by simp)

theorem Sync_run {c : Setup} (hc : c.valid) :
    ∀ (es : List Event) (s s1 : Pipeline), Base c s → Sync c s →
      run c.IO_MAX es s = some s1 → Sync c s1 := by
  intro es
  induction es with
  | nil =>
    intro s s1 _ hS h
    simp only [run, Option.some.injEq] at h
    exact h ▸ hS
  | cons e es ih =>
    intro s s1 hB hS h
    simp only [run] at h
    split at h
    · rename_i s2 hs2
      exact ih s2 s1 (Base_step hc hB e hs2) (Sync_step hB hS e hs2) h
    · exact absurd h (by simp)

theorem run_append (IO_MAX : Nat) :
    ∀ (es fs : List Event) (s : Pipeline),
      run IO_MAX (es ++ fs) s = (run IO_MAX es s).bind (run IO_MAX fs) := by
  intro es
  induction es with
  | nil => intro fs s; rfl
  | cons e es ih =>
    intro fs s
    simp only [List.cons_append, run]
    cases step IO_MAX e s with
    | none => rfl
    | some s1 => exact ih fs s1

/-! ## Progress: the caller can always reach its next stripe -/

theorem run_trans {IO_MAX : Nat} {es fs : List Event} {s s1 s2 : Pipeline}
    (h1 : run IO_MAX es s = some s1) (h2 : run IO_MAX fs s1 = some s2) :
    run IO_MAX (es ++ fs) s = some s2 := by
  rw [run_append, h1]
  exact h2

theorem run_single {IO_MAX : Nat} {e : Event} {s s1 : Pipeline}
    (h : step IO_MAX e s = some s1) : run IO_MAX [e] s = some s1 := by
  simp [run, h]

theorem Live_thread {s : Pipeline} (hL : Live s) (w : Nat) (hw : w < s.thread.length) :
    s.thread[w]? = some ThreadState.in_worker ∨ s.thread[w]? = some ThreadState.at_step := by
  have h1 := List.getElem?_eq_getElem hw
  have h2 := hL.2 w _ h1
  rw [h1]
  cases h3 : s.thread[w] with
  | in_worker => exact Or.inl rfl
  | at_step => exact Or.inr rfl
  | exited => exact absurd h3 h2

/-- A worker inside `io_reader_worker` comes to the end of its task. -/
theorem worker_finishes {c : Setup} {s : Pipeline} (hL : Live s) (w : Nat)
    (worker : snapraid_worker) (hw : s.io.reader_map[w]? = some worker)
    (hth : s.thread[w]? = some ThreadState.in_worker) :
    ∃ s1, step c.IO_MAX (Event.reader_done w) s = some s1 ∧ Live s1 ∧ Ahead s s1 ∧
      s1.thread[w]? = some ThreadState.at_step ∧
      ∃ b, s1.io.reader_map[w]? = some b ∧ b.index = worker.index := by
  have hwt : w < s.thread.length := (List.getElem?_eq_some_iff.1 hth).1
  have hwl : w < s.io.reader_map.length := (List.getElem?_eq_some_iff.1 hw).1
  have hs : step c.IO_MAX (Event.reader_done w) s = some
      { s with
        io := { s.io with
          reader_map := s.io.reader_map.set w
            { worker with
              task_map := Function.update worker.task_map worker.index
                (io_reader_worker s.io worker (worker.task_map worker.index)) } }
        thread := s.thread.set w ThreadState.at_step
        pending := fun v t => if v = w ∧ t = worker.index then false else s.pending v t } := by
    simp only [step, hth, hw]
  refine ⟨_, hs, ⟨hL.1, ?_⟩, ⟨rfl, rfl, rfl, rfl, rfl, ?_⟩, ?_,
    ⟨_, List.getElem?_set_self hwl, rfl⟩⟩
  · intro v st hv
    rcases getElem?_set_some hv with ⟨_, rfl⟩ | ⟨_, hv1⟩
    · simp
    · exact hL.2 v st hv1
  · intro v a ha hne
    by_cases hv : v = w
    · subst hv
      rw [hw] at ha
      simp only [Option.some.injEq] at ha
      subst ha
      exact ⟨_, List.getElem?_set_self hwl, hne⟩
    · refine ⟨a, ?_, hne⟩
      show (s.io.reader_map.set w _)[v]? = some a
      rw [List.getElem?_set_ne (fun h => hv h.symm)]
      exact ha
  · show (s.thread.set w ThreadState.at_step)[w]? = _
    rw [List.getElem?_set_self hwt]

/-- A worker at `io_reader_step` whose index is the slot of the caller takes
the next slot. -/
theorem worker_advances {c : Setup} {s : Pipeline} (hD : 2 ≤ c.IO_MAX) (hB : Base c s)
    (hL : Live s) (w : Nat) (worker : snapraid_worker)
    (hw : s.io.reader_map[w]? = some worker)
    (hth : s.thread[w]? = some ThreadState.at_step)
    (hidx : worker.index = s.io.reader_index) :
    ∃ s1, step c.IO_MAX (Event.reader_step w) s = some s1 ∧ Live s1 ∧ Ahead s s1 ∧
      ∃ b, s1.io.reader_map[w]? = some b ∧ b.index ≠ s.io.reader_index := by
  have hwt : w < s.thread.length := (List.getElem?_eq_some_iff.1 hth).1
  have hwl : w < s.io.reader_map.length := (List.getElem?_eq_some_iff.1 hw).1
  have hr := hB.reader_index
  have hne : (worker.index + 1) % c.IO_MAX ≠ s.io.reader_index := by
    rw [hidx, succ_mod_ring hr]
    split_ifs <;> omega
  have hstep : io_reader_step c.IO_MAX s.io worker =
      ReaderStep.task { worker with index := (worker.index + 1) % c.IO_MAX }
        ((worker.index + 1) % c.IO_MAX) := by
    unfold io_reader_step
    rw [if_neg (by simp [hL.1])]
    simp only
    rw [if_pos hne]
  have hother : ∀ (v : Nat) (a : snapraid_worker), s.io.reader_map[v]? = some a →
      a.index ≠ s.io.reader_index →
      ∃ b, (s.io.reader_map.set w
        { worker with index := (worker.index + 1) % c.IO_MAX })[v]? = some b ∧
        b.index ≠ s.io.reader_index := by
    intro v a ha hna
    by_cases hv : v = w
    · subst hv
      exact ⟨_, List.getElem?_set_self hwl, hne⟩
    · refine ⟨a, ?_, hna⟩
      rw [List.getElem?_set_ne (fun h => hv h.symm)]
      exact ha
  by_cases hst : (worker.task_map ((worker.index + 1) % c.IO_MAX)).state =
      TaskState.TASK_STATE_EMPTY
  · have hs : step c.IO_MAX (Event.reader_step w) s = some
        { s with
          io := { s.io with
            reader_map := s.io.reader_map.set w
              { worker with index := (worker.index + 1) % c.IO_MAX } }
          pending := fun v t =>
            if v = w ∧ t = (worker.index + 1) % c.IO_MAX then false else s.pending v t } := by
      simp only [step, hth, hw, hstep, hst, if_true]
    exact ⟨_, hs, ⟨hL.1, hL.2⟩, ⟨rfl, rfl, rfl, rfl, rfl, hother⟩,
      ⟨_, List.getElem?_set_self hwl, hne⟩⟩
  · have hs : step c.IO_MAX (Event.reader_step w) s = some
        { s with
          io := { s.io with
            reader_map := s.io.reader_map.set w
              { worker with index := (worker.index + 1) % c.IO_MAX } }
          thread := s.thread.set w ThreadState.in_worker } := by
      simp only [step, hth, hw, hstep, hst, if_false]
    refine ⟨_, hs, ⟨hL.1, ?_⟩, ⟨rfl, rfl, rfl, rfl, rfl, hother⟩,
      ⟨_, List.getElem?_set_self hwl, hne⟩⟩
    intro v st hv
    rcases getElem?_set_some hv with ⟨_, rfl⟩ | ⟨_, hv1⟩
    · simp
    · exact hL.2 v st hv1

theorem Ahead_refl (s : Pipeline) : Ahead s s :=
  ⟨rfl, rfl, rfl, rfl, rfl, fun _ a ha hne => ⟨a, ha, hne⟩⟩

theorem Ahead_trans {s s1 s2 : Pipeline} (h1 : Ahead s s1) (h2 : Ahead s1 s2) : Ahead s s2 :=
  ⟨h2.returned.trans h1.returned, h2.data_taken.trans h1.data_taken,
    h2.parity_taken.trans h1.parity_taken, h2.reader_list.trans h1.reader_list,
    h2.reader_index.trans h1.reader_index, fun v a ha hne => by
      obtain ⟨b, hb, hbn⟩ := h1.ready v a ha hne
      obtain ⟨d, hd, hdn⟩ := h2.ready v b hb (by rw [h1.reader_index]; exact hbn)
      exact ⟨d, hd, by rw [h1.reader_index] at hdn; exact hdn⟩⟩

/-- Any worker can be brought past the slot of the caller. -/
theorem worker_gets_ready {c : Setup} {s : Pipeline} (hc : c.valid) (hD : 2 ≤ c.IO_MAX)
    (hB : Base c s) (hL : Live s) (w : Nat) (worker : snapraid_worker)
    (hw : s.io.reader_map[w]? = some worker) :
    ∃ es s1, run c.IO_MAX es s = some s1 ∧ Live s1 ∧ Ahead s s1 ∧
      ∃ b, s1.io.reader_map[w]? = some b ∧ b.index ≠ s.io.reader_index := by
  have hwt : w < s.thread.length := by
    rw [hB.thread_length, ← hB.map_length]
    exact (List.getElem?_eq_some_iff.1 hw).1
  have hstepper : ∀ (s0 : Pipeline) (a : snapraid_worker), Base c s0 → Live s0 →
      s0.io.reader_map[w]? = some a → s0.thread[w]? = some ThreadState.at_step →
      ∃ es s1, run c.IO_MAX es s0 = some s1 ∧ Live s1 ∧ Ahead s0 s1 ∧
        ∃ b, s1.io.reader_map[w]? = some b ∧ b.index ≠ s0.io.reader_index := by
    intro s0 a hB0 hL0 ha hth
    by_cases hidx : a.index = s0.io.reader_index
    · obtain ⟨s1, hs1, hL1, hA1, hb⟩ := worker_advances hD hB0 hL0 w a ha hth hidx
      exact ⟨[Event.reader_step w], s1, run_single hs1, hL1, hA1, hb⟩
    · exact ⟨[], s0, rfl, hL0, Ahead_refl s0, a, ha, hidx⟩
  rcases Live_thread hL w hwt with hth | hth
  · obtain ⟨s1, hs1, hL1, hA1, hth1, b, hb, _⟩ := worker_finishes (c := c) hL w worker hw hth
    obtain ⟨es, s2, hr2, hL2, hA2, d, hd, hdn⟩ :=
      hstepper s1 b (Base_step hc hB _ hs1) hL1 hb hth1
    refine ⟨Event.reader_done w :: es, s2, ?_, hL2, Ahead_trans hA1 hA2, d, hd, ?_⟩
    · simp only [run, hs1]
      exact hr2
    · rw [hA1.reader_index] at hdn
      exact hdn
  · exact hstepper s worker hB hL hw hth

/-- All the workers can be brought past the slot of the caller. -/
theorem workers_get_ready {c : Setup} (hc : c.valid) (hD : 2 ≤ c.IO_MAX) :
    ∀ (k : Nat) (s : Pipeline), Base c s → Live s → k ≤ c.reader_max →
      ∃ es s1, run c.IO_MAX es s = some s1 ∧ Live s1 ∧ Ahead s s1 ∧
        ∀ (v : Nat) (b : snapraid_worker), v < k → s1.io.reader_map[v]? = some b →
          b.index ≠ s.io.reader_index := by
  intro k
  induction k with
  | zero =>
    intro s _ hL _
    exact ⟨[], s, rfl, hL, Ahead_refl s, fun v b hv => absurd hv (by omega)⟩
  | succ k ih =>
    intro s hB hL hk
    obtain ⟨es, s1, hr1, hL1, hA1, hready⟩ := ih s hB hL (by omega)
    have hB1 := Base_run hc es s s1 hB hr1
    have hkl : k < s1.io.reader_map.length := by rw [hB1.map_length]; omega
    obtain ⟨fs, s2, hr2, hL2, hA2, b, hb, hbn⟩ :=
      worker_gets_ready hc hD hB1 hL1 k _ (List.getElem?_eq_getElem hkl)
    refine ⟨es ++ fs, s2, run_trans hr1 hr2, hL2, Ahead_trans hA1 hA2, ?_⟩
    intro v d hv hd
    rw [hA1.reader_index] at hbn
    by_cases hvk : v = k
    · subst hvk
      rw [hb] at hd
      simp only [Option.some.injEq] at hd
      exact hd ▸ hbn
    · have hvl : v < s1.io.reader_map.length := by rw [hB1.map_length]; omega
      have h1 := hready v _ (by omega) (List.getElem?_eq_getElem hvl)
      obtain ⟨d1, hd1, hdn1⟩ := hA2.ready v _ (List.getElem?_eq_getElem hvl)
        (by rw [hA1.reader_index]; exact h1)
      rw [hd] at hd1
      simp only [Option.some.injEq] at hd1
      rw [hA1.reader_index] at hdn1
      exact hd1 ▸ hdn1

/-- A pass of `io_task_read` over a well formed list finds a worker when the
list holds a worker of the range and every listed worker is ready. -/
theorem io_task_scan_finds (io : snapraid_io) (base count : Nat) :
    ∀ (L : List Nat) (fuel cell : Nat), Linked io.reader_list io.reader_max cell L →
      L.length < fuel → (∃ i, i ∈ L ∧ base ≤ i ∧ i < base + count) →
      (∀ i, i ∈ L → ∃ b, io.reader_map[i]? = some b ∧ io.reader_index ≠ b.index) →
      ∃ c i, io_task_scan io base count fuel cell = ScanResult.found c i := by
  intro L
  induction L with
  | nil => intro fuel cell _ _ ⟨i, hi, _⟩ _; simp at hi
  | cons a L ih =>
    intro fuel cell hL hf hex hready
    obtain ⟨h1, _, h3, h4⟩ := hL
    cases fuel with
    | zero => simp at hf
    | succ fuel =>
      have hne : a ≠ io.reader_max := by omega
      obtain ⟨b, hb, hbr⟩ := hready a (List.mem_cons_self a L)
      by_cases hr : base ≤ a ∧ a < base + count
      · exact ⟨cell, a, by simp only [io_task_scan, h1, hne, if_false, hr, and_self, if_true,
          hb, hbr, ne_eq, not_false_eq_true]⟩
      · have hex1 : ∃ i, i ∈ L ∧ base ≤ i ∧ i < base + count := by
          obtain ⟨i, hi, hir⟩ := hex
          rcases List.mem_cons.1 hi with rfl | hi1
          · exact absurd hir hr
          · exact ⟨i, hi1, hir⟩
        obtain ⟨c, i, hscan⟩ := ih fuel (a + 1) h4 (by simpa using hf) hex1
          (fun i hi => hready i (List.mem_cons_of_mem a hi))
        exact ⟨c, i, by simp only [io_task_scan, h1, hne, if_false, hr, hscan]⟩

/-- While a stripe is open and every worker is ready, `io_task_read`
returns as soon as the ready list holds a worker of its range. -/
theorem io_task_read_returns {c : Setup} {s : Pipeline} (hB : Base c s)
    (hready : ∀ (v : Nat) (b : snapraid_worker), s.io.reader_map[v]? = some b →
      b.index ≠ s.io.reader_index)
    (base count : Nat) (L : List Nat) (hL : Linked s.io.reader_list c.reader_max 0 L)
    (hlen : L.length ≤ c.reader_max)
    (hex : ∃ i, i ∈ L ∧ base ≤ i ∧ i < base + count) :
    ∃ task pos io1, io_task_read s.io base count = TaskRead.returned task pos io1 := by
  rw [← hB.reader_max] at hL
  have hall : ∀ i, i ∈ L → ∃ b, s.io.reader_map[i]? = some b ∧ s.io.reader_index ≠ b.index := by
    intro i hi
    have hi1 := (Linked_bounds L 0 hL i hi).2
    have hil : i < s.io.reader_map.length := by rw [hB.map_length, ← hB.reader_max]; exact hi1
    exact ⟨_, List.getElem?_eq_getElem hil,
      fun h => hready i _ (List.getElem?_eq_getElem hil) h.symm⟩
  obtain ⟨cell, i, hscan⟩ := io_task_scan_finds s.io base count L (s.io.reader_max + 2) 0 hL
    (by rw [hB.reader_max]; omega) hex hall
  obtain ⟨_, _, _, _, ⟨next, hnext⟩, _⟩ :=
    io_task_scan_found_linked s.io base count L _ 0 cell i hL hscan
  refine ⟨(i, s.io.reader_index), i - base,
    { s.io with reader_list := s.io.reader_list.set cell next }, ?_⟩
  simp only [io_task_read, hscan, hnext]

theorem Drain_refl (s : Pipeline) : Drain s s := ⟨rfl, rfl, rfl, rfl, rfl⟩

theorem Drain_trans {s s1 s2 : Pipeline} (h1 : Drain s s1) (h2 : Drain s1 s2) : Drain s s2 :=
  ⟨h2.returned.trans h1.returned, h2.reader_map.trans h1.reader_map,
    h2.reader_index.trans h1.reader_index, h2.done.trans h1.done, h2.thread.trans h1.thread⟩

/-- The caller can consume every data worker of the stripe. -/
theorem drain_data {c : Setup} (hc : c.valid) :
    ∀ (m : Nat) (s : Pipeline), Base c s → s.returned ≠ [] →
      (∀ (v : Nat) (b : snapraid_worker), s.io.reader_map[v]? = some b →
        b.index ≠ s.io.reader_index) →
      s.data_taken.length + m = c.handle_max →
      ∃ es s1, run c.IO_MAX es s = some s1 ∧ Drain s s1 ∧
        s1.data_taken.length = c.handle_max ∧ s1.parity_taken = s.parity_taken := by
  intro m
  induction m with
  | zero => intro s _ _ _ hm; exact ⟨[], s, rfl, Drain_refl s, by omega, rfl⟩
  | succ m ih =>
    intro s hB hopen hready hm
    obtain ⟨_, L, hL, hperm, hd, hp⟩ := hB.ready hopen
    have hlen : L.length ≤ c.reader_max := by
      have := hperm.length_eq
      simp only [List.length_append, List.length_range] at this
      omega
    have hex : ∃ i, i ∈ L ∧ s.io.data_base ≤ i ∧ i < s.io.data_base + s.io.data_count := by
      rw [hB.data_base, hB.data_count]
      by_contra hno
      have hsub : List.range c.handle_max ⊆ s.data_taken := by
        intro w hw
        have hw1 := List.mem_range.1 hw
        have hw2 : w ∈ List.range c.reader_max :=
          List.mem_range.2 (by unfold Setup.reader_max; omega)
        have hw3 := (List.Perm.mem_iff hperm).2 hw2
        simp only [List.mem_append] at hw3
        rcases hw3 with hw4 | hw4 | hw4
        · exact absurd ⟨w, hw4, by omega, by omega⟩ hno
        · exact hw4
        · have := hp w hw4
          omega
      have := (List.subperm_of_subset (List.nodup_range _) hsub).length_le
      simp only [List.length_range] at this
      omega
    obtain ⟨task, pos, io1, hread⟩ :=
      io_task_read_returns hB hready _ _ L hL hlen hex
    have hstep : step c.IO_MAX Event.data_read s =
        some { s with io := io1, data_taken := s.data_taken ++ [task.1] } := by
      simp only [step, task_read_step, io_data_read, hread, if_true]
    obtain ⟨_, _, _, _, _, hmap, hri, _, hdone⟩ := io_task_read_returned hread
    obtain ⟨es, s2, hr2, hD2, hlen2, hpt2⟩ := ih _ (Base_step hc hB _ hstep) hopen
      (by
        intro v b hb
        show b.index ≠ io1.reader_index
        rw [hri]
        exact hready v b (by rw [← hmap]; exact hb))
      (by
        show (s.data_taken ++ [task.1]).length + m = _
        simp only [List.length_append, List.length_singleton]
        omega)
    have hD1 : Drain s { s with io := io1, data_taken := s.data_taken ++ [task.1] } :=
      ⟨rfl, hmap, hri, hdone, rfl⟩
    refine ⟨Event.data_read :: es, s2, ?_, Drain_trans hD1 hD2, hlen2, hpt2⟩
    simp only [run, hstep]
    exact hr2

/-- The caller can consume every parity worker of the stripe. -/
theorem drain_parity {c : Setup} (hc : c.valid) :
    ∀ (m : Nat) (s : Pipeline), Base c s → s.returned ≠ [] →
      (∀ (v : Nat) (b : snapraid_worker), s.io.reader_map[v]? = some b →
        b.index ≠ s.io.reader_index) →
      s.parity_taken.length + m = c.parity_handle_max →
      ∃ es s1, run c.IO_MAX es s = some s1 ∧ Drain s s1 ∧
        s1.parity_taken.length = c.parity_handle_max ∧ s1.data_taken = s.data_taken := by
  intro m
  induction m with
  | zero => intro s _ _ _ hm; exact ⟨[], s, rfl, Drain_refl s, by omega, rfl⟩
  | succ m ih =>
    intro s hB hopen hready hm
    obtain ⟨_, L, hL, hperm, hd, hp⟩ := hB.ready hopen
    have hlen : L.length ≤ c.reader_max := by
      have := hperm.length_eq
      simp only [List.length_append, List.length_range] at this
      omega
    have hex : ∃ i, i ∈ L ∧ s.io.parity_base ≤ i ∧
        i < s.io.parity_base + s.io.parity_count := by
      rw [hB.parity_base, hB.parity_count]
      by_contra hno
      have hsub : List.range' c.handle_max c.parity_handle_max ⊆ s.parity_taken := by
        intro w hw
        have hw1 := List.mem_range'_1.1 hw
        have hw2 : w ∈ List.range c.reader_max :=
          List.mem_range.2 (by unfold Setup.reader_max; omega)
        have hw3 := (List.Perm.mem_iff hperm).2 hw2
        simp only [List.mem_append] at hw3
        rcases hw3 with hw4 | hw4 | hw4
        · exact absurd ⟨w, hw4, by omega, by omega⟩ hno
        · have := hd w hw4
          omega
        · exact hw4
      have := (List.subperm_of_subset (List.nodup_range' _ _) hsub).length_le
      simp only [List.length_range'] at this
      omega
    obtain ⟨task, pos, io1, hread⟩ :=
      io_task_read_returns hB hready _ _ L hL hlen hex
    have hstep : step c.IO_MAX Event.parity_read s =
        some { s with io := io1, parity_taken := s.parity_taken ++ [task.1] } := by
      simp only [step, task_read_step, io_parity_read, hread, Bool.false_eq_true, if_false]
    obtain ⟨_, _, _, _, _, hmap, hri, _, hdone⟩ := io_task_read_returned hread
    obtain ⟨es, s2, hr2, hD2, hlen2, hdt2⟩ := ih _ (Base_step hc hB _ hstep) hopen
      (by
        intro v b hb
        show b.index ≠ io1.reader_index
        rw [hri]
        exact hready v b (by rw [← hmap]; exact hb))
      (by
        show (s.parity_taken ++ [task.1]).length + m = _
        simp only [List.length_append, List.length_singleton]
        omega)
    have hD1 : Drain s { s with io := io1, parity_taken := s.parity_taken ++ [task.1] } :=
      ⟨rfl, hmap, hri, hdone, rfl⟩
    refine ⟨Event.parity_read :: es, s2, ?_, Drain_trans hD1 hD2, hlen2, hdt2⟩
    simp only [run, hstep]
    exact hr2

/-- `io_read_next` returns when the ready list is empty and there is a
worker. -/
theorem io_read_next_returns (IO_MAX : Nat) (io : snapraid_io)
    (hl : io.reader_list[0]? = some io.reader_max) (hw : 0 < io.reader_map.length) :
    ∃ r, io_read_next IO_MAX io = some r := by
  have hlen : 0 < (io_reader_sched
      { (io_position_next io).2 with
        reader_list := (List.range (io.reader_max + 1)).map (fun i => i % UCHAR_MOD) }
      io.reader_index (io_position_next io).1).reader_map.length := by
    rw [io_reader_sched_length]
    exact hw
  have hl1 : (io_position_next io).2.reader_list[0]? = some (io_position_next io).2.reader_max :=
    hl
  cases h : io_read_next IO_MAX io with
  | some r => exact ⟨r, rfl⟩
  | none =>
    exfalso
    unfold io_read_next at h
    simp only at h
    rw [if_pos hl1] at h
    split at h
    · exact absurd h (by simp)
    · rename_i hnone
      exact Nat.not_le_of_lt hlen (List.getElem?_eq_none_iff.1 hnone)

/-- A pass of `io_task_read` over a well formed list comes to an end within
the fuel and stays inside the arrays: it finds a worker or reaches the
sentinel. -/
theorem io_task_scan_defined (io : snapraid_io) (base count : Nat) :
    ∀ (L : List Nat) (fuel cell : Nat), Linked io.reader_list io.reader_max cell L →
      L.length < fuel → (∀ i, i ∈ L → i < io.reader_map.length) →
      (∃ c i, io_task_scan io base count fuel cell = ScanResult.found c i) ∨
        io_task_scan io base count fuel cell = ScanResult.wait := by
  intro L
  induction L with
  | nil =>
    intro fuel cell hL hf _
    cases fuel with
    | zero => simp at hf
    | succ fuel =>
      have h1 : io.reader_list[cell]? = some io.reader_max := hL
      exact Or.inr (by simp [io_task_scan, h1])
  | cons a L ih =>
    intro fuel cell hL hf hin
    obtain ⟨h1, _, h3, h4⟩ := hL
    cases fuel with
    | zero => simp at hf
    | succ fuel =>
      have hne : a ≠ io.reader_max := by omega
      have hrec := ih fuel (a + 1) h4 (by simpa using hf)
        (fun i hi => hin i (List.mem_cons_of_mem a hi))
      obtain ⟨worker, ha⟩ : ∃ worker, io.reader_map[a]? = some worker :=
        ⟨_, List.getElem?_eq_getElem (hin a (List.mem_cons_self a L))⟩
      by_cases hr : base ≤ a ∧ a < base + count
      · by_cases hidx : io.reader_index ≠ worker.index
        · exact Or.inl ⟨cell, a, by simp only [io_task_scan, h1, hne, if_false, hr, and_self,
            if_true, ha, hidx, ne_eq, not_false_eq_true]⟩
        · have hstep : io_task_scan io base count (fuel + 1) cell =
              io_task_scan io base count fuel (a + 1) := by
            simp only [io_task_scan, h1, hne, if_false, hr, and_self, if_true, ha, hidx]
          rw [hstep]
          exact hrec
      · have hstep : io_task_scan io base count (fuel + 1) cell =
            io_task_scan io base count fuel (a + 1) := by
          simp only [io_task_scan, h1, hne, if_false, hr]
        rw [hstep]
        exact hrec

/-- With at most 255 workers, in every state that satisfies the base
invariant a call of `io_task_read` returns or waits: its pass over the ready
list neither runs for ever nor leaves the arrays. -/
theorem io_task_read_defined {c : Setup} {s : Pipeline} (hB : Base c s)
    (hlt : c.reader_max < UCHAR_MOD) (base count : Nat) :
    io_task_read s.io base count ≠ TaskRead.undefined := by
  by_cases hnil : s.returned = []
  · have h0 := hB.closed hnil hlt
    rw [← hB.reader_max] at h0
    simp [io_task_read, io_task_scan, h0]
  · obtain ⟨_, L, hL, hperm, _, _⟩ := hB.ready hnil
    rw [← hB.reader_max] at hL
    have hlen : L.length < s.io.reader_max + 2 := by
      have := hperm.length_eq
      simp only [List.length_append, List.length_range] at this
      rw [hB.reader_max]
      omega
    have hin : ∀ i, i ∈ L → i < s.io.reader_map.length := by
      intro i hi
      have := (Linked_bounds L 0 hL i hi).2
      rw [hB.map_length, ← hB.reader_max]
      exact this
    rcases io_task_scan_defined s.io base count L _ 0 hL hlen hin with ⟨cell, i, hscan⟩ | hwait
    · obtain ⟨_, _, _, _, ⟨next, hnext⟩, _⟩ :=
        io_task_scan_found_linked s.io base count L _ 0 cell i hL hscan
      simp [io_task_read, hscan, hnext]
    · simp [io_task_read, hwait]

theorem Live_start (c : Setup) : Live c.start := by
  obtain ⟨_, _, _, _, _, _, _, _, h9, _⟩ :=
    io_start_spec c.IO_MAX c.init c.blockstart c.blockmax c.block_is_enabled (init_length c)
  refine ⟨h9, ?_⟩
  intro w st hw
  have hw1 : (List.replicate c.init.reader_max ThreadState.in_worker)[w]? = some st := hw
  rw [List.getElem?_replicate] at hw1
  split at hw1
  · simp only [Option.some.injEq] at hw1
    rw [← hw1]
    simp
  · exact absurd hw1 (by simp)

theorem Live_Drain {s s1 : Pipeline} (hL : Live s) (hD : Drain s s1) : Live s1 :=
  ⟨hD.done.trans hL.1, fun w st hw => hL.2 w st (by rw [← hD.thread]; exact hw)⟩

/-- A call of `io_read_next` that returns is a step of the pipeline, and
leaves it live. -/
theorem read_next_step {c : Setup} {s : Pipeline} (hL : Live s)
    (hl : s.io.reader_list[0]? = some s.io.reader_max) (hw : 0 < s.io.reader_map.length) :
    ∃ s1, step c.IO_MAX Event.read_next s = some s1 ∧ Live s1 ∧
      s1.returned.length = s.returned.length + 1 := by
  obtain ⟨⟨blockcur, buf, io1⟩, hr⟩ := io_read_next_returns c.IO_MAX s.io hl hw
  have hs : step c.IO_MAX Event.read_next s = some
      { s with
        io := io1
        pending := fun w slot =>
          if slot = s.io.reader_index ∧ w < s.io.reader_max then true else s.pending w slot
        returned := s.returned ++ [blockcur]
        data_taken := []
        parity_taken := [] } := by
    simp only [step, hr]
  obtain ⟨_, hio, _, _⟩ := io_read_next_some hr
  simp only at hio
  refine ⟨_, hs, ⟨?_, hL.2⟩, by simp⟩
  show io1.done = false
  rw [hio]
  exact hL.1

theorem taken_length_le {c : Setup} {s : Pipeline} (hB : Base c s) (hopen : s.returned ≠ []) :
    s.data_taken.length ≤ c.handle_max ∧ s.parity_taken.length ≤ c.parity_handle_max := by
  obtain ⟨_, L, _, hperm, hd, hp⟩ := hB.ready hopen
  have hnd : (L ++ (s.data_taken ++ s.parity_taken)).Nodup :=
    (List.Perm.nodup_iff hperm).2 (List.nodup_range _)
  have hnd1 : (s.data_taken ++ s.parity_taken).Nodup := hnd.of_append_right
  have hlt : ∀ w, w ∈ s.parity_taken → w < c.reader_max := by
    intro w hw
    have : w ∈ L ++ (s.data_taken ++ s.parity_taken) := by simp [hw]
    exact List.mem_range.1 ((List.Perm.mem_iff hperm).1 this)
  have hsd : List.Subperm s.data_taken (List.range c.handle_max) :=
    List.subperm_of_subset hnd1.of_append_left (fun w hw => List.mem_range.2 (hd w hw))
  have hsp : List.Subperm s.parity_taken (List.range' c.handle_max c.parity_handle_max) :=
    List.subperm_of_subset hnd1.of_append_right (fun w hw => by
      rw [List.mem_range'_1]
      have := hlt w hw
      have := hp w hw
      unfold Setup.reader_max at *
      omega)
  exact ⟨by simpa using hsd.length_le, by simpa using hsp.length_le⟩

/-- From an open stripe the caller can always reach the next one: the
workers finish, the caller consumes them all and `io_read_next` returns. -/
theorem next_stripe {c : Setup} (hc : c.valid) (hD : 2 ≤ c.IO_MAX) (h1 : 1 ≤ c.reader_max)
    (s : Pipeline) (hB : Base c s) (hL : Live s) (hopen : s.returned ≠ []) :
    ∃ es s1, run c.IO_MAX es s = some s1 ∧ Live s1 ∧
      s1.returned.length = s.returned.length + 1 := by
  obtain ⟨es1, s1, hr1, hL1, hA1, hready1⟩ :=
    workers_get_ready hc hD c.reader_max s hB hL (Nat.le_refl _)
  have hB1 := Base_run hc es1 s s1 hB hr1
  have hopen1 : s1.returned ≠ [] := by rw [hA1.returned]; exact hopen
  have hall1 : ∀ (v : Nat) (b : snapraid_worker), s1.io.reader_map[v]? = some b →
      b.index ≠ s1.io.reader_index := by
    intro v b hb
    rw [hA1.reader_index]
    have hv := (List.getElem?_eq_some_iff.1 hb).1
    rw [hB1.map_length] at hv
    exact hready1 v b hv hb
  obtain ⟨es2, s2, hr2, hD2, hdt2, hpt2⟩ :=
    drain_data hc (c.handle_max - s1.data_taken.length) s1 hB1 hopen1 hall1
      (by have := (taken_length_le hB1 hopen1).1; omega)
  have hB2 := Base_run hc es2 s1 s2 hB1 hr2
  have hopen2 : s2.returned ≠ [] := by rw [hD2.returned]; exact hopen1
  have hall2 : ∀ (v : Nat) (b : snapraid_worker), s2.io.reader_map[v]? = some b →
      b.index ≠ s2.io.reader_index := by
    intro v b hb
    rw [hD2.reader_index]
    exact hall1 v b (by rw [← hD2.reader_map]; exact hb)
  obtain ⟨es3, s3, hr3, hD3, hpt3, hdt3⟩ :=
    drain_parity hc (c.parity_handle_max - s2.parity_taken.length) s2 hB2 hopen2 hall2
      (by have := (taken_length_le hB2 hopen2).2; omega)
  have hB3 := Base_run hc es3 s2 s3 hB2 hr3
  have hopen3 : s3.returned ≠ [] := by rw [hD3.returned]; exact hopen2
  have hL3 : Live s3 := Live_Drain (Live_Drain hL1 hD2) hD3
  obtain ⟨_, L, hL, hperm, _, _⟩ := hB3.ready hopen3
  have hnil : L = [] := by
    have := hperm.length_eq
    simp only [List.length_append, List.length_range] at this
    rw [hdt3, hdt2, hpt3] at this
    unfold Setup.reader_max at this
    exact List.length_eq_zero.1 (by omega)
  subst hnil
  have hl : s3.io.reader_list[0]? = some s3.io.reader_max := by
    rw [hB3.reader_max]
    exact hL
  obtain ⟨s4, hs4, hL4, hlen4⟩ :=
    read_next_step (c := c) hL3 hl (by rw [hB3.map_length]; omega)
  refine ⟨es1 ++ (es2 ++ (es3 ++ [Event.read_next])), s4,
    run_trans hr1 (run_trans hr2 (run_trans hr3 (run_single hs4))), hL4, ?_⟩
  rw [hlen4, hD3.returned, hD2.returned, hA1.returned]

/-- Progress. With a ring of at least two slots and between 1 and 255
workers, the pipeline has, for every `n`, a run in which `io_read_next` has
returned `n` times. -/
theorem pipeline_progress (c : Setup) (hc : c.valid) (hD : 2 ≤ c.IO_MAX)
    (h1 : 1 ≤ c.reader_max) (h2 : c.reader_max < UCHAR_MOD) (n : Nat) :
    ∃ es s, run c.IO_MAX es c.start = some s ∧ s.returned.length = n := by
  have hfirst : ∃ es s, run c.IO_MAX es c.start = some s ∧ Live s ∧
      s.returned.length = 0 + 1 := by
    have hB := Base_start c hc
    obtain ⟨_, hlist, _⟩ :=
      io_start_spec c.IO_MAX c.init c.blockstart c.blockmax c.block_is_enabled (init_length c)
    have hl : c.start.io.reader_list[0]? = some c.start.io.reader_max := by
      rw [hB.reader_max]
      show (io_start _ _ _ _ _).reader_list[0]? = _
      rw [hlist, List.getElem?_set_self (by simp [Setup.init, io_init])]
      show some (c.reader_max % UCHAR_MOD) = _
      rw [Nat.mod_eq_of_lt h2]
    obtain ⟨s1, hs1, hL1, hlen1⟩ :=
      read_next_step (c := c) (Live_start c) hl (by rw [hB.map_length]; omega)
    exact ⟨[Event.read_next], s1, run_single hs1, hL1, by rw [hlen1]; rfl⟩
  have hall : ∀ k, ∃ es s, run c.IO_MAX es c.start = some s ∧ Live s ∧
      s.returned.length = k + 1 := by
    intro k
    induction k with
    | zero => exact hfirst
    | succ k ih =>
      obtain ⟨es, s, hr, hL, hlen⟩ := ih
      have hB := Base_run hc es c.start s (Base_start c hc) hr
      obtain ⟨fs, s1, hr1, hL1, hlen1⟩ := next_stripe hc hD h1 s hB hL (by
        intro hnil
        rw [hnil] at hlen
        simp at hlen)
      exact ⟨es ++ fs, s1, run_trans hr hr1, hL1, by rw [hlen1, hlen]⟩
  cases n with
  | zero => exact ⟨[], c.start, rfl, rfl⟩
  | succ k =>
    obtain ⟨es, s, hr, _, hlen⟩ := hall k
    exact ⟨es, s, hr, hlen⟩

/-! ## Reaching a state -/

theorem run_getD (IO_MAX : Nat) (es : List Event) (s : Pipeline)
    (h : (run IO_MAX es s).isSome = true) :
    run IO_MAX es s = some ((run IO_MAX es s).getD s) := by
  cases hr : run IO_MAX es s with
  | none => rw [hr] at h; exact absurd h (by simp)
  | some s1 => rfl

theorem Base_reach {c : Setup} (hc : c.valid) {es : List Event} {s : Pipeline}
    (h : run c.IO_MAX es c.start = some s) : Base c s :=
  Base_run hc es c.start s (Base_start c hc) h

theorem Sync_reach {c : Setup} (hc : c.valid) (hD : 2 ≤ c.IO_MAX) {es : List Event}
    {s : Pipeline} (h : run c.IO_MAX es c.start = some s) : Sync c s :=
  Sync_run hc es c.start s (Base_start c hc) (Sync_start c hD) h

theorem demo_valid (IO_MAX data parity blockstart blockmax : Nat) (p : Nat → Bool)
    (h : 0 < IO_MAX) : (demo IO_MAX data parity blockstart blockmax p).valid :=
  ⟨h, fun _ => ⟨rfl, rfl⟩, fun _ => ⟨rfl, rfl⟩⟩

/-! ## Coverage and ordering -/

/-- C1 (coverage). In every run of the pipeline after `io_init` and
`io_start(s, m, p)`, the call number `k` of `io_read_next` returns the
position number `k` produced by `io_position_next`; and once a returned value
has reached `block_max`, the values returned before it are exactly the
enabled positions of `[s, m)`, each once and in increasing order. Such runs
exist: with a ring of at least two slots and between 1 and 255 workers the
caller can make any number `n` of calls, which return the first `n`
positions. -/
theorem coverage (c : Setup) (hc : c.valid) (hm : c.blockmax < BLOCK_OFF_MOD) :
    (∀ (es : List Event) (s : Pipeline), run c.IO_MAX es c.start = some s →
      s.returned = c.positions s.returned.length ∧
      ((∃ q, q ∈ s.returned ∧ c.blockmax ≤ q) →
        s.returned.takeWhile (fun q => decide (q < c.blockmax)) = c.enabled)) ∧
    (2 ≤ c.IO_MAX → 1 ≤ c.reader_max → c.reader_max < UCHAR_MOD →
      ∀ n, ∃ es s, run c.IO_MAX es c.start = some s ∧ s.returned = c.positions n) := by
  constructor
  · intro es s h
    have hB := Base_reach hc h
    refine ⟨hB.returned, ?_⟩
    intro ⟨q, hq, hqm⟩
    rw [hB.returned] at hq ⊢
    unfold Setup.positions at hq ⊢
    simp only [List.mem_map, List.mem_range] at hq
    obtain ⟨j, hj, rfl⟩ := hq
    exact takeWhile_position_seq c.block_is_enabled c.blockmax hm _ c.blockstart ⟨j, hj, hqm⟩
  · intro hD h1 h2 n
    obtain ⟨es, s, hr, hlen⟩ := pipeline_progress c hc hD h1 h2 n
    refine ⟨es, s, hr, ?_⟩
    rw [(Base_reach hc hr).returned, hlen]

set_option maxRecDepth 100000 in
/-- C1, the scenario S2: four data workers, one parity worker, depth four,
range `[0, 10)`, filter `i % 3 != 0`; seven calls of `io_read_next` return
`1, 2, 4, 5, 7, 8` and then `10`. -/
theorem coverage_witness :
    S2_final.returned = [1, 2, 4, 5, 7, 8, 10] ∧
    S2_final.returned = S2.positions S2_final.returned.length ∧
    S2_final.returned.takeWhile (fun q => decide (q < S2.blockmax)) = S2.enabled ∧
    S2.enabled = [1, 2, 4, 5, 7, 8] :=
  have h := (coverage S2 (demo_valid 4 4 1 0 10 _ (by decide)) (by decide)).1 S2_events
    S2_final (run_getD _ _ _ (by decide))
  ⟨by decide, h.1, h.2 ⟨10, by decide, by decide⟩, by decide⟩

/-- C2 as amended (ordering). In every run, a returned position below
`block_max` satisfies the filter; and as long as `block_next` cannot wrap
(`max(s, m)` plus the number of calls is at most `2 ^ 32`) the returned
positions increase strictly from one call to the next. -/
theorem ordering (c : Setup) (hc : c.valid) (es : List Event) (s : Pipeline)
    (h : run c.IO_MAX es c.start = some s) :
    (∀ q, q ∈ s.returned → q < c.blockmax → c.block_is_enabled q = true) ∧
    (max c.blockstart c.blockmax + s.returned.length ≤ BLOCK_OFF_MOD →
      s.returned.Pairwise (fun a b => a < b)) := by
  have hB := Base_reach hc h
  constructor
  · intro q hq hlt
    rw [hB.returned] at hq
    unfold Setup.positions at hq
    simp only [List.mem_map, List.mem_range] at hq
    obtain ⟨j, _, rfl⟩ := hq
    exact position_seq_enabled _ _ _ _ hlt
  · intro hw
    rw [hB.returned]
    unfold Setup.positions
    generalize s.returned.length = n at hw
    have hstep : ∀ k, k + 1 < n →
        position_seq c.block_is_enabled c.blockmax c.blockstart k <
          position_seq c.block_is_enabled c.blockmax c.blockstart (k + 1) := by
      intro k hk
      apply position_seq_lt_succ
      have := (position_seq_le c.block_is_enabled c.blockmax c.blockstart k (by omega)).2
      omega
    have hmono : ∀ d k, k + d + 1 < n →
        position_seq c.block_is_enabled c.blockmax c.blockstart k <
          position_seq c.block_is_enabled c.blockmax c.blockstart (k + d + 1) := by
      intro d
      induction d with
      | zero => intro k hk; exact hstep k hk
      | succ d ih =>
        intro k hk
        exact Nat.lt_trans (ih k (by omega)) (hstep (k + d + 1) (by omega))
    rw [List.pairwise_map]
    refine List.Pairwise.imp_of_mem ?_ (List.pairwise_lt_range n)
    intro a b ha hb hab
    rw [List.mem_range] at ha hb
    obtain ⟨d, rfl⟩ : ∃ d, b = a + d + 1 := ⟨b - a - 1, by omega⟩
    exact hmono d a hb

set_option maxRecDepth 100000 in
/-- C2 as amended, on the scenario S2. -/
theorem ordering_witness :
    (∀ q, q ∈ S2_final.returned → q < S2.blockmax → S2.block_is_enabled q = true) ∧
    S2_final.returned.Pairwise (fun a b => a < b) :=
  ⟨(ordering S2 (demo_valid 4 4 1 0 10 _ (by decide)) S2_events S2_final
      (run_getD _ _ _ (by decide))).1,
    (ordering S2 (demo_valid 4 4 1 0 10 _ (by decide)) S2_events S2_final
      (run_getD _ _ _ (by decide))).2 (by decide)⟩

set_option maxRecDepth 100000 in
/-- C2 as stated fails twice. With the range `[0, 2)` and a filter that
rejects every position, the first `io_read_next` returns the position `2`,
which the filter does not accept. With the empty range at the last position
`2 ^ 32 - 1` and a filter that accepts everything, the first two calls of
`io_read_next` return `2 ^ 32 - 1` and then `0`. -/
theorem ordering_counterexample :
    (run S_reject.IO_MAX [Event.read_next] S_reject.start = some S_reject_final ∧
      S_reject_final.returned = [2] ∧ S_reject.block_is_enabled 2 = false) ∧
    (run S_wrap.IO_MAX S_wrap_events S_wrap.start = some S_wrap_final ∧
      S_wrap_final.returned = [4294967295, 0] ∧
      ¬ S_wrap_final.returned.Pairwise (fun a b => a < b)) :=
  ⟨⟨run_getD _ _ _ (by decide), by decide, by decide⟩,
    ⟨run_getD _ _ _ (by decide), by decide, by decide⟩⟩

/-! ## Delivery of the tasks of a stripe -/

/-- C3 (exactly-once delivery). In every run, while a stripe is open (after
an `io_read_next`), the workers handed out by `io_data_read` and
`io_parity_read` since that call are pairwise distinct; those of
`io_data_read` lie in `[0, data_count)` and those of `io_parity_read` in
`[data_count, reader_max)`; so after `data_count` returns of `io_data_read`
every data worker was handed out exactly once, and after `parity_count`
returns of `io_parity_read` every parity worker. -/
theorem exactly_once (c : Setup) (hc : c.valid) (es : List Event) (s : Pipeline)
    (h : run c.IO_MAX es c.start = some s) (hstripe : s.returned ≠ []) :
    (s.data_taken ++ s.parity_taken).Nodup ∧
    (∀ w, w ∈ s.data_taken → w < s.io.data_count) ∧
    (∀ w, w ∈ s.parity_taken → s.io.data_count ≤ w ∧ w < s.io.reader_max) ∧
    s.data_taken.length ≤ s.io.data_count ∧
    s.parity_taken.length ≤ s.io.parity_count ∧
    (s.data_taken.length = s.io.data_count →
      s.data_taken.Perm (List.range s.io.data_count)) ∧
    (s.parity_taken.length = s.io.parity_count →
      s.parity_taken.Perm (List.range' s.io.data_count s.io.parity_count)) := by
  have hB := Base_reach hc h
  obtain ⟨_, L, _, hperm, hd, hp⟩ := hB.ready hstripe
  rw [hB.data_count, hB.parity_count, hB.reader_max]
  have hnd : (L ++ (s.data_taken ++ s.parity_taken)).Nodup :=
    (List.Perm.nodup_iff hperm).2 (List.nodup_range _)
  have hnd1 : (s.data_taken ++ s.parity_taken).Nodup := hnd.of_append_right
  have hlt : ∀ w, w ∈ s.parity_taken → w < c.reader_max := by
    intro w hw
    have : w ∈ L ++ (s.data_taken ++ s.parity_taken) := by simp [hw]
    exact List.mem_range.1 ((List.Perm.mem_iff hperm).1 this)
  have hsd : List.Subperm s.data_taken (List.range c.handle_max) :=
    List.subperm_of_subset hnd1.of_append_left
      (fun w hw => List.mem_range.2 (hd w hw))
  have hsp : List.Subperm s.parity_taken (List.range' c.handle_max c.parity_handle_max) :=
    List.subperm_of_subset hnd1.of_append_right (fun w hw => by
      rw [List.mem_range'_1]
      have := hlt w hw
      have := hp w hw
      unfold Setup.reader_max at *
      omega)
  refine ⟨hnd1, hd, fun w hw => ⟨hp w hw, hlt w hw⟩, ?_, ?_, ?_, ?_⟩
  · simpa using hsd.length_le
  · simpa using hsp.length_le
  · intro hlen
    exact hsd.perm_of_length_le (by simp [hlen])
  · intro hlen
    exact hsp.perm_of_length_le (by simp [hlen])

set_option maxRecDepth 100000 in
/-- C3 on a stripe of S2 in which worker 2 is consumed first. -/
theorem exactly_once_witness :
    S2_stripe.data_taken = [2, 0, 1, 3] ∧ S2_stripe.parity_taken = [4] ∧
    (S2_stripe.data_taken ++ S2_stripe.parity_taken).Nodup ∧
    S2_stripe.data_taken.Perm (List.range 4) ∧
    S2_stripe.parity_taken.Perm (List.range' 4 1) :=
  have h := exactly_once S2 (demo_valid 4 4 1 0 10 _ (by decide)) S2_stripe_events S2_stripe
    (run_getD _ _ _ (by decide)) (by decide)
  ⟨by decide, by decide, h.1, h.2.2.2.2.2.1 (by decide), h.2.2.2.2.2.2 (by decide)⟩

/-- C4 (local index mapping). Whenever `io_task_read(io, base, count, pos)`
returns, the task returned is `reader_map[i].task_map[reader_index]` for an
existing worker `i` with `base <= i < base + count`, and the value stored in
`*pos` satisfies `pos + base = i` and `pos < count`. In every state of a run
this holds for `io_data_read` with base `0` and count `data_count`, and for
`io_parity_read` with base `data_count` and count `parity_count`. -/
theorem local_index_mapping (c : Setup) (hc : c.valid) (es : List Event) (s : Pipeline)
    (h : run c.IO_MAX es c.start = some s) :
    (∀ (io : snapraid_io) (base count : Nat) (task : Nat × Nat) (pos : Nat)
        (io1 : snapraid_io),
      io_task_read io base count = TaskRead.returned task pos io1 →
        task.2 = io.reader_index ∧ (∃ worker, io.reader_map[task.1]? = some worker) ∧
        base ≤ task.1 ∧ task.1 < base + count ∧ pos + base = task.1 ∧ pos < count) ∧
    (∀ (task : Nat × Nat) (pos : Nat) (io1 : snapraid_io),
      io_data_read s.io = TaskRead.returned task pos io1 →
        task.2 = s.io.reader_index ∧ pos + 0 = task.1 ∧ pos < s.io.data_count) ∧
    (∀ (task : Nat × Nat) (pos : Nat) (io1 : snapraid_io),
      io_parity_read s.io = TaskRead.returned task pos io1 →
        task.2 = s.io.reader_index ∧ pos + s.io.data_count = task.1 ∧
        pos < s.io.parity_count) := by
  have hB := Base_reach hc h
  have hgen : ∀ (io : snapraid_io) (base count : Nat) (task : Nat × Nat) (pos : Nat)
      (io1 : snapraid_io),
      io_task_read io base count = TaskRead.returned task pos io1 →
        task.2 = io.reader_index ∧ (∃ worker, io.reader_map[task.1]? = some worker) ∧
        base ≤ task.1 ∧ task.1 < base + count ∧ pos + base = task.1 ∧ pos < count := by
    intro io base count task pos io1 hr
    obtain ⟨h1, h2, h3, h4, ⟨worker, hw, _⟩, _⟩ := io_task_read_returned hr
    exact ⟨h3, ⟨worker, hw⟩, h1, h2, by omega, by omega⟩
  refine ⟨hgen, ?_, ?_⟩
  · intro task pos io1 hr
    obtain ⟨h1, _, _, _, h5, h6⟩ := hgen s.io _ _ task pos io1 hr
    rw [hB.data_base] at h5
    exact ⟨h1, h5, h6⟩
  · intro task pos io1 hr
    obtain ⟨h1, _, _, _, h5, h6⟩ := hgen s.io _ _ task pos io1 hr
    rw [hB.parity_base, ← hB.data_count] at h5
    exact ⟨h1, h5, h6⟩

theorem TaskRead_of_result {r : TaskRead} {task : Nat × Nat} {pos : Nat}
    (h : r.result = some (task, pos)) : ∃ io1, r = TaskRead.returned task pos io1 := by
  cases r with
  | returned t p io1 =>
    simp only [TaskRead.result, Option.some.injEq, Prod.mk.injEq] at h
    obtain ⟨rfl, rfl⟩ := h
    exact ⟨io1, rfl⟩
  | blocked => exact absurd h (by simp [TaskRead.result])
  | undefined => exact absurd h (by simp [TaskRead.result])

theorem option_getD_of_isSome {α : Type} (o : Option α) (d : α) (h : o.isSome = true) :
    o = some (o.getD d) := by
  cases o with
  | none => exact absurd h (by simp)
  | some a => rfl

set_option maxRecDepth 100000 in
/-- C4 on the first stripe of S2: once the parity worker (worker 4) has moved
on, `io_parity_read` returns its task in slot 0 with `*pos = 0`. -/
theorem local_index_mapping_witness :
    (io_parity_read S2_parity.io).result = some ((4, 0), 0) ∧
    ((4, 0) : Nat × Nat).2 = S2_parity.io.reader_index ∧
    0 + S2_parity.io.data_count = ((4, 0) : Nat × Nat).1 ∧
    0 < S2_parity.io.parity_count := by
  have hres : (io_parity_read S2_parity.io).result = some ((4, 0), 0) := by decide
  obtain ⟨io1, hio1⟩ := TaskRead_of_result hres
  exact ⟨hres, (local_index_mapping S2 (demo_valid 4 4 1 0 10 _ (by decide))
    [Event.read_next, Event.reader_done 4, Event.reader_step 4] S2_parity
    (run_getD _ _ _ (by decide))).2.2 (4, 0) 0 io1 hio1⟩

/-! ## Completion of the tasks -/

/-- C5 (soundness of the completion test). In every state of a run, a worker
whose `index` differs from `reader_index` has no pending task in the slot
`reader_index`: the task scheduled there for it is completed, so no read of
this worker into that slot is in progress or still to come. -/
theorem completion_sound (c : Setup) (hc : c.valid) (es : List Event) (s : Pipeline)
    (h : run c.IO_MAX es c.start = some s) (w : Nat) (worker : snapraid_worker)
    (hw : s.io.reader_map[w]? = some worker) (hne : worker.index ≠ s.io.reader_index) :
    s.pending w s.io.reader_index = false := by
  have hB := Base_reach hc h
  have hi := hB.index_lt w worker hw
  have hr := hB.reader_index
  by_cases hD : 2 ≤ c.IO_MAX
  · have hS := Sync_reach hc hD h
    by_contra hp
    have hp1 : s.pending w s.io.reader_index = true := by simpa using hp
    obtain ⟨_, a, ha, hle⟩ := hS.pending w _ hp1
    rw [hw] at ha
    simp only [Option.some.injEq] at ha
    subst ha
    rw [ring_dist_self] at hle
    have := ring_dist_pos hr hne
    omega
  · omega

set_option maxRecDepth 100000 in
/-- C5 on the first stripe of S2: worker 0 has finished slot 0 and moved to
slot 1 while the caller reads slot 0. -/
theorem completion_sound_witness :
    ((S2_first.io.reader_map[0]?).getD demo_worker).index = 1 ∧
    S2_first.io.reader_index = 0 ∧
    S2_first.pending 0 S2_first.io.reader_index = false :=
  ⟨by decide, by decide,
    completion_sound S2 (demo_valid 4 4 1 0 10 _ (by decide))
      [Event.read_next, Event.reader_done 0, Event.reader_step 0] S2_first
      (run_getD _ _ _ (by decide)) 0 ((S2_first.io.reader_map[0]?).getD demo_worker)
      (option_getD_of_isSome _ _ (by decide)) (by decide)⟩

theorem run_snoc {IO_MAX : Nat} {es : List Event} {e : Event} {s s1 : Pipeline}
    (h : run IO_MAX (es ++ [e]) s = some s1) :
    ∃ s0, run IO_MAX es s = some s0 ∧ step IO_MAX e s0 = some s1 := by
  rw [run_append] at h
  cases h0 : run IO_MAX es s with
  | none => rw [h0] at h; exact absurd h (by simp)
  | some s0 =>
    rw [h0] at h
    simp only [Option.some_bind, run] at h
    refine ⟨s0, rfl, ?_⟩
    cases h1 : step IO_MAX e s0 with
    | none => rw [h1] at h; exact absurd h (by simp)
    | some s2 =>
      rw [h1] at h
      simp only [Option.some.injEq] at h
      rw [h]

/-- C6 as amended. For a ring of at least two slots, immediately after an
`io_read_next` step that exposes slot `s`, every worker satisfies
`(index + 1) mod IO_MAX != s`: no worker is still at the slot before `s`,
each has started slot `s` or a later one. -/
theorem read_next_exposes_started (c : Setup) (hc : c.valid) (hD : 2 ≤ c.IO_MAX)
    (es : List Event) (s : Pipeline)
    (h : run c.IO_MAX (es ++ [Event.read_next]) c.start = some s)
    (w : Nat) (worker : snapraid_worker) (hw : s.io.reader_map[w]? = some worker) :
    (worker.index + 1) % c.IO_MAX ≠ s.io.reader_index := by
  obtain ⟨s0, h0, h1⟩ := run_snoc h
  have hB := Base_reach hc h0
  have hS := Sync_reach hc hD h0
  simp only [step] at h1
  split at h1
  · rename_i blockcur buf io1 heq
    simp only [Option.some.injEq] at h1
    subst h1
    obtain ⟨hl, hio, _, _⟩ := io_read_next_some heq
    obtain ⟨a, ha, _, hb⟩ :=
      io_read_next_worker heq (hB.map_length.trans hB.reader_max.symm) w worker hw
    simp only at hio hl ha hb
    have hne := drained_index hB hS hl w a ha
    have hi := hB.index_lt w a ha
    have hr := hB.reader_index
    have hwi : worker.index = a.index := by rw [hb]
    show (worker.index + 1) % c.IO_MAX ≠ io1.reader_index
    rw [hio, hwi]
    show (a.index + 1) % c.IO_MAX ≠ (s0.io.reader_index + 1) % c.IO_MAX
    rw [succ_mod_ring hi, succ_mod_ring hr]
    split_ifs <;> omega
  · exact absurd h1 (by simp)

set_option maxRecDepth 100000 in
/-- C6 as amended, on S2: worker 0 runs ahead to slot 1 before the first
`io_read_next`, which exposes slot 0. -/
theorem read_next_exposes_started_witness :
    ((S2_ahead.io.reader_map[0]?).getD demo_worker).index = 1 ∧
    S2_ahead.io.reader_index = 0 ∧
    (((S2_ahead.io.reader_map[0]?).getD demo_worker).index + 1) % S2.IO_MAX ≠
      S2_ahead.io.reader_index :=
  ⟨by decide, by decide,
    read_next_exposes_started S2 (demo_valid 4 4 1 0 10 _ (by decide)) (by decide)
      S2_ahead_events S2_ahead (run_getD _ _ _ (by decide)) 0
      ((S2_ahead.io.reader_map[0]?).getD demo_worker)
      (option_getD_of_isSome _ _ (by decide))⟩

set_option maxRecDepth 100000 in
/-- C6 as stated fails: in S2, worker 0 finishes slot 0 and takes slot 1
before the first `io_read_next`; when that call returns slot 0 the index of
worker 0 is 1. -/
theorem read_next_index_counterexample :
    ¬ (∀ (es : List Event) (s : Pipeline),
        run S2.IO_MAX (es ++ [Event.read_next]) S2.start = some s →
        ∀ (w : Nat) (worker : snapraid_worker), s.io.reader_map[w]? = some worker →
          worker.index = s.io.reader_index) := by
  intro h
  have h1 := h S2_ahead_events S2_ahead (run_getD _ _ _ (by decide)) 0
    ((S2_ahead.io.reader_map[0]?).getD demo_worker) (option_getD_of_isSome _ _ (by decide))
  exact absurd h1 (by decide)

/-! ## Buffers, layout and task states -/

/-- C7 (buffer aliasing). In every state of a run, after
`io_reader_sched(io, index, pos)` the task of worker `i` in slot `index`
points at the entry `buffer_skew(i) + i` of `buffer_map[index]`, where
`buffer_skew(i)` is `0` for a data worker and `parity_count` for a parity
worker; two such tasks, of workers `i` and `j` scheduled in the slots `index`
and `index1`, point at the same buffer only if `index = index1` and `i = j`;
and in that state every scheduled task of a slot `x` points at an entry of
`buffer_map[x]`. -/
theorem buffer_aliasing (c : Setup) (hc : c.valid) (es : List Event) (s : Pipeline)
    (h : run c.IO_MAX es c.start = some s) :
    (∀ (index index1 pos pos1 i j : Nat) (wi wj : snapraid_worker),
      (io_reader_sched s.io index pos).reader_map[i]? = some wi →
      (io_reader_sched s.io index1 pos1).reader_map[j]? = some wj →
      (wi.task_map index).buffer =
        (index, (if i < s.io.data_count then 0 else s.io.parity_count) + i) ∧
      ((wi.task_map index).buffer = (wj.task_map index1).buffer ↔
        index = index1 ∧ i = j)) ∧
    (∀ (w : Nat) (worker : snapraid_worker) (x : Nat), s.io.reader_map[w]? = some worker →
      x < c.IO_MAX → (s.returned = [] → x ≠ s.io.reader_index) →
      (worker.task_map x).buffer =
        (x, (if w < s.io.data_count then 0 else s.io.parity_count) + w)) := by
  have hB := Base_reach hc h
  have key : ∀ (index pos i : Nat) (wi : snapraid_worker),
      (io_reader_sched s.io index pos).reader_map[i]? = some wi →
      (wi.task_map index).buffer =
        (index, (if i < c.handle_max then 0 else c.parity_handle_max) + i) := by
    intro index pos i wi hi
    rw [io_reader_sched_worker] at hi
    cases ha : s.io.reader_map[i]? with
    | none => rw [ha] at hi; simp at hi
    | some a =>
      have hlt : i < s.io.reader_max := by
        have := (List.getElem?_eq_some_iff.1 ha).1
        rw [hB.map_length, ← hB.reader_max] at this
        exact this
      rw [ha] at hi
      simp only [Option.map_some', if_pos hlt, Option.some.injEq] at hi
      subst hi
      show (Function.update a.task_map index _ index).buffer = _
      rw [Function.update_same]
      show (index, a.buffer_skew + i) = _
      rw [hB.skew i a ha]
  rw [hB.data_count, hB.parity_count]
  constructor
  · intro index index1 pos pos1 i j wi wj hi hj
    rw [key index pos i wi hi, key index1 pos1 j wj hj]
    refine ⟨rfl, ?_⟩
    simp only [Prod.mk.injEq]
    constructor
    · rintro ⟨h1, h2⟩
      refine ⟨h1, ?_⟩
      split_ifs at h2 <;> omega
    · rintro ⟨rfl, rfl⟩
      exact ⟨rfl, rfl⟩
  · intro w worker x hw hx hne
    rw [hB.buffer w worker x hw hx hne, hB.skew w worker hw]

set_option maxRecDepth 100000 in
/-- C7 on S2: the data worker 3 and the parity worker 4 scheduled in slot 1,
and worker 3 scheduled in slot 2. -/
theorem buffer_aliasing_witness :
    ((((io_reader_sched S2.start.io 1 5).reader_map[3]?).getD demo_worker).task_map 1).buffer =
      (1, 3) ∧
    ((((io_reader_sched S2.start.io 1 5).reader_map[4]?).getD demo_worker).task_map 1).buffer =
      (1, 5) ∧
    ¬ (1 = 2 ∧ 3 = 3) ∧
    (((((io_reader_sched S2.start.io 1 5).reader_map[3]?).getD demo_worker).task_map 1).buffer =
      ((((io_reader_sched S2.start.io 2 7).reader_map[3]?).getD demo_worker).task_map 2).buffer ↔
      1 = 2 ∧ 3 = 3) :=
  ⟨by decide, by decide, by decide,
    ((buffer_aliasing S2 (demo_valid 4 4 1 0 10 _ (by decide)) [] S2.start rfl).1 1 2 5 7 3 3
      (((io_reader_sched S2.start.io 1 5).reader_map[3]?).getD demo_worker)
      (((io_reader_sched S2.start.io 2 7).reader_map[3]?).getD demo_worker)
      (option_getD_of_isSome _ _ (by decide)) (option_getD_of_isSome _ _ (by decide))).2⟩

/-- C8 (worker layout). After `io_init` with `handle_max` data handles and
`parity_handle_max` parity handles: `reader_max` is their sum, the data range
is `[0, handle_max)` and the parity range starts at `handle_max` with
`parity_handle_max` workers; worker `i < handle_max` is bound to
`handle_map[i]`, has no parity handle, skew `0` and the data reader; worker
`i` with `handle_max <= i < reader_max` is bound to
`parity_handle_map[i - handle_max]`, has no data handle, skew
`parity_handle_max` and the parity reader. -/
theorem worker_layout (c : Setup) (hh : c.handle_map.length = c.handle_max)
    (hp : c.parity_handle_map.length = c.parity_handle_max) :
    c.init.reader_max = c.handle_max + c.parity_handle_max ∧
    c.init.data_base = 0 ∧ c.init.data_count = c.handle_max ∧
    c.init.parity_base = c.handle_max ∧ c.init.parity_count = c.parity_handle_max ∧
    c.init.reader_map.length = c.init.reader_max ∧
    (∀ i, i < c.handle_max → ∃ worker hd, c.init.reader_map[i]? = some worker ∧
      c.handle_map[i]? = some hd ∧ worker.handle = some hd ∧ worker.parity_handle = none ∧
      worker.buffer_skew = 0 ∧ worker.func = c.data_reader) ∧
    (∀ i, c.handle_max ≤ i → i < c.handle_max + c.parity_handle_max →
      ∃ worker ph, c.init.reader_map[i]? = some worker ∧
      c.parity_handle_map[i - c.handle_max]? = some ph ∧ worker.parity_handle = some ph ∧
      worker.handle = none ∧ worker.buffer_skew = c.parity_handle_max ∧
      worker.func = c.parity_reader) := by
  have hlen := init_length c
  have hget : ∀ i, i < c.handle_max + c.parity_handle_max →
      c.init.reader_map[i]? = some (io_init_worker (c.mem_worker i) c.data_reader c.handle_map
        c.handle_max c.parity_reader c.parity_handle_map c.parity_handle_max i) := by
    intro i hi
    have hl : i < c.init.reader_map.length := by rw [hlen]; exact hi
    rw [List.getElem?_eq_getElem hl]
    exact congrArg some (init_worker c i _ (List.getElem?_eq_getElem hl)).2
  refine ⟨rfl, rfl, rfl, rfl, rfl, hlen, ?_, ?_⟩
  · intro i hi
    have hl : i < c.handle_map.length := by omega
    refine ⟨_, c.handle_map[i], hget i (by omega), List.getElem?_eq_getElem hl, ?_⟩
    unfold io_init_worker
    rw [if_pos hi]
    exact ⟨List.getElem?_eq_getElem hl, rfl, rfl, rfl⟩
  · intro i hi1 hi2
    have hl : i - c.handle_max < c.parity_handle_map.length := by omega
    refine ⟨_, c.parity_handle_map[i - c.handle_max], hget i hi2,
      List.getElem?_eq_getElem hl, ?_⟩
    unfold io_init_worker
    rw [if_neg (by omega)]
    exact ⟨List.getElem?_eq_getElem hl, rfl, rfl, rfl⟩

/-- C8 on S2: four data workers followed by one parity worker. -/
theorem worker_layout_witness :
    S2.init.reader_max = 5 ∧ S2.init.data_count = 4 ∧ S2.init.parity_base = 4 ∧
    S2.init.parity_count = 1 ∧
    (∃ worker ph, S2.init.reader_map[4]? = some worker ∧
      S2.parity_handle_map[4 - S2.handle_max]? = some ph ∧ worker.parity_handle = some ph ∧
      worker.handle = none ∧ worker.buffer_skew = S2.parity_handle_max ∧
      worker.func = S2.parity_reader) :=
  have h := worker_layout S2 (by decide) (by decide)
  ⟨h.1, h.2.2.1, h.2.2.2.1, h.2.2.2.2.1, h.2.2.2.2.2.2.2 4 (by decide) (by decide)⟩

theorem sched_task_state_ok (io : snapraid_io) (p : Nat → Bool) (index q i : Nat)
    (a : snapraid_worker) (hq : q < io.block_max → p q = true) :
    task_state_ok io.block_max p (sched_task io index q i a) := by
  unfold task_state_ok
  show ((if q < io.block_max then TaskState.TASK_STATE_READY else TaskState.TASK_STATE_EMPTY) =
      TaskState.TASK_STATE_READY ↔ (q < io.block_max ∧ p q = true)) ∧
    ((if q < io.block_max then TaskState.TASK_STATE_READY else TaskState.TASK_STATE_EMPTY) =
      TaskState.TASK_STATE_EMPTY ↔ ¬ (q < io.block_max ∧ p q = true))
  by_cases h : q < io.block_max
  · simp [h, hq h]
  · simp [h]

/-! ## The states of the tasks in every state of the pipeline -/

/-- The tasks written by `io_start` have the state their position calls
for. -/
theorem start_task_state_ok (c : Setup) (w : Nat) (b : snapraid_worker) (x : Nat)
    (hb : c.start.io.reader_map[w]? = some b) (hx : x + 1 < c.IO_MAX) :
    task_state_ok c.blockmax c.block_is_enabled (b.task_map x) := by
  obtain ⟨_, _, _, _, _, _, h7, _, _, _, _, _, h13⟩ :=
    io_start_spec c.IO_MAX c.init c.blockstart c.blockmax c.block_is_enabled (init_length c)
  obtain ⟨a, b2, _, hP, rfl⟩ := h13 w b hb
  show task_state_ok _ _ (b2.task_map x)
  rw [hP.task_map x, if_pos (by omega)]
  have := sched_task_state_ok (io_start c.IO_MAX c.init c.blockstart c.blockmax
    c.block_is_enabled) c.block_is_enabled x
    (position_seq c.block_is_enabled c.blockmax c.blockstart x) w a
    (fun hq => position_seq_enabled _ _ _ _ (by rw [h7] at hq; exact hq))
  rw [h7] at this
  exact this

/-- The task written by `io_read_next` has the state its position calls
for. -/
theorem read_next_task_state_ok {c : Setup} {s : Pipeline} (hB : Base c s) (v : Nat)
    (a : snapraid_worker) :
    task_state_ok c.blockmax c.block_is_enabled
      (sched_task s.io s.io.reader_index (io_position_next s.io).1 v a) := by
  have := sched_task_state_ok s.io c.block_is_enabled s.io.reader_index
    (io_position_next s.io).1 v a (by
      intro hq
      rw [io_position_next_fst, hB.block_is_enabled] at hq ⊢
      exact position_from_enabled _ _ _ hq)
  rw [hB.block_max] at this
  exact this

/-- The function `io_reader_worker` keeps the state of a task in step with
its position when the callback leaves the state alone. -/
theorem io_reader_worker_state_ok (io : snapraid_io) (worker : snapraid_worker)
    (p : Nat → Bool) (hc : keeps_control worker.func) (hs : keeps_state worker.func)
    (task : snapraid_task) (h : task_state_ok io.block_max p task) :
    task_state_ok io.block_max p (io_reader_worker io worker task) := by
  unfold io_reader_worker
  split
  · rename_i hge
    unfold task_state_ok
    have hlt : ¬ task.position < io.block_max := by omega
    simp [hlt]
  · unfold task_state_ok at h ⊢
    rw [hs task, (hc task).1]
    exact h

theorem TaskStates_start (c : Setup) : TaskStates c c.start := by
  have hidx : c.start.io.reader_index = c.IO_MAX - 1 :=
    (io_start_spec c.IO_MAX c.init c.blockstart c.blockmax c.block_is_enabled
      (init_length c)).2.2.2.2.2.2.2.2.2.1
  refine ⟨?_, ?_, ?_⟩
  · intro w worker x hw hp
    have hp1 : decide (w < c.init.reader_max ∧ x < c.IO_MAX - 1) = true := hp
    simp only [decide_eq_true_eq] at hp1
    exact start_task_state_ok c w worker x hw (by omega)
  · intro h1 h2 w worker hw
    obtain ⟨_, _, _, _, _, _, _, _, _, _, _, _, h13⟩ :=
      io_start_spec c.IO_MAX c.init c.blockstart c.blockmax c.block_is_enabled (init_length c)
    obtain ⟨a, b2, ha, hP, rfl⟩ := h13 w worker hw
    show keeps_state b2.func
    rw [hP.func, (init_worker c w a ha).2]
    unfold io_init_worker
    split
    · exact h1
    · exact h2
  · intro _ _ w worker x hw hx hr
    have hne := hr rfl
    rw [hidx] at hne
    exact start_task_state_ok c w worker x hw (by omega)

/-- Replacing a worker by one with the same callback, and clearing pending
marks, keeps the invariant of the task states when the tasks still pending
are unchanged and the others keep a state in step with their position. -/
theorem TaskStates_set_worker {c : Setup} {s : Pipeline} (hT : TaskStates c s) (w : Nat)
    (a b : snapraid_worker) (ha : s.io.reader_map[w]? = some a) (hf : b.func = a.func)
    (th : List ThreadState) (pend : Nat → Nat → Bool)
    (hp : ∀ v x, pend v x = true → s.pending v x = true)
    (h1 : ∀ x, pend w x = true → b.task_map x = a.task_map x)
    (h2 : keeps_state c.data_reader → keeps_state c.parity_reader →
      ∀ x, task_state_ok c.blockmax c.block_is_enabled (a.task_map x) →
        task_state_ok c.blockmax c.block_is_enabled (b.task_map x)) :
    TaskStates c { s with
      io := { s.io with reader_map := s.io.reader_map.set w b }
      thread := th
      pending := pend } := by
  refine ⟨?_, ?_, ?_⟩
  · intro v worker x hv hpx
    have hv1 : (s.io.reader_map.set w b)[v]? = some worker := hv
    have hpx1 : pend v x = true := hpx
    rcases getElem?_set_some hv1 with ⟨rfl, rfl⟩ | ⟨_, hold⟩
    · rw [h1 x hpx1]
      exact hT.pending w a x ha (hp w x hpx1)
    · exact hT.pending v worker x hold (hp v x hpx1)
  · intro k1 k2 v worker hv
    have hv1 : (s.io.reader_map.set w b)[v]? = some worker := hv
    rcases getElem?_set_some hv1 with ⟨rfl, rfl⟩ | ⟨_, hold⟩
    · rw [hf]
      exact hT.func k1 k2 w a ha
    · exact hT.func k1 k2 v worker hold
  · intro k1 k2 v worker x hv hx hr
    have hv1 : (s.io.reader_map.set w b)[v]? = some worker := hv
    rcases getElem?_set_some hv1 with ⟨rfl, rfl⟩ | ⟨_, hold⟩
    · exact h2 k1 k2 x (hT.kept k1 k2 w a x ha hx hr)
    · exact hT.kept k1 k2 v worker x hold hx hr

/-- Every step keeps the invariant of the task states. -/
theorem TaskStates_step {c : Setup} {s s1 : Pipeline} (hB : Base c s) (hT : TaskStates c s)
    (e : Event) (h : step c.IO_MAX e s = some s1) : TaskStates c s1 := by
  cases e with
  | read_next =>
    simp only [step] at h
    split at h
    · rename_i blockcur buf io1 heq
      simp only [Option.some.injEq] at h
      subst h
      have hnew := io_read_next_worker heq (hB.map_length.trans hB.reader_max.symm)
      refine ⟨?_, ?_, ?_⟩
      · intro w worker x hw hp
        obtain ⟨a, ha, hwlt, rfl⟩ := hnew w worker hw
        show task_state_ok _ _ (Function.update a.task_map s.io.reader_index _ x)
        have hp1 : (if x = s.io.reader_index ∧ w < s.io.reader_max then true
            else s.pending w x) = true := hp
        by_cases hx : x = s.io.reader_index
        · subst hx
          rw [Function.update_same]
          exact read_next_task_state_ok hB w a
        · rw [if_neg (fun hh => hx hh.1)] at hp1
          rw [Function.update_noteq hx]
          exact hT.pending w a x ha hp1
      · intro k1 k2 w worker hw
        obtain ⟨a, ha, _, rfl⟩ := hnew w worker hw
        exact hT.func k1 k2 w a ha
      · intro k1 k2 w worker x hw hx _
        obtain ⟨a, ha, _, rfl⟩ := hnew w worker hw
        show task_state_ok _ _ (Function.update a.task_map s.io.reader_index _ x)
        by_cases hxr : x = s.io.reader_index
        · subst hxr
          rw [Function.update_same]
          exact read_next_task_state_ok hB w a
        · rw [Function.update_noteq hxr]
          exact hT.kept k1 k2 w a x ha hx (fun _ => hxr)
    · exact absurd h (by simp)
  | data_read =>
    simp only [step, task_read_step] at h
    split at h
    · rename_i task pos io1 heq
      simp only [if_true, Option.some.injEq] at h
      subst h
      have heq1 : io_task_read s.io s.io.data_base s.io.data_count =
          TaskRead.returned task pos io1 := heq
      obtain ⟨_, _, _, _, _, hmap, hidx, _, _⟩ := io_task_read_returned heq1
      refine ⟨?_, ?_, ?_⟩
      · intro w worker x hw hp
        have hw1 : io1.reader_map[w]? = some worker := hw
        rw [hmap] at hw1
        exact hT.pending w worker x hw1 hp
      · intro k1 k2 w worker hw
        have hw1 : io1.reader_map[w]? = some worker := hw
        rw [hmap] at hw1
        exact hT.func k1 k2 w worker hw1
      · intro k1 k2 w worker x hw hx hr
        have hw1 : io1.reader_map[w]? = some worker := hw
        have hr1 : s.returned = [] → x ≠ io1.reader_index := hr
        rw [hmap] at hw1
        rw [hidx] at hr1
        exact hT.kept k1 k2 w worker x hw1 hx hr1
    · exact absurd h (by simp)
    · exact absurd h (by simp)
  | parity_read =>
    simp only [step, task_read_step] at h
    split at h
    · rename_i task pos io1 heq
      simp only [Bool.false_eq_true, if_false, Option.some.injEq] at h
      subst h
      have heq1 : io_task_read s.io s.io.parity_base s.io.parity_count =
          TaskRead.returned task pos io1 := heq
      obtain ⟨_, _, _, _, _, hmap, hidx, _, _⟩ := io_task_read_returned heq1
      refine ⟨?_, ?_, ?_⟩
      · intro w worker x hw hp
        have hw1 : io1.reader_map[w]? = some worker := hw
        rw [hmap] at hw1
        exact hT.pending w worker x hw1 hp
      · intro k1 k2 w worker hw
        have hw1 : io1.reader_map[w]? = some worker := hw
        rw [hmap] at hw1
        exact hT.func k1 k2 w worker hw1
      · intro k1 k2 w worker x hw hx hr
        have hw1 : io1.reader_map[w]? = some worker := hw
        have hr1 : s.returned = [] → x ≠ io1.reader_index := hr
        rw [hmap] at hw1
        rw [hidx] at hr1
        exact hT.kept k1 k2 w worker x hw1 hx hr1
    · exact absurd h (by simp)
    · exact absurd h (by simp)
  | stop =>
    simp only [step, Option.some.injEq] at h
    subst h
    exact ⟨fun w worker x hw hp => hT.pending w worker x hw hp,
      fun k1 k2 w worker hw => hT.func k1 k2 w worker hw,
      fun k1 k2 w worker x hw hx hr => hT.kept k1 k2 w worker x hw hx hr⟩
  | reader_step w =>
    simp only [step] at h
    split at h
    · rename_i worker hth hw
      split at h
      · simp only [Option.some.injEq] at h
        subst h
        exact ⟨fun v b x hv hp => hT.pending v b x hv hp,
          fun k1 k2 v b hv => hT.func k1 k2 v b hv,
          fun k1 k2 v b x hv hx hr => hT.kept k1 k2 v b x hv hx hr⟩
      · exact absurd h (by simp)
      · rename_i worker1 slot hstep
        obtain ⟨_, _, _, rfl⟩ := io_reader_step_task hstep
        split at h
        · simp only [Option.some.injEq] at h
          subst h
          exact TaskStates_set_worker hT w worker { worker with index := slot } hw rfl
            s.thread _
            (fun v x hp => by
              have hp1 : (if v = w ∧ x = slot then false else s.pending v x) = true := hp
              split at hp1
              · simp at hp1
              · exact hp1)
            (fun _ _ => rfl) (fun _ _ _ hx => hx)
        · simp only [Option.some.injEq] at h
          subst h
          exact TaskStates_set_worker hT w worker { worker with index := slot } hw rfl
            _ s.pending (fun _ _ hp => hp) (fun _ _ => rfl) (fun _ _ _ hx => hx)
    · exact absurd h (by simp)
  | reader_done w =>
    simp only [step] at h
    split at h
    · rename_i worker hth hw
      simp only [Option.some.injEq] at h
      subst h
      refine TaskStates_set_worker hT w worker
        { worker with
          task_map := Function.update worker.task_map worker.index
            (io_reader_worker s.io worker (worker.task_map worker.index)) }
        hw rfl _ _ ?_ ?_ ?_
      · intro v x hp
        have hp1 : (if v = w ∧ x = worker.index then false else s.pending v x) = true := hp
        split at hp1
        · simp at hp1
        · exact hp1
      · intro x hp
        have hp1 : (if w = w ∧ x = worker.index then false else s.pending w x) = true := hp
        have hx : x ≠ worker.index := by
          intro hx
          rw [if_pos ⟨rfl, hx⟩] at hp1
          simp at hp1
        show Function.update worker.task_map worker.index _ x = _
        rw [Function.update_noteq hx]
      · intro k1 k2 x hok
        show task_state_ok _ _ (Function.update worker.task_map worker.index _ x)
        by_cases hx : x = worker.index
        · subst hx
          rw [Function.update_same]
          have := io_reader_worker_state_ok s.io worker c.block_is_enabled
            (hB.func w worker hw) (hT.func k1 k2 w worker hw) (worker.task_map worker.index)
            (by rw [hB.block_max]; exact hok)
          rw [hB.block_max] at this
          exact this
        · rw [Function.update_noteq hx]
          exact hok
    · exact absurd h (by simp)

theorem TaskStates_run {c : Setup} (hc : c.valid) :
    ∀ (es : List Event) (s s1 : Pipeline), Base c s → TaskStates c s →
      run c.IO_MAX es s = some s1 → TaskStates c s1 := by
  intro es
  induction es with
  | nil =>
    intro s s1 _ hT h
    simp only [run, Option.some.injEq] at h
    subst h
    exact hT
  | cons e es ih =>
    intro s s1 hB hT h
    simp only [run] at h
    split at h
    · rename_i s0 h0
      exact ih s0 s1 (Base_step hc hB e h0) (TaskStates_step hB hT e h0) h
    · simp at h

/-- The invariant of the task states holds in every state of the
pipeline. -/
theorem TaskStates_reach {c : Setup} (hc : c.valid) {es : List Event} {s : Pipeline}
    (h : run c.IO_MAX es c.start = some s) : TaskStates c s :=
  TaskStates_run hc es c.start s (Base_start c hc) (TaskStates_start c) h

theorem keeps_state_demo_reader : keeps_state demo_reader :=
  fun _ => rfl

/-- C9 (task state invariant). The tasks written by `io_start` in the slots
`0 .. IO_MAX - 2`, and the tasks written by every `io_read_next` of a run in
the slot it schedules, are READY exactly when their position is below
`block_max` and accepted by the filter, and EMPTY otherwise; every position
produced by `io_position_next` that is below `block_max` satisfies the
filter. In every state of the pipeline this holds of every task that its
worker has not yet completed, whatever the callbacks do; and when the two
callbacks leave the state of their task alone, it holds of the task of every
worker in every scheduled slot: every slot after the first `io_read_next`,
every slot but `reader_index` before it. -/
theorem task_state_invariant (c : Setup) (hc : c.valid) (es : List Event) (s : Pipeline)
    (h : run c.IO_MAX es c.start = some s) :
    (∀ (w : Nat) (b : snapraid_worker) (x : Nat), c.start.io.reader_map[w]? = some b →
      x + 1 < c.IO_MAX → task_state_ok c.blockmax c.block_is_enabled (b.task_map x)) ∧
    (∀ (blockcur buf : Nat) (io1 : snapraid_io),
      io_read_next c.IO_MAX s.io = some (blockcur, buf, io1) →
      ∀ (w : Nat) (b : snapraid_worker), io1.reader_map[w]? = some b →
        task_state_ok c.blockmax c.block_is_enabled (b.task_map s.io.reader_index)) ∧
    (∀ k, position_seq c.block_is_enabled c.blockmax c.blockstart k < c.blockmax →
      c.block_is_enabled (position_seq c.block_is_enabled c.blockmax c.blockstart k) = true) ∧
    (∀ (w : Nat) (worker : snapraid_worker) (x : Nat), s.io.reader_map[w]? = some worker →
      s.pending w x = true →
      task_state_ok c.blockmax c.block_is_enabled (worker.task_map x)) ∧
    (keeps_state c.data_reader → keeps_state c.parity_reader →
      ∀ (w : Nat) (worker : snapraid_worker) (x : Nat), s.io.reader_map[w]? = some worker →
        x < c.IO_MAX → (s.returned = [] → x ≠ s.io.reader_index) →
        task_state_ok c.blockmax c.block_is_enabled (worker.task_map x)) := by
  have hB := Base_reach hc h
  have hT := TaskStates_reach hc h
  refine ⟨fun w b x hb hx => start_task_state_ok c w b x hb hx, ?_,
    fun k hk => position_seq_enabled _ _ _ _ hk,
    fun w worker x hw hp => hT.pending w worker x hw hp,
    fun k1 k2 w worker x hw hx hr => hT.kept k1 k2 w worker x hw hx hr⟩
  intro blockcur buf io1 hr w b hb
  obtain ⟨a, _, _, rfl⟩ :=
    io_read_next_worker hr (hB.map_length.trans hB.reader_max.symm) w b hb
  show task_state_ok _ _ (Function.update a.task_map s.io.reader_index _ s.io.reader_index)
  rw [Function.update_same]
  exact read_next_task_state_ok hB w a

set_option maxRecDepth 100000 in
/-- C9 on S2: after `io_start` slot 0 holds position 1 and is READY. In the
first stripe, when worker 0 alone has completed its task, the task of
worker 1 in slot 0 is pending and READY with position 1. After the whole
stripe was read and consumed, the task of worker 0 in slot 0 was filled by
its callback and is still READY with position 1. -/
theorem task_state_invariant_witness :
    (((S2.start.io.reader_map[0]?).getD demo_worker).task_map 0).position = 1 ∧
    (((S2.start.io.reader_map[0]?).getD demo_worker).task_map 0).state =
      TaskState.TASK_STATE_READY ∧
    task_state_ok S2.blockmax S2.block_is_enabled
      (((S2.start.io.reader_map[0]?).getD demo_worker).task_map 0) ∧
    S2_done.pending 1 0 = true ∧
    (((S2_done.io.reader_map[1]?).getD demo_worker).task_map 0).state =
      TaskState.TASK_STATE_READY ∧
    task_state_ok S2.blockmax S2.block_is_enabled
      (((S2_done.io.reader_map[1]?).getD demo_worker).task_map 0) ∧
    (((S2_stripe.io.reader_map[0]?).getD demo_worker).task_map 0).read_size = 4096 ∧
    (((S2_stripe.io.reader_map[0]?).getD demo_worker).task_map 0).position = 1 ∧
    (((S2_stripe.io.reader_map[0]?).getD demo_worker).task_map 0).state =
      TaskState.TASK_STATE_READY ∧
    task_state_ok S2.blockmax S2.block_is_enabled
      (((S2_stripe.io.reader_map[0]?).getD demo_worker).task_map 0) :=
  ⟨by decide, by decide,
    (task_state_invariant S2 (demo_valid 4 4 1 0 10 _ (by decide)) [] S2.start rfl).1 0
      ((S2.start.io.reader_map[0]?).getD demo_worker) 0
      (option_getD_of_isSome _ _ (by decide)) (by decide),
    by decide, by decide,
    (task_state_invariant S2 (demo_valid 4 4 1 0 10 _ (by decide))
      [Event.read_next, Event.reader_done 0] S2_done (run_getD _ _ _ (by decide))).2.2.2.1 1
      ((S2_done.io.reader_map[1]?).getD demo_worker) 0
      (option_getD_of_isSome _ _ (by decide)) (by decide),
    by decide, by decide, by decide,
    (task_state_invariant S2 (demo_valid 4 4 1 0 10 _ (by decide))
      S2_stripe_events S2_stripe (run_getD _ _ _ (by decide))).2.2.2.2
      keeps_state_demo_reader keeps_state_demo_reader 0
      ((S2_stripe.io.reader_map[0]?).getD demo_worker) 0
      (option_getD_of_isSome _ _ (by decide)) (by decide)
      (fun hnil => absurd hnil (by decide))⟩

/-! ## The bound of the pipeline -/

/-- C10 (pipeline bound). In every state of a run, with `n` the number of
calls of `io_read_next` so far: `block_next` is the value left by exactly
`n + IO_MAX - 1` calls of `io_position_next`; the slot at ring distance `d`
from `reader_index` holds the position number `n - 1 + d`, with
`d <= IO_MAX - 1`, so the scheduled stripes reach at most `IO_MAX - 1` beyond
the one at `reader_index`; and a call of `io_reader_step` that returns a task
never sets the index of its worker to `reader_index`. -/
theorem pipeline_bound (c : Setup) (hc : c.valid) (es : List Event) (s : Pipeline)
    (h : run c.IO_MAX es c.start = some s) :
    s.io.block_next = block_next_after c.block_is_enabled c.blockmax c.blockstart
      (s.returned.length + c.IO_MAX - 1) ∧
    (∀ (w : Nat) (worker : snapraid_worker) (x : Nat), s.io.reader_map[w]? = some worker →
      x < c.IO_MAX → (s.returned = [] → x ≠ s.io.reader_index) →
      ring_dist c.IO_MAX s.io.reader_index x ≤ c.IO_MAX - 1 ∧
      (worker.task_map x).position =
        position_seq c.block_is_enabled c.blockmax c.blockstart
          (s.returned.length + ring_dist c.IO_MAX s.io.reader_index x - 1)) ∧
    (∀ (worker worker1 : snapraid_worker) (slot : Nat),
      io_reader_step c.IO_MAX s.io worker = ReaderStep.task worker1 slot →
      worker1.index = slot ∧ worker1.index ≠ s.io.reader_index) := by
  have hB := Base_reach hc h
  refine ⟨hB.block_next, ?_, ?_⟩
  · intro w worker x hw hx hne
    have := ring_dist_lt hB.reader_index hx
    exact ⟨by omega, hB.position w worker x hw hx hne⟩
  · intro worker worker1 slot hs
    obtain ⟨_, _, hne, rfl⟩ := io_reader_step_task hs
    exact ⟨rfl, hne⟩

set_option maxRecDepth 100000 in
/-- C10 on S2 after seven calls of `io_read_next`: ten positions were
produced. -/
theorem pipeline_bound_witness :
    S2_final.returned.length = 7 ∧
    S2_final.io.block_next = block_next_after S2.block_is_enabled S2.blockmax S2.blockstart
      (S2_final.returned.length + S2.IO_MAX - 1) ∧
    S2_final.io.block_next = 14 :=
  ⟨by decide,
    (pipeline_bound S2 (demo_valid 4 4 1 0 10 _ (by decide)) S2_events S2_final
      (run_getD _ _ _ (by decide))).1,
    by decide⟩

/-! ## Padding positions -/

theorem enabled_cons (p : Nat → Bool) (m s : Nat) (h0 : position_from p m s < m) :
    (List.range' s (m - s)).filter p =
      position_from p m s ::
        (List.range' (position_from p m s + 1) (m - (position_from p m s + 1))).filter p := by
  have hge := position_from_ge p m s
  have hpe := position_from_enabled p m s h0
  have hsk := position_from_skipped p m s
  generalize position_from p m s = q at h0 hge hpe hsk
  have hsplit : List.range' s (m - s) =
      List.range' s (q - s) ++ (q :: List.range' (q + 1) (m - (q + 1))) := by
    have h1 : m - s = ((m - (q + 1)) + 1) + (q - s) := by omega
    have h2 : s + (q - s) = q := by omega
    rw [h1, ← List.range'_append_1, List.range'_succ, h2]
  rw [hsplit, List.filter_append, List.filter_cons]
  have hpre : (List.range' s (q - s)).filter p = [] := by
    rw [List.filter_eq_nil_iff]
    intro i hi
    rw [List.mem_range'_1] at hi
    have := (hsk i hi.1 (by omega)).2
    simp [this]
  rw [hpre, hpe]
  simp

/-- Once the enabled positions are used up, and as long as `block_next` does
not wrap, `io_position_next` produces positions at or beyond `block_max`. -/
theorem position_seq_padding (p : Nat → Bool) (m : Nat) :
    ∀ k s, max s m + k < BLOCK_OFF_MOD →
      ((List.range' s (m - s)).filter p).length ≤ k → m ≤ position_seq p m s k := by
  intro k
  induction k with
  | zero =>
    intro s _ hlen
    show m ≤ position_from p m s
    by_contra h0
    rw [enabled_cons p m s (by omega)] at hlen
    simp at hlen
  | succ k ih =>
    intro s hw hlen
    have hle := position_from_le p m s
    have hb : block_next_after p m s 1 = position_from p m s + 1 := by
      show (position_from p m s + 1) % BLOCK_OFF_MOD = _
      apply Nat.mod_eq_of_lt
      omega
    rw [position_seq_shift, hb]
    by_cases h0 : position_from p m s < m
    · rw [enabled_cons p m s h0] at hlen
      simp only [List.length_cons] at hlen
      apply ih _ _ (by omega)
      rw [Nat.max_eq_right (by omega)]
      have : m ≤ max s m := Nat.le_max_right s m
      omega
    · apply ih
      · have h1 : max (position_from p m s + 1) m = position_from p m s + 1 :=
          Nat.max_eq_left (by omega)
        rw [h1]
        omega
      · have h2 : m - (position_from p m s + 1) = 0 := by omega
        rw [h2]
        simp

/-- The tasks written by `io_start`. -/
theorem start_task (c : Setup) (w : Nat) (b : snapraid_worker) (x : Nat)
    (hb : c.start.io.reader_map[w]? = some b) (hx : x + 1 < c.IO_MAX) :
    (b.task_map x).position = position_seq c.block_is_enabled c.blockmax c.blockstart x ∧
    (b.task_map x).state =
      (if position_seq c.block_is_enabled c.blockmax c.blockstart x < c.blockmax then
        TaskState.TASK_STATE_READY else TaskState.TASK_STATE_EMPTY) := by
  obtain ⟨_, _, _, _, _, _, h7, _, _, _, _, _, h13⟩ :=
    io_start_spec c.IO_MAX c.init c.blockstart c.blockmax c.block_is_enabled (init_length c)
  obtain ⟨a, b2, _, hP, rfl⟩ := h13 w b hb
  show (b2.task_map x).position = _ ∧ (b2.task_map x).state = _
  rw [hP.task_map x, if_pos (by omega)]
  refine ⟨rfl, ?_⟩
  show (if _ < (io_start _ _ _ _ _).block_max then _ else _) = _
  rw [h7]

theorem positions_getLast (c : Setup) (n : Nat) :
    (c.positions (n + 1)).getLast? =
      some (position_seq c.block_is_enabled c.blockmax c.blockstart n) := by
  unfold Setup.positions
  rw [List.range_succ, List.map_append]
  simp

/-- The task handed out by `io_task_read` while a stripe is open carries the
position that the last `io_read_next` returned. -/
theorem task_read_position {c : Setup} {s : Pipeline} (hB : Base c s)
    (hopen : s.returned ≠ []) (base count : Nat) (task : Nat × Nat) (pos : Nat)
    (io1 : snapraid_io)
    (h : io_task_read s.io base count = TaskRead.returned task pos io1) :
    ∃ t q, task_at s.io task = some t ∧ s.returned.getLast? = some q ∧ t.position = q := by
  obtain ⟨_, _, h3, _, ⟨worker, hw, _⟩, _⟩ := io_task_read_returned h
  have hpos := hB.position task.1 worker task.2 hw (by rw [h3]; exact hB.reader_index)
    (fun hnil => absurd hnil hopen)
  refine ⟨worker.task_map task.2, _, by simp [task_at, hw], ?_, hpos⟩
  rw [h3, ring_dist_self]
  have hret := hB.returned
  obtain ⟨n, hn⟩ : ∃ n, s.returned.length = n + 1 := by
    cases hl : s.returned with
    | nil => exact absurd hl hopen
    | cons a l => exact ⟨l.length, rfl⟩
  rw [hret, hn, positions_getLast]
  congr 2
  have : (c.positions (n + 1)).length = n + 1 := by simp [Setup.positions]
  rw [this]
  omega

/-! ## More on the ready list -/

/-- A list encoded from the cell `cell` on is a sublist of the workers from
`cell` on. -/
theorem Linked_sublist {rl : List Nat} {n : Nat} :
    ∀ (L : List Nat) (cell : Nat), Linked rl n cell L →
      List.Sublist L (List.range' cell (n - cell)) := by
  intro L
  induction L with
  | nil => intro cell _; exact List.nil_sublist _
  | cons a L ih =>
    intro cell h
    obtain ⟨_, h2, h3, h4⟩ := h
    have hsplit : List.range' cell (n - cell) =
        List.range' cell (a - cell) ++ (a :: List.range' (a + 1) (n - (a + 1))) := by
      have h5 : n - cell = ((n - (a + 1)) + 1) + (a - cell) := by omega
      have h6 : cell + (a - cell) = a := by omega
      rw [h5, ← List.range'_append_1, List.range'_succ, h6]
    rw [hsplit]
    exact List.Sublist.trans (List.Sublist.cons₂ a (ih (a + 1) h4))
      (List.sublist_append_right _ _)

theorem Linked_pairwise {rl : List Nat} {n cell : Nat} {L : List Nat}
    (h : Linked rl n cell L) : L.Pairwise (fun a b => a < b) :=
  List.Pairwise.sublist (Linked_sublist L cell h) (List.pairwise_lt_range' cell (n - cell))

theorem Linked_nodup {rl : List Nat} {n cell : Nat} {L : List Nat}
    (h : Linked rl n cell L) : L.Nodup :=
  List.Pairwise.imp (fun hab => Nat.ne_of_lt hab) (Linked_pairwise h)

theorem Linked_length_le {rl : List Nat} {n : Nat} {L : List Nat}
    (h : Linked rl n 0 L) : L.length ≤ n := by
  have := (Linked_sublist L 0 h).length_le
  simpa using this

/-- An array encodes at most one list. -/
theorem Linked_unique {rl : List Nat} {n : Nat} :
    ∀ (L L1 : List Nat) (cell : Nat), Linked rl n cell L → Linked rl n cell L1 → L = L1 := by
  intro L
  induction L with
  | nil =>
    intro L1 cell h h1
    exact (Linked_sentinel h1 h).symm
  | cons a L ih =>
    intro L1 cell h h1
    cases L1 with
    | nil => exact Linked_sentinel h h1
    | cons b L1 =>
      obtain ⟨ha, _, _, h4⟩ := h
      obtain ⟨hb, _, _, h8⟩ := h1
      rw [ha] at hb
      simp only [Option.some.injEq] at hb
      subst hb
      rw [ih L1 (a + 1) h4 h8]

theorem eligible_iff (io : snapraid_io) (base count i : Nat) (worker : snapraid_worker)
    (hw : io.reader_map[i]? = some worker) :
    eligible io base count i = true ↔
      (base ≤ i ∧ i < base + count) ∧ io.reader_index ≠ worker.index := by
  simp [eligible, hw]

/-- A pass of `io_task_read` over a well formed list stops at the first
listed worker that passes its two tests, and reaches the sentinel when there
is none. -/
theorem io_task_scan_select (io : snapraid_io) (base count : Nat) :
    ∀ (L : List Nat) (fuel cell : Nat), Linked io.reader_list io.reader_max cell L →
      L.length < fuel → (∀ i, i ∈ L → i < io.reader_map.length) →
      (∀ w, L.find? (eligible io base count) = some w →
        ∃ c, io_task_scan io base count fuel cell = ScanResult.found c w) ∧
      (L.find? (eligible io base count) = none →
        io_task_scan io base count fuel cell = ScanResult.wait) := by
  intro L
  induction L with
  | nil =>
    intro fuel cell hL hf _
    cases fuel with
    | zero => simp at hf
    | succ fuel =>
      have h1 : io.reader_list[cell]? = some io.reader_max := hL
      exact ⟨fun w hw => by simp at hw, fun _ => by simp [io_task_scan, h1]⟩
  | cons a L ih =>
    intro fuel cell hL hf hin
    obtain ⟨h1, _, h3, h4⟩ := hL
    cases fuel with
    | zero => simp at hf
    | succ fuel =>
      have hne : a ≠ io.reader_max := by omega
      have hrec := ih fuel (a + 1) h4 (by simpa using hf)
        (fun i hi => hin i (List.mem_cons_of_mem a hi))
      obtain ⟨worker, ha⟩ : ∃ worker, io.reader_map[a]? = some worker :=
        ⟨_, List.getElem?_eq_getElem (hin a (List.mem_cons_self a L))⟩
      have hel := eligible_iff io base count a worker ha
      by_cases he : eligible io base count a = true
      · obtain ⟨hr, hidx⟩ := hel.1 he
        have hscan : io_task_scan io base count (fuel + 1) cell = ScanResult.found cell a := by
          simp only [io_task_scan, h1, hne, if_false, hr, and_self, if_true, ha, hidx, ne_eq,
            not_false_eq_true]
        rw [List.find?_cons, he]
        refine ⟨fun w hw => ?_, fun hn => by simp at hn⟩
        simp only [Option.some.injEq] at hw
        subst hw
        exact ⟨cell, hscan⟩
      · have hstep : io_task_scan io base count (fuel + 1) cell =
            io_task_scan io base count fuel (a + 1) := by
          by_cases hr : base ≤ a ∧ a < base + count
          · have hidx : ¬ io.reader_index ≠ worker.index := fun h => he (hel.2 ⟨hr, h⟩)
            simp only [io_task_scan, h1, hne, if_false, hr, and_self, if_true, ha, hidx]
          · simp only [io_task_scan, h1, hne, if_false, hr]
        have he1 : eligible io base count a = false := by simpa using he
        rw [List.find?_cons, he1, hstep]
        exact hrec

/-- When no cell holds the sentinel, a pass of `io_task_read` never reaches
the end of the list. -/
theorem io_task_scan_no_wait (io : snapraid_io) (base count : Nat)
    (hno : ∀ v, v ∈ io.reader_list → v ≠ io.reader_max) :
    ∀ fuel cell, io_task_scan io base count fuel cell ≠ ScanResult.wait := by
  intro fuel
  induction fuel with
  | zero => intro cell; simp [io_task_scan]
  | succ fuel ih =>
    intro cell
    simp only [io_task_scan]
    split
    · simp
    · rename_i a ha
      have hne := hno a (List.getElem?_mem ha)
      rw [if_neg hne]
      split
      · split
        · simp
        · split
          · simp
          · exact ih _
      · exact ih _

/-! ## Exited threads -/

/-- A thread that has returned from `io_reader_thread` takes no step, and
stays returned. -/
theorem exited_step {IO_MAX : Nat} {e : Event} {s s1 : Pipeline} {w : Nat}
    (hx : s.thread[w]? = some ThreadState.exited) (h : step IO_MAX e s = some s1) :
    s1.thread[w]? = some ThreadState.exited ∧ e ≠ Event.reader_done w ∧
      e ≠ Event.reader_step w := by
  cases e with
  | read_next =>
    simp only [step] at h
    split at h
    · simp only [Option.some.injEq] at h
      subst h
      simp [hx]
    · simp at h
  | data_read =>
    simp only [step, task_read_step] at h
    split at h
    · simp only [Bool.true_eq_false, if_true, if_false, Option.some.injEq] at h
      subst h
      simp [hx]
    · simp at h
    · simp at h
  | parity_read =>
    simp only [step, task_read_step] at h
    split at h
    · simp only [Bool.false_eq_true, if_true, if_false, Option.some.injEq] at h
      subst h
      simp [hx]
    · simp at h
    · simp at h
  | stop =>
    simp only [step, Option.some.injEq] at h
    subst h
    simp [hx]
  | reader_step v =>
    by_cases hv : v = w
    · subst hv
      simp [step, hx] at h
    · simp only [step] at h
      split at h
      · split at h
        · simp only [Option.some.injEq] at h
          subst h
          simp [hx, List.getElem?_set_ne hv, hv]
        · simp at h
        · split at h <;>
          · simp only [Option.some.injEq] at h
            subst h
            simp [hx, List.getElem?_set_ne hv, hv]
      · simp at h
  | reader_done v =>
    by_cases hv : v = w
    · subst hv
      simp [step, hx] at h
    · simp only [step] at h
      split at h
      · simp only [Option.some.injEq] at h
        subst h
        simp [hx, List.getElem?_set_ne hv, hv]
      · simp at h

theorem exited_run {IO_MAX : Nat} {w : Nat} :
    ∀ (es : List Event) (s s1 : Pipeline), s.thread[w]? = some ThreadState.exited →
      run IO_MAX es s = some s1 →
      s1.thread[w]? = some ThreadState.exited ∧ Event.reader_done w ∉ es ∧
        Event.reader_step w ∉ es := by
  intro es
  induction es with
  | nil =>
    intro s s1 hx h
    simp only [run, Option.some.injEq] at h
    subst h
    simp [hx]
  | cons e es ih =>
    intro s s1 hx h
    simp only [run] at h
    split at h
    · rename_i s0 h0
      obtain ⟨h1, h2, h3⟩ := exited_step hx h0
      obtain ⟨h4, h5, h6⟩ := ih s0 s1 h1 h
      refine ⟨h4, ?_, ?_⟩
      · simp only [List.mem_cons, not_or]
        exact ⟨fun hh => h2 hh.symm, h5⟩
      · simp only [List.mem_cons, not_or]
        exact ⟨fun hh => h3 hh.symm, h6⟩
    · simp at h

/-- What a call of `io_task_read` that returns does to the ready list: it
removes the worker it returns. -/
theorem io_task_read_unlink {io : snapraid_io} {base count : Nat} {task : Nat × Nat}
    {pos : Nat} {io1 : snapraid_io} {L : List Nat}
    (hL : Linked io.reader_list io.reader_max 0 L)
    (h : io_task_read io base count = TaskRead.returned task pos io1) :
    ∃ pre post, L = pre ++ task.1 :: post ∧
      Linked io1.reader_list io1.reader_max 0 (pre ++ post) := by
  simp only [io_task_read] at h
  split at h
  · rename_i cell i hscan
    obtain ⟨_, pre, post, hsplit, _, hset⟩ :=
      io_task_scan_found_linked io base count L _ 0 cell i hL hscan
    split at h
    · rename_i next hnext
      simp only [TaskRead.returned.injEq] at h
      obtain ⟨h1, _, h3⟩ := h
      subst h1 h3
      exact ⟨pre, post, hsplit, hset next hnext⟩
    · simp at h
  · simp at h
  · simp at h
  · simp at h

theorem io_task_read_blocked {io : snapraid_io} {base count : Nat}
    (h : io_task_scan io base count (io.reader_max + 2) 0 = ScanResult.wait) :
    io_task_read io base count = TaskRead.blocked := by
  simp [io_task_read, h]

theorem io_task_read_not_blocked {io : snapraid_io} {base count : Nat}
    (h : io_task_scan io base count (io.reader_max + 2) 0 ≠ ScanResult.wait) :
    io_task_read io base count ≠ TaskRead.blocked := by
  simp only [io_task_read]
  split
  · split <;> simp
  · rename_i h1; exact absurd h1 h
  · simp
  · simp

/-! ## The calls one by one -/

/-- C14 (postcondition of `io_read_next`). When the assertion holds and
there is a worker 0, the call returns. With `r` the value of `reader_index`
before the call and `q` the position obtained from `io_position_next`, the
new `reader_index` is `(r + 1) % IO_MAX`, which is below `IO_MAX`; the slot
stored in `*buffer` is the new `reader_index`; the value returned is the
position of the task of worker 0 in that slot; and for every worker the task
of slot `r` is the one written by `io_reader_sched`, of position `q`, while
the tasks of the other slots and the index of the worker are unchanged. -/
theorem read_next_postcondition (IO_MAX : Nat) (io : snapraid_io) (hD : 0 < IO_MAX)
    (hlen : io.reader_map.length = io.reader_max) (hw : 0 < io.reader_max)
    (hl : io.reader_list[0]? = some io.reader_max) :
    ∃ io1 worker0, io_read_next IO_MAX io =
        some ((worker0.task_map io1.reader_index).position, io1.reader_index, io1) ∧
      io1.reader_map[0]? = some worker0 ∧
      io1.reader_index = (io.reader_index + 1) % IO_MAX ∧ io1.reader_index < IO_MAX ∧
      io1.reader_map.length = io.reader_map.length ∧
      ∀ (w : Nat) (a : snapraid_worker), io.reader_map[w]? = some a →
        ∃ b, io1.reader_map[w]? = some b ∧
          b.task_map io.reader_index =
            sched_task io io.reader_index (io_position_next io).1 w a ∧
          (b.task_map io.reader_index).position = (io_position_next io).1 ∧
          (∀ x, x ≠ io.reader_index → b.task_map x = a.task_map x) ∧
          b.index = a.index := by
  obtain ⟨r, hr⟩ := io_read_next_returns IO_MAX io hl (by omega)
  obtain ⟨_, h2, h3, worker0, h4, h5⟩ := io_read_next_some hr
  have hidx : r.2.2.reader_index = (io.reader_index + 1) % IO_MAX := by
    rw [h2]
  have hmap : r.2.2.reader_map.length = io.reader_map.length := by
    rw [h2]
    simp [io_reader_sched, for_each_reader_length, io_position_next]
  refine ⟨r.2.2, worker0, ?_, h4, hidx, ?_, hmap, ?_⟩
  · rw [hr, hidx, ← h5, ← h3]
  · rw [hidx]
    exact Nat.mod_lt _ hD
  · intro w a ha
    have hwlt : w < r.2.2.reader_map.length := by
      rw [hmap]
      by_contra hcon
      rw [List.getElem?_eq_none (by omega)] at ha
      simp at ha
    have hb := List.getElem?_eq_getElem hwlt
    obtain ⟨a1, ha1, _, hab⟩ := io_read_next_worker hr hlen w _ hb
    rw [ha] at ha1
    simp only [Option.some.injEq] at ha1
    subst ha1
    refine ⟨_, hb, ?_, ?_, ?_, ?_⟩
    · rw [hab]
      simp
    · rw [hab]
      simp [sched_task]
    · intro x hx
      rw [hab]
      simp [Function.update, hx]
    · rw [hab]

set_option maxRecDepth 100000 in
/-- C14 on the first `io_read_next` of S2: it schedules position 5 in slot 3,
moves `reader_index` from 3 to 0 and returns position 1 with the buffers of
slot 0. -/
theorem read_next_postcondition_witness :
    S2.start.io.reader_index = 3 ∧ (io_position_next S2.start.io).1 = 5 ∧
    (io_read_next 4 S2.start.io).map (fun r => (r.1, r.2.1)) = some (1, 0) ∧
    ∃ io1 worker0, io_read_next 4 S2.start.io =
        some ((worker0.task_map io1.reader_index).position, io1.reader_index, io1) ∧
      io1.reader_map[0]? = some worker0 ∧
      io1.reader_index = (S2.start.io.reader_index + 1) % 4 ∧ io1.reader_index < 4 ∧
      io1.reader_map.length = S2.start.io.reader_map.length ∧
      ∀ (w : Nat) (a : snapraid_worker), S2.start.io.reader_map[w]? = some a →
        ∃ b, io1.reader_map[w]? = some b ∧
          b.task_map S2.start.io.reader_index =
            sched_task S2.start.io S2.start.io.reader_index
              (io_position_next S2.start.io).1 w a ∧
          (b.task_map S2.start.io.reader_index).position = (io_position_next S2.start.io).1 ∧
          (∀ x, x ≠ S2.start.io.reader_index → b.task_map x = a.task_map x) ∧
          b.index = a.index :=
  ⟨by decide, by decide, by decide,
    read_next_postcondition 4 S2.start.io (by decide) (by decide) (by decide) (by decide)⟩

/-- C15 (worker step rule). In a state with `done = false`, for a worker of
index `k` and `next = (k + 1) % IO_MAX`: when `next` differs from
`reader_index`, `io_reader_step` stores `next` in the index of the worker and
returns `task_map[next]`; when `next` equals `reader_index` it waits; so it
returns a task exactly when `next` differs from `reader_index`. In the
pipeline, the step that returns changes only the index of that worker in the
shared record, and the step that waits is no step at all. -/
theorem reader_step_rule (IO_MAX : Nat) (s : Pipeline) (w : Nat) (worker : snapraid_worker)
    (hd : s.io.done = false) (ht : s.thread[w]? = some ThreadState.at_step)
    (hw : s.io.reader_map[w]? = some worker) :
    ((worker.index + 1) % IO_MAX ≠ s.io.reader_index →
      io_reader_step IO_MAX s.io worker =
        ReaderStep.task { worker with index := (worker.index + 1) % IO_MAX }
          ((worker.index + 1) % IO_MAX) ∧
      ∃ s1, step IO_MAX (Event.reader_step w) s = some s1 ∧
        s1.io = { s.io with
          reader_map := s.io.reader_map.set w
            { worker with index := (worker.index + 1) % IO_MAX } }) ∧
    ((worker.index + 1) % IO_MAX = s.io.reader_index →
      io_reader_step IO_MAX s.io worker = ReaderStep.blocked ∧
      step IO_MAX (Event.reader_step w) s = none) ∧
    ((∃ worker1 slot, io_reader_step IO_MAX s.io worker = ReaderStep.task worker1 slot) ↔
      (worker.index + 1) % IO_MAX ≠ s.io.reader_index) := by
  have h1 : (worker.index + 1) % IO_MAX ≠ s.io.reader_index →
      io_reader_step IO_MAX s.io worker =
        ReaderStep.task { worker with index := (worker.index + 1) % IO_MAX }
          ((worker.index + 1) % IO_MAX) := by
    intro hne
    simp [io_reader_step, hd, hne]
  have h2 : (worker.index + 1) % IO_MAX = s.io.reader_index →
      io_reader_step IO_MAX s.io worker = ReaderStep.blocked := by
    intro he
    simp [io_reader_step, hd, he]
  refine ⟨fun hne => ⟨h1 hne, ?_⟩, fun he => ⟨h2 he, ?_⟩, ?_⟩
  · simp only [step, ht, hw, h1 hne]
    split
    · exact ⟨_, rfl, rfl⟩
    · exact ⟨_, rfl, rfl⟩
  · simp only [step, ht, hw, h2 he]
  · constructor
    · rintro ⟨worker1, slot, hs⟩ he
      rw [h2 he] at hs
      simp at hs
    · intro hne
      exact ⟨_, _, h1 hne⟩

set_option maxRecDepth 100000 in
/-- C15 on S2: after the first `io_read_next` and the end of its first task,
worker 0 of index 0 takes slot 1, and `reader_index` is 0. -/
theorem reader_step_rule_witness :
    S2_done.io.reader_index = 0 ∧
    ((S2_done.io.reader_map[0]?).getD demo_worker).index = 0 ∧
    io_reader_step 4 S2_done.io ((S2_done.io.reader_map[0]?).getD demo_worker) =
      ReaderStep.task
        { ((S2_done.io.reader_map[0]?).getD demo_worker) with
          index := (((S2_done.io.reader_map[0]?).getD demo_worker).index + 1) % 4 }
        ((((S2_done.io.reader_map[0]?).getD demo_worker).index + 1) % 4) :=
  ⟨by decide, by decide,
    ((reader_step_rule 4 S2_done 0 ((S2_done.io.reader_map[0]?).getD demo_worker)
      (by decide) (by decide) (option_getD_of_isSome _ _ (by decide))).1 (by decide)).1⟩

/-- C16 (shutdown). In a state with `done = true`, `io_reader_step` returns
the null task whatever the index of the worker and `reader_index`; the step
of the thread changes nothing but the control point of that thread, which
has returned from `io_reader_thread`; and in every continuation of the
pipeline that thread takes no further step: it ends no task and calls
`io_reader_step` no more, so it invokes no reader callback. -/
theorem shutdown (IO_MAX : Nat) (s : Pipeline) (w : Nat) (worker : snapraid_worker)
    (hd : s.io.done = true) (ht : s.thread[w]? = some ThreadState.at_step)
    (hw : s.io.reader_map[w]? = some worker) :
    io_reader_step IO_MAX s.io worker = ReaderStep.null ∧
    step IO_MAX (Event.reader_step w) s =
      some { s with thread := s.thread.set w ThreadState.exited } ∧
    ∀ (es : List Event) (s1 : Pipeline),
      run IO_MAX (Event.reader_step w :: es) s = some s1 →
      s1.thread[w]? = some ThreadState.exited ∧ Event.reader_done w ∉ es ∧
        Event.reader_step w ∉ es := by
  have h1 : io_reader_step IO_MAX s.io worker = ReaderStep.null := by
    simp [io_reader_step, hd]
  have h2 : step IO_MAX (Event.reader_step w) s =
      some { s with thread := s.thread.set w ThreadState.exited } := by
    simp only [step, ht, hw, h1]
  refine ⟨h1, h2, ?_⟩
  intro es s1 hrun
  simp only [run, h2] at hrun
  refine exited_run es _ s1 ?_ hrun
  have hlt : w < s.thread.length := by
    by_contra hcon
    rw [List.getElem?_eq_none (by omega)] at ht
    simp at ht
  simp [List.getElem?_set_self hlt]

set_option maxRecDepth 100000 in
/-- C16 on S2: after `io_stop`, worker 0, which could take slot 1, gets the
null task and its thread returns. -/
theorem shutdown_witness :
    S2_stopped.io.done = true ∧
    (((S2_stopped.io.reader_map[0]?).getD demo_worker).index + 1) % 4 ≠
      S2_stopped.io.reader_index ∧
    io_reader_step 4 S2_stopped.io ((S2_stopped.io.reader_map[0]?).getD demo_worker) =
      ReaderStep.null ∧
    (step 4 (Event.reader_step 0) S2_stopped).map (fun s => s.thread[0]?) =
      some (some ThreadState.exited) :=
  ⟨by decide, by decide,
    (shutdown 4 S2_stopped 0 ((S2_stopped.io.reader_map[0]?).getD demo_worker)
      (by decide) (by decide) (option_getD_of_isSome _ _ (by decide))).1,
    by decide⟩

/-! ## Bounds of the arrays -/

/-- C18 (buffer index bound). In every state of the pipeline the task
written by `io_reader_sched` for the worker `i` points at the entry
`buffer_skew + i` of the buffer vector of its slot. A data worker `i` uses
the entry `i`, the parity worker of local index `j` the entry
`handle_max + parity_handle_max + j`. All the entries used are below
`buffer_max` exactly when `buffer_max` is at least
`handle_max + 2 * parity_handle_max` (with a parity worker) or `handle_max`
(without one). With a parity worker the largest entry used is
`handle_max + 2 * parity_handle_max - 1`, which is not below `reader_max`. -/
theorem buffer_index_bound (c : Setup) (hc : c.valid) (es : List Event) (s : Pipeline)
    (h : run c.IO_MAX es c.start = some s) :
    c.init.buffer_max = c.buffer_max ∧
    (∀ (index q i : Nat) (worker : snapraid_worker),
      (sched_task s.io index q i worker).buffer = (index, buffer_entry worker i)) ∧
    ((∀ (i : Nat) (worker : snapraid_worker), s.io.reader_map[i]? = some worker →
        buffer_entry worker i < c.buffer_max) ↔
      (if 1 ≤ c.parity_handle_max then c.handle_max + 2 * c.parity_handle_max ≤ c.buffer_max
        else c.handle_max ≤ c.buffer_max)) ∧
    (∀ (i : Nat) (worker : snapraid_worker), s.io.reader_map[i]? = some worker →
      i < c.handle_max → buffer_entry worker i = i) ∧
    (∀ (j : Nat) (worker : snapraid_worker),
      s.io.reader_map[c.handle_max + j]? = some worker →
      buffer_entry worker (c.handle_max + j) = c.handle_max + c.parity_handle_max + j) ∧
    (1 ≤ c.parity_handle_max →
      (∃ worker, s.io.reader_map[s.io.reader_max - 1]? = some worker ∧
        buffer_entry worker (s.io.reader_max - 1) =
          c.handle_max + 2 * c.parity_handle_max - 1 ∧
        s.io.reader_max ≤ buffer_entry worker (s.io.reader_max - 1)) ∧
      ∀ (i : Nat) (worker : snapraid_worker), s.io.reader_map[i]? = some worker →
        buffer_entry worker i ≤ c.handle_max + 2 * c.parity_handle_max - 1) := by
  have hB := Base_reach hc h
  have hmax := hB.reader_max
  have hlen := hB.map_length
  simp only [Setup.reader_max] at hmax hlen
  have hlt : ∀ (i : Nat) (worker : snapraid_worker), s.io.reader_map[i]? = some worker →
      i < c.handle_max + c.parity_handle_max := by
    intro i worker hw
    by_contra hcon
    rw [List.getElem?_eq_none (by omega)] at hw
    simp at hw
  have hentry : ∀ (i : Nat) (worker : snapraid_worker), s.io.reader_map[i]? = some worker →
      buffer_entry worker i = (if i < c.handle_max then 0 else c.parity_handle_max) + i := by
    intro i worker hw
    simp only [buffer_entry, hB.skew i worker hw]
  have hex : ∀ i, i < c.handle_max + c.parity_handle_max →
      ∃ worker, s.io.reader_map[i]? = some worker :=
    fun i hi => ⟨_, List.getElem?_eq_getElem (by omega)⟩
  refine ⟨rfl, fun _ _ _ _ => rfl, ?_, ?_, ?_, ?_⟩
  · constructor
    · intro hall
      split_ifs with hp
      · obtain ⟨worker, hw⟩ := hex (c.handle_max + c.parity_handle_max - 1) (by omega)
        have h1 := hall _ worker hw
        rw [hentry _ worker hw] at h1
        split_ifs at h1 <;> omega
      · by_cases h0 : c.handle_max = 0
        · omega
        · obtain ⟨worker, hw⟩ := hex (c.handle_max - 1) (by omega)
          have h1 := hall _ worker hw
          rw [hentry _ worker hw] at h1
          split_ifs at h1 <;> omega
    · intro hb i worker hw
      have h1 := hlt i worker hw
      rw [hentry i worker hw]
      split_ifs at hb ⊢ <;> omega
  · intro i worker hw hi
    rw [hentry i worker hw]
    simp [hi]
  · intro j worker hw
    rw [hentry _ worker hw]
    split_ifs <;> omega
  · intro hp
    constructor
    · obtain ⟨worker, hw⟩ := hex (c.handle_max + c.parity_handle_max - 1) (by omega)
      rw [hmax]
      refine ⟨worker, hw, ?_, ?_⟩
      · rw [hentry _ worker hw]
        split_ifs <;> omega
      · rw [hentry _ worker hw]
        split_ifs <;> omega
    · intro i worker hw
      have h1 := hlt i worker hw
      rw [hentry i worker hw]
      split_ifs <;> omega

set_option maxRecDepth 100000 in
/-- C18 on S2, four data workers and one parity worker: the parity worker 4
uses the entry 5 of a vector of 6 buffers. -/
theorem buffer_index_bound_witness :
    S2.buffer_max = 6 ∧ S2.start.io.reader_max = 5 ∧
    buffer_entry ((S2.start.io.reader_map[4]?).getD demo_worker) (4 + 0) = 4 + 1 + 0 :=
  ⟨by decide, by decide,
    (buffer_index_bound S2 (demo_valid 4 4 1 0 10 _ (by decide)) [] S2.start rfl).2.2.2.2.1 0
      ((S2.start.io.reader_map[4]?).getD demo_worker)
      (option_getD_of_isSome _ _ (by decide))⟩

/-- C19 (width of the ready list). The cells of `reader_list` hold values
below 256: `io_start` leaves `reader_max % 256` in the head, and the reset of
`io_read_next` leaves `i % 256` in the cell `i`. The reset list is
`0, 1, .., reader_max` exactly when `reader_max` is at most 255, and so is
the truth of the assertion of the first `io_read_next`, which then returns
(given a worker 0) and otherwise aborts. With 256 workers or more no cell
ever holds `reader_max`, so a pass of `io_task_read` never reads the
sentinel: the call never waits on `read_done`. -/
theorem ready_list_width (c : Setup) :
    c.start.io.reader_list[0]? = some (c.reader_max % UCHAR_MOD) ∧
    (∀ n i, i ≤ n → (reader_list_reset n)[i]? = some (i % UCHAR_MOD)) ∧
    (∀ (io : snapraid_io) (r : Nat × Nat × snapraid_io),
      io_read_next c.IO_MAX io = some r →
      r.2.2.reader_list = reader_list_reset io.reader_max) ∧
    (reader_list_reset c.reader_max = List.range (c.reader_max + 1) ↔ c.reader_max ≤ 255) ∧
    (c.start.io.reader_list[0]? = some c.start.io.reader_max ↔ c.reader_max ≤ 255) ∧
    (0 < c.reader_max →
      ((io_read_next c.IO_MAX c.start.io).isSome = true ↔ c.reader_max ≤ 255)) ∧
    (c.valid → 256 ≤ c.reader_max →
      ∀ (es : List Event) (s : Pipeline), run c.IO_MAX es c.start = some s →
        (∀ v ∈ s.io.reader_list, v ≠ s.io.reader_max) ∧
        ∀ base count, io_task_read s.io base count ≠ TaskRead.blocked) := by
  obtain ⟨hmax, hlist, _, _, _, _, _, _, _, _, _, hlen, _⟩ :=
    io_start_spec c.IO_MAX c.init c.blockstart c.blockmax c.block_is_enabled (init_length c)
  have hstart : c.start.io =
      io_start c.IO_MAX c.init c.blockstart c.blockmax c.block_is_enabled := rfl
  have hinit : c.init.reader_max = c.reader_max := rfl
  have hinitlen : c.init.reader_list.length = c.reader_max + 1 := by
    simp [Setup.init, io_init, Setup.reader_max]
  have hhead : c.start.io.reader_list[0]? = some (c.reader_max % UCHAR_MOD) := by
    rw [hstart, hlist, hinit, List.getElem?_set_self (by omega)]
  have hsmax : c.start.io.reader_max = c.reader_max := by
    rw [hstart, hmax, hinit]
  have hassert : c.start.io.reader_list[0]? = some c.start.io.reader_max ↔
      c.reader_max ≤ 255 := by
    rw [hhead, hsmax]
    simp only [UCHAR_MOD, Option.some.injEq]
    omega
  refine ⟨hhead, ?_, ?_, ?_, hassert, ?_, ?_⟩
  · intro n i hi
    simp [reader_list_reset, List.getElem?_range (Nat.lt_succ_of_le hi)]
  · intro io r hr
    rw [(io_read_next_some hr).2.1]
    simp [io_reader_sched, io_position_next, reader_list_reset]
  · constructor
    · intro heq
      have h1 : (reader_list_reset c.reader_max)[c.reader_max]? =
          (List.range (c.reader_max + 1))[c.reader_max]? := by rw [heq]
      simp only [reader_list_reset, List.getElem?_map,
        List.getElem?_range (Nat.lt_succ_self c.reader_max), Option.map_some'] at h1
      simp only [UCHAR_MOD, Option.some.injEq] at h1
      omega
    · intro hle
      have h1 : ∀ i ∈ List.range (c.reader_max + 1), i % UCHAR_MOD = id i := by
        intro i hi
        simp only [List.mem_range] at hi
        simp only [UCHAR_MOD, id]
        omega
      rw [reader_list_reset, List.map_congr_left h1, List.map_id]
  · intro hpos
    constructor
    · intro hsome
      obtain ⟨r, hr⟩ := Option.isSome_iff_exists.1 hsome
      exact hassert.1 (io_read_next_some hr).1
    · intro hle
      obtain ⟨r, hr⟩ := io_read_next_returns c.IO_MAX c.start.io (hassert.2 hle)
        (by rw [hstart, hlen, hinit]; exact hpos)
      rw [hr]
      rfl
  · intro hc hbig es s hrun
    have hB := Base_reach hc hrun
    have hno : ∀ v ∈ s.io.reader_list, v ≠ s.io.reader_max := by
      intro v hv
      have h1 := hB.uchar v hv
      rw [hB.reader_max]
      simp only [UCHAR_MOD] at h1
      omega
    exact ⟨hno, fun base count =>
      io_task_read_not_blocked (io_task_scan_no_wait s.io base count hno _ _)⟩

set_option maxRecDepth 100000 in
/-- C19 on S2, five workers: the head left by `io_start` is 5 and the first
`io_read_next` returns. On `S_wide`, three hundred workers: the head is
`300 % 256` and `io_data_read` does not wait. -/
theorem ready_list_width_witness :
    S2.reader_max = 5 ∧ S2.start.io.reader_list[0]? = some (S2.reader_max % UCHAR_MOD) ∧
    (io_read_next S2.IO_MAX S2.start.io).isSome = true ∧
    S_wide.reader_max = 300 ∧
    S_wide.start.io.reader_list[0]? = some (S_wide.reader_max % UCHAR_MOD) ∧
    io_data_read S_wide.start.io ≠ TaskRead.blocked :=
  ⟨by decide, (ready_list_width S2).1,
    ((ready_list_width S2).2.2.2.2.2.1 (by decide)).2 (by decide),
    by decide, (ready_list_width S_wide).1,
    ((ready_list_width S_wide).2.2.2.2.2.2 (demo_valid 2 300 0 0 1 _ (by decide)) (by decide)
      [] S_wide.start rfl).2 _ _⟩

/-! ## The ready list -/

/-- The ready list left by a call of `io_read_next` that returns. -/
theorem io_read_next_list {IO_MAX : Nat} {io : snapraid_io} {r : Nat × Nat × snapraid_io}
    (h : io_read_next IO_MAX io = some r) :
    r.2.2.reader_list = (List.range (io.reader_max + 1)).map (fun i => i % UCHAR_MOD) ∧
      r.2.2.reader_max = io.reader_max := by
  rw [(io_read_next_some h).2.1]
  simp [io_reader_sched, io_position_next]

/-- C12 (ready list). In every state of the pipeline: right after a call of
`io_read_next` the array `reader_list`, followed from the cell 0 (the
successor of the worker `i` in the cell `i + 1`), gives the workers
`0, 1, .., reader_max - 1` in this order and then the sentinel `reader_max`;
after the first `io_read_next` the array always encodes a list; the list it
encodes is unique, strictly increasing and a sublist of
`0, .., reader_max - 1`; and a call of `io_task_read` that returns removes
the worker it returns from the list and leaves a list with the same
properties. -/
theorem ready_list_reset (c : Setup) (hc : c.valid) (es : List Event) (s : Pipeline)
    (h : run c.IO_MAX es c.start = some s) :
    (∀ s1, step c.IO_MAX Event.read_next s = some s1 →
      Linked s1.io.reader_list s1.io.reader_max 0 (List.range s1.io.reader_max)) ∧
    (s.returned ≠ [] → ∃ L, Linked s.io.reader_list s.io.reader_max 0 L) ∧
    ∀ L, Linked s.io.reader_list s.io.reader_max 0 L →
      L.Pairwise (fun a b => a < b) ∧ List.Sublist L (List.range s.io.reader_max) ∧
      (∀ L1, Linked s.io.reader_list s.io.reader_max 0 L1 → L1 = L) ∧
      ∀ (base count : Nat) (task : Nat × Nat) (pos : Nat) (io1 : snapraid_io),
        io_task_read s.io base count = TaskRead.returned task pos io1 →
        io1.reader_max = s.io.reader_max ∧
        ∃ pre post, L = pre ++ task.1 :: post ∧
          Linked io1.reader_list io1.reader_max 0 (pre ++ post) ∧
          (pre ++ post).Pairwise (fun a b => a < b) ∧
          List.Sublist (pre ++ post) (List.range io1.reader_max) := by
  have hB := Base_reach hc h
  refine ⟨?_, ?_, ?_⟩
  · intro s1 hstep
    simp only [step] at hstep
    split at hstep
    · rename_i blockcur buf io1 hr
      simp only [Option.some.injEq] at hstep
      subst hstep
      have h1 := (io_read_next_some hr).1
      have hn : s.io.reader_max < UCHAR_MOD := hB.uchar _ (List.getElem?_mem h1)
      obtain ⟨h2, h3⟩ := io_read_next_list hr
      simp only at h2 h3 ⊢
      rw [h2, h3]
      have h4 := Linked_reset s.io.reader_max hn s.io.reader_max 0 (by omega)
      rw [← List.range_eq_range'] at h4
      exact h4
    · simp at hstep
  · intro hopen
    obtain ⟨_, L, hL, _⟩ := hB.ready hopen
    rw [hB.reader_max]
    exact ⟨L, hL⟩
  · intro L hL
    have hsub : ∀ (n : Nat) (rl : List Nat) (L0 : List Nat), Linked rl n 0 L0 →
        List.Sublist L0 (List.range n) := by
      intro n rl L0 h0
      have := Linked_sublist L0 0 h0
      rw [List.range_eq_range']
      simpa using this
    refine ⟨Linked_pairwise hL, hsub _ _ _ hL, fun L1 hL1 => Linked_unique L1 L 0 hL1 hL, ?_⟩
    intro base count task pos io1 hret
    obtain ⟨pre, post, hsplit, hL1⟩ := io_task_read_unlink hL hret
    exact ⟨(io_task_read_returned hret).2.2.2.2.2.2.2.1,
      pre, post, hsplit, hL1, Linked_pairwise hL1, hsub _ _ _ hL1⟩

set_option maxRecDepth 100000 in
/-- C12 on S2: after the first `io_read_next` the list is `0, 1, 2, 3, 4`;
when worker 0 alone has moved on, `io_data_read` returns it and leaves
`1, 2, 3, 4`. -/
theorem ready_list_reset_witness :
    Linked S2_first.io.reader_list S2_first.io.reader_max 0 [0, 1, 2, 3, 4] ∧
    (io_data_read S2_first.io).result = some ((0, 0), 0) ∧
    ([0, 1, 2, 3, 4] : List Nat).Pairwise (fun a b => a < b) ∧
    List.Sublist [0, 1, 2, 3, 4] (List.range S2_first.io.reader_max) :=
  ⟨by decide, by decide,
    ((ready_list_reset S2 (demo_valid 4 4 1 0 10 _ (by decide))
      [Event.read_next, Event.reader_done 0, Event.reader_step 0] S2_first
      (run_getD _ _ _ (by decide))).2.2 [0, 1, 2, 3, 4] (by decide)).1,
    ((ready_list_reset S2 (demo_valid 4 4 1 0 10 _ (by decide))
      [Event.read_next, Event.reader_done 0, Event.reader_step 0] S2_first
      (run_getD _ _ _ (by decide))).2.2 [0, 1, 2, 3, 4] (by decide)).2.1⟩

/-- C17 (assertion of `io_read_next`). With at most 255 workers, in every
state of the pipeline: before the first `io_read_next` the check
`reader_list[0] == reader_max` holds; after it, the check holds exactly when
`io_data_read` has returned `data_count` times and `io_parity_read`
`parity_count` times since the last `io_read_next`; the check fails, and
`io_read_next` aborts, whenever the ready list still holds a worker; and
(given a worker 0) `io_read_next` returns exactly when the check holds. -/
theorem assertion_validity (c : Setup) (hc : c.valid) (hn : c.reader_max ≤ 255)
    (es : List Event) (s : Pipeline) (h : run c.IO_MAX es c.start = some s) :
    (s.returned = [] → s.io.reader_list[0]? = some s.io.reader_max) ∧
    (s.returned ≠ [] →
      (s.io.reader_list[0]? = some s.io.reader_max ↔
        s.data_taken.length = s.io.data_count ∧
          s.parity_taken.length = s.io.parity_count)) ∧
    (∀ L, Linked s.io.reader_list s.io.reader_max 0 L → L ≠ [] →
      s.io.reader_list[0]? ≠ some s.io.reader_max ∧ io_read_next c.IO_MAX s.io = none) ∧
    (0 < c.reader_max →
      ((io_read_next c.IO_MAX s.io).isSome = true ↔
        s.io.reader_list[0]? = some s.io.reader_max)) := by
  have hB := Base_reach hc h
  have h256 : c.reader_max < UCHAR_MOD := by
    simp only [UCHAR_MOD]
    omega
  refine ⟨?_, ?_, ?_, ?_⟩
  · intro hclosed
    rw [hB.reader_max]
    exact hB.closed hclosed h256
  · intro hopen
    obtain ⟨_, L, hL, hperm, _, _⟩ := hB.ready hopen
    obtain ⟨hd, hp⟩ := taken_length_le hB hopen
    have hlen := hperm.length_eq
    simp only [List.length_append, List.length_range, Setup.reader_max] at hlen
    rw [hB.reader_max, hB.data_count, hB.parity_count]
    constructor
    · intro h0
      have hnil := Linked_sentinel hL h0
      subst hnil
      simp only [List.length_nil] at hlen
      omega
    · rintro ⟨h1, h2⟩
      have hnil : L = [] := List.eq_nil_of_length_eq_zero (by omega)
      subst hnil
      exact hL
  · intro L hL hne
    have h0 : s.io.reader_list[0]? ≠ some s.io.reader_max := by
      intro h0
      exact hne (Linked_sentinel hL h0)
    refine ⟨h0, ?_⟩
    cases hr : io_read_next c.IO_MAX s.io with
    | none => rfl
    | some r => exact absurd (io_read_next_some hr).1 h0
  · intro hpos
    constructor
    · intro hsome
      obtain ⟨r, hr⟩ := Option.isSome_iff_exists.1 hsome
      exact (io_read_next_some hr).1
    · intro h0
      obtain ⟨r, hr⟩ := io_read_next_returns c.IO_MAX s.io h0
        (by rw [hB.map_length]; exact hpos)
      rw [hr]
      rfl

set_option maxRecDepth 100000 in
/-- C17 on S2: when only worker 0 was consumed in the first stripe, the
check fails; after the whole stripe it holds. -/
theorem assertion_validity_witness :
    S2_first.returned ≠ [] ∧ S2_first.data_taken.length = 0 ∧ S2_first.io.data_count = 4 ∧
    ¬ (S2_first.io.reader_list[0]? = some S2_first.io.reader_max) ∧
    (S2_stripe.io.reader_list[0]? = some S2_stripe.io.reader_max ↔
      S2_stripe.data_taken.length = S2_stripe.io.data_count ∧
        S2_stripe.parity_taken.length = S2_stripe.io.parity_count) ∧
    S2_stripe.data_taken.length = 4 ∧ S2_stripe.parity_taken.length = 1 :=
  ⟨by decide, by decide, by decide, by decide,
    (assertion_validity S2 (demo_valid 4 4 1 0 10 _ (by decide)) (by decide)
      S2_stripe_events S2_stripe (run_getD _ _ _ (by decide))).2.1 (by decide),
    by decide, by decide⟩

/-! ## What the caller is handed -/

/-- C13 (selection rule of `io_task_read`). For a record whose ready list
encodes `L`: a worker passes the two tests of the scan exactly when it lies
in `[base, base + count)` and its index differs from `reader_index`. When
`w` is the first worker of `L` that passes, the call returns the task of `w`
in the slot `reader_index` with `*pos = w - base`, removes `w` from the list
and leaves the other workers in it, and changes neither the workers nor
`reader_index`; `w` is the least worker of `L` that passes. When no worker of
`L` passes, the call waits. -/
theorem selection_rule (io : snapraid_io) (base count : Nat) (L : List Nat)
    (hlen : io.reader_map.length = io.reader_max)
    (hL : Linked io.reader_list io.reader_max 0 L) :
    (∀ (i : Nat) (worker : snapraid_worker), io.reader_map[i]? = some worker →
      (eligible io base count i = true ↔
        (base ≤ i ∧ i < base + count) ∧ io.reader_index ≠ worker.index)) ∧
    (∀ w, L.find? (eligible io base count) = some w →
      (∃ io1, io_task_read io base count =
          TaskRead.returned (w, io.reader_index) (w - base) io1 ∧
        Linked io1.reader_list io1.reader_max 0 (L.erase w) ∧
        io1.reader_map = io.reader_map ∧ io1.reader_index = io.reader_index) ∧
      w ∈ L ∧ eligible io base count w = true ∧
      ∀ v ∈ L, eligible io base count v = true → w ≤ v) ∧
    (L.find? (eligible io base count) = none →
      io_task_read io base count = TaskRead.blocked) ∧
    (L.find? (eligible io base count) = none ↔
      ∀ v ∈ L, eligible io base count v = false) := by
  have hbound := Linked_bounds L 0 hL
  have hsel := io_task_scan_select io base count L (io.reader_max + 2) 0 hL
    (by have := Linked_length_le hL; omega)
    (fun i hi => by rw [hlen]; exact (hbound i hi).2)
  have hpw := Linked_pairwise hL
  refine ⟨fun i worker hw => eligible_iff io base count i worker hw, ?_, ?_, ?_⟩
  · intro w hfind
    obtain ⟨cell, hscan⟩ := hsel.1 w hfind
    obtain ⟨_, pre, post, hsplit, ⟨next, hnext⟩, hset⟩ :=
      io_task_scan_found_linked io base count L _ 0 cell w hL hscan
    obtain ⟨hp, as, bs, has, hnot⟩ := List.find?_eq_some.1 hfind
    refine ⟨⟨{ io with reader_list := io.reader_list.set cell next }, ?_, ?_, rfl, rfl⟩,
      by rw [hsplit]; simp, hp, ?_⟩
    · simp [io_task_read, hscan, hnext]
    · have hnotin : w ∉ pre := by
        intro hin
        rw [hsplit] at hpw
        have := (List.pairwise_append.1 hpw).2.2 w hin w (List.mem_cons_self w post)
        omega
      have herase : L.erase w = pre ++ post := by
        rw [hsplit, List.erase_append_right _ hnotin, List.erase_cons_head]
      rw [herase]
      exact hset next hnext
    · intro v hv hev
      rw [has] at hv hpw
      rcases List.mem_append.1 hv with h1 | h1
      · have := hnot v h1
        rw [hev] at this
        simp at this
      · rcases List.mem_cons.1 h1 with h2 | h2
        · omega
        · have := List.rel_of_pairwise_cons (List.pairwise_append.1 hpw).2.1 h2
          omega
  · intro hnone
    exact io_task_read_blocked (hsel.2 hnone)
  · rw [List.find?_eq_none]
    simp

set_option maxRecDepth 100000 in
/-- C13 on S2: in the first stripe, when only worker 2 has moved on,
`io_data_read` passes over the workers 0 and 1, returns the task of worker 2
and leaves `0, 1, 3, 4` in the list; `io_parity_read` waits. -/
theorem selection_rule_witness :
    List.find? (eligible S2_skip.io 0 4) [0, 1, 2, 3, 4] = some 2 ∧
    (io_data_read S2_skip.io).result = some ((2, 0), 2) ∧
    io_task_read S2_skip.io 4 1 = TaskRead.blocked ∧
    ∃ io1, io_task_read S2_skip.io 0 4 =
        TaskRead.returned (2, S2_skip.io.reader_index) (2 - 0) io1 ∧
      Linked io1.reader_list io1.reader_max 0 ([0, 1, 2, 3, 4].erase 2) ∧
      io1.reader_map = S2_skip.io.reader_map ∧ io1.reader_index = S2_skip.io.reader_index :=
  ⟨by decide, by decide,
    (selection_rule S2_skip.io 4 1 [0, 1, 2, 3, 4] (by decide) (by decide)).2.2.1 (by decide),
    ((selection_rule S2_skip.io 0 4 [0, 1, 2, 3, 4] (by decide) (by decide)).2.1 2
      (by decide)).1⟩

/-- C11 (padding slots), with the conditions under which it holds. After
`io_start`, a scheduled slot `x` beyond the enabled positions of the range
holds for every worker an EMPTY task of position at least `block_max`,
provided the positions up to that slot do not wrap around `block_off_t`.
With at most 255 workers, in every state of the pipeline: before the first
`io_read_next`, `io_data_read` and `io_parity_read` wait; and the task they
return is a task of the slot `reader_index`, whose position is the value the
last `io_read_next` returned, so it is below `block_max` as long as every
value returned by `io_read_next` was. -/
theorem padding_slots (c : Setup) (hc : c.valid) :
    (∀ (w : Nat) (b : snapraid_worker) (x : Nat), c.start.io.reader_map[w]? = some b →
      x + 1 < c.IO_MAX → c.enabled.length ≤ x →
      max c.blockstart c.blockmax + x < BLOCK_OFF_MOD →
      (b.task_map x).state = TaskState.TASK_STATE_EMPTY ∧
        c.start.io.block_max ≤ (b.task_map x).position) ∧
    ∀ (es : List Event) (s : Pipeline), run c.IO_MAX es c.start = some s →
      c.reader_max ≤ 255 →
      (s.returned = [] →
        io_data_read s.io = TaskRead.blocked ∧ io_parity_read s.io = TaskRead.blocked) ∧
      ∀ (task : Nat × Nat) (pos : Nat) (io1 : snapraid_io),
        io_data_read s.io = TaskRead.returned task pos io1 ∨
          io_parity_read s.io = TaskRead.returned task pos io1 →
        task.2 = s.io.reader_index ∧
        ∃ t q, task_at s.io task = some t ∧ s.returned.getLast? = some q ∧
          t.position = q ∧
          ((∀ q1 ∈ s.returned, q1 < s.io.block_max) → t.position < s.io.block_max) := by
  constructor
  · intro w b x hb hx hlen hwrap
    obtain ⟨h1, h2⟩ := start_task c w b x hb hx
    have hpad := position_seq_padding c.block_is_enabled c.blockmax x c.blockstart hwrap hlen
    have hmax : c.start.io.block_max = c.blockmax := (Base_start c hc).block_max
    rw [h1, h2, hmax]
    exact ⟨if_neg (by omega), hpad⟩
  · intro es s hrun hn
    have hB := Base_reach hc hrun
    have h256 : c.reader_max < UCHAR_MOD := by
      simp only [UCHAR_MOD]
      omega
    have hblocked : s.returned = [] → ∀ base count,
        io_task_read s.io base count = TaskRead.blocked := by
      intro hclosed base count
      have h0 := hB.closed hclosed h256
      rw [← hB.reader_max] at h0
      exact io_task_read_blocked (by simp [io_task_scan, h0])
    refine ⟨fun hclosed => ⟨hblocked hclosed _ _, hblocked hclosed _ _⟩, ?_⟩
    intro task pos io1 hret
    have hret1 : ∃ base count,
        io_task_read s.io base count = TaskRead.returned task pos io1 := by
      rcases hret with h1 | h1
      · exact ⟨_, _, h1⟩
      · exact ⟨_, _, h1⟩
    obtain ⟨base, count, hret2⟩ := hret1
    have hopen : s.returned ≠ [] := by
      intro hclosed
      rw [hblocked hclosed base count] at hret2
      simp at hret2
    obtain ⟨t, q, ht, hq, htq⟩ := task_read_position hB hopen base count task pos io1 hret2
    refine ⟨(io_task_read_returned hret2).2.2.1, t, q, ht, hq, htq, ?_⟩
    intro hall
    rw [htq]
    exact hall q (List.mem_of_getLast?_eq_some hq)

set_option maxRecDepth 100000 in
/-- C11 on S3, the range `[0, 2)` with depth 8: the slots 2 to 6 hold EMPTY
tasks of position at least 2 after `io_start`, and the task `io_data_read`
returns in the second stripe has position 1. -/
theorem padding_slots_witness :
    S3.enabled.length = 2 ∧ S3.start.io.block_max = 2 ∧
    (((S3.start.io.reader_map[0]?).getD demo_worker).task_map 4).state =
      TaskState.TASK_STATE_EMPTY ∧
    S3.start.io.block_max ≤ (((S3.start.io.reader_map[0]?).getD demo_worker).task_map 4).position ∧
    S3_second.returned = [0, 1] ∧
    (io_data_read S3_second.io).result = some ((0, 1), 0) ∧
    (task_at S3_second.io (0, 1)).map (fun t => t.position) = some 1 :=
  ⟨by decide, by decide,
    ((padding_slots S3 (demo_valid 8 4 1 0 2 _ (by decide))).1 0
      ((S3.start.io.reader_map[0]?).getD demo_worker) 4
      (option_getD_of_isSome _ _ (by decide)) (by decide) (by decide) (by decide)).1,
    ((padding_slots S3 (demo_valid 8 4 1 0 2 _ (by decide))).1 0
      ((S3.start.io.reader_map[0]?).getD demo_worker) 4
      (option_getD_of_isSome _ _ (by decide)) (by decide) (by decide) (by decide)).2,
    by decide, by decide, by decide⟩

set_option maxRecDepth 100000 in
/-- C11 as stated fails twice. On S3 (range `[0, 2)`, depth 8, every
position enabled) the third `io_read_next` returns 2, which is `block_max`,
and once worker 0 has moved on `io_data_read` returns its task of slot 2,
whose position is 2. On `S_top` (depth 3, empty range at the last value of
`block_off_t`) no position is enabled, and `io_start` leaves in slot 1 a
READY task of position 0: `block_next` wrapped around. -/
theorem padding_counterexample :
    (S3.enabled = [0, 1] ∧ S3.IO_MAX = 8 ∧ S3.start.io.block_max = 2 ∧
      (run S3.IO_MAX (S3_events ++ [Event.reader_step 0]) S3.start).isSome = true ∧
      S3_padding.returned = [0, 1, 2] ∧
      (io_data_read S3_padding.io).result = some ((0, 2), 0) ∧
      (task_at S3_padding.io (0, 2)).map (fun t => (t.position, t.state)) =
        some (2, TaskState.TASK_STATE_EMPTY) ∧
      S3_padding.io.block_max = 2) ∧
    (S_top.enabled = [] ∧ S_top.IO_MAX = 3 ∧ S_top.start.io.block_max = 4294967295 ∧
      (S_top.start.io.reader_map[0]?).map
          (fun b => ((b.task_map 1).state, (b.task_map 1).position)) =
        some (TaskState.TASK_STATE_READY, 0)) :=
  ⟨⟨by decide, by decide, by decide, by decide, by decide, by decide, by decide, by decide⟩,
    ⟨by decide, by decide, by decide, by decide⟩⟩

end Snapraid
